import Mathlib

/-!
Verification of the GEM optimisation and refactorisation passes
(`gem/optimise.py`, `gem/refactorise.py`): a shallow embedding of the
expression substrate and the rewrite passes, with theorems checking the
specification's claims.

The expression-node substrate (`gem/gem.py`, `gem/node.py`) is not part of
the sources under verification; its data model is modelled from the spec
(sections 3 and 6): an immutable structural tree of nodes, free/fixed/
variable indices, structural equality.  Node constructors are plain
structural constructors, except `Delta`, whose collapse of `Delta(i, i)`
to `one` is required by the spec's delta-elimination description
("remove ... the delta factor", "Drop any resulting unit-valued factors").
-/

namespace Gem

/-- Free (summation) index of the substrate: identity-compared, carries a
finite extent (spec section 3: a free index "has a finite extent"). -/
structure Index where
  id : Nat
  extent : Nat
deriving DecidableEq, Repr

/-- Index occurrence in a multiindex: a free `Index`, a fixed integer, or a
runtime variable index (opaque payload). -/
inductive IdxRef where
  | free (i : Index)
  | fixed (n : Int)
  | varIdx (v : Nat)
deriving DecidableEq, Repr

/-- Comparison operators of the substrate's `Comparison` node. -/
inductive CompOp where
  | opEq | opNe | opLt | opLe | opGt | opGe
deriving DecidableEq, Repr

mutual

/-- GEM expression nodes, modelled from the spec's node-kind taxonomy
(spec sections 3 and 6).  `Literal` is a scalar rational; `ListTensor` is
modelled one-dimensional, its element list represented by the mutual
`ExprList` (isomorphic to `List Expr`); `Variable` and `MathFunction`
names are opaque naturals. -/
inductive Expr where
  | Literal (v : ℚ)
  | Zero (sh : List Nat)
  | Identity (n : Nat)
  | Failure (sh : List Nat)
  | Variable (name : Nat) (sh : List Nat)
  | Sum (a b : Expr)
  | Product (a b : Expr)
  | Division (a b : Expr)
  | Power (a b : Expr)
  | MathFunction (f : Nat) (a : Expr)
  | LogicalAnd (a b : Expr)
  | LogicalOr (a b : Expr)
  | LogicalNot (a : Expr)
  | Comparison (op : CompOp) (a b : Expr)
  | Conditional (c t e : Expr)
  | IndexSum (body : Expr) (mi : List Index)
  | ComponentTensor (body : Expr) (mi : List Index)
  | ListTensor (elems : ExprList)
  | Delta (i j : IdxRef)
  | Indexed (child : Expr) (mi : List IdxRef)
  | FlexiblyIndexed (child : Expr) (dim2idxs : List (Nat × List (IdxRef × Nat)))
deriving DecidableEq, Repr

/-- Element list of a `ListTensor` (isomorphic to `List Expr`). -/
inductive ExprList where
  | nil
  | cons (e : Expr) (rest : ExprList)
deriving DecidableEq, Repr

end

/-- The unit expression `one = Literal(1)` of the substrate. -/
def one : Expr := .Literal 1

/-- Free indices of an `IdxRef` (a free index contributes itself). -/
def IdxRef.frees : IdxRef → Finset Index
  | .free i => {i}
  | _ => ∅

/-- Free indices of a multiindex of `IdxRef`s. -/
def refsFrees (l : List IdxRef) : Finset Index :=
  l.foldl (fun acc r => acc ∪ r.frees) ∅

/-- Conversion from the mutual element-list representation to `List Expr`. -/
def ExprList.toList : ExprList → List Expr
  | .nil => []
  | .cons e rest => e :: rest.toList

/-- Conversion from `List Expr` to the mutual element-list representation. -/
def ExprList.ofList : List Expr → ExprList
  | [] => .nil
  | e :: rest => .cons e (ExprList.ofList rest)

mutual

/-- Free indices of an expression (substrate bookkeeping, spec section 3:
indices not bound by an enclosing contraction or component-tensor). -/
def Expr.freeIndices : Expr → Finset Index
  | .Literal _ | .Zero _ | .Identity _ | .Failure _ | .Variable _ _ => ∅
  | .Sum a b | .Product a b | .Division a b | .Power a b
  | .LogicalAnd a b | .LogicalOr a b | .Comparison _ a b =>
      a.freeIndices ∪ b.freeIndices
  | .MathFunction _ a | .LogicalNot a => a.freeIndices
  | .Conditional c t e => c.freeIndices ∪ t.freeIndices ∪ e.freeIndices
  | .IndexSum body mi => body.freeIndices \ mi.toFinset
  | .ComponentTensor body mi => body.freeIndices \ mi.toFinset
  | .ListTensor elems => elems.frees
  | .Delta i j => i.frees ∪ j.frees
  | .Indexed child mi => child.freeIndices ∪ refsFrees mi
  | .FlexiblyIndexed child d2i =>
      child.freeIndices ∪
        (d2i.map (fun p => refsFrees (p.2.map Prod.fst))).foldl (· ∪ ·) ∅

/-- Union of the free indices of the elements of an `ExprList`. -/
def ExprList.frees : ExprList → Finset Index
  | .nil => ∅
  | .cons e rest => e.freeIndices ∪ rest.frees

end

/-- Delta smart constructor.  Modelled from the spec: the substrate's
`Delta` constructor collapses a delta with equal operands to `one`
(delta elimination "remove[s] the summation index and the delta factor"
and drops "any resulting unit-valued factors"; concrete scenario 2);
without this collapse the visible delta-elimination loop could not remove
a processed delta from its factor list. -/
def mkDelta (i j : IdxRef) : Expr := if i = j then one else .Delta i j

/-- Substitution rules (`subst` in `replace_indices`): pairs of a free
index to replace and an index occurrence to replace it with.  Looked up
with Python `dict` semantics (later pairs win). -/
abbrev Subst := List (Index × IdxRef)

/-- Python `dict(subst).get(i, None)`: last-wins lookup. -/
def substLookup (s : Subst) (i : Index) : Option IdxRef :=
  s.foldl (fun acc p => if p.1 = i then some p.2 else acc) none

/-- Python `substitute.get(r, r)` on an index occurrence: only a free
index can hit a substitution rule. -/
def applyRef (s : Subst) : IdxRef → IdxRef
  | .free i => (substLookup s i).getD (.free i)
  | r => r

/-- Python `substitute.update(news)` followed by `items()`: under the
last-wins lookup, appending the new pairs realises the override.  The
source additionally sorts the items, which only canonicalises
memoisation keys and cannot affect the result. -/
def substUpdate (s : Subst) (news : List (Index × IdxRef)) : Subst :=
  s ++ news

/-- Filter of `filtered_replace_indices`: drop substitution rules that do
not apply to the node's free indices. -/
def substFilter (s : Subst) (e : Expr) : Subst :=
  s.filter (fun p => p.1 ∈ e.freeIndices)

mutual

/-- Combined `filtered_replace_indices` / `replace_indices` recursion, as
run by `MemoizerArg(filtered_replace_indices)`: on entry the rules not
applying to the node's free indices are dropped, then the node is
rewritten with the per-kind handlers of `replace_indices`
(`Delta`, `Indexed`, `FlexiblyIndexed`) or the default handler
`reuse_if_untouched_arg`, which rebuilds the node from its rewritten
children (returning a value equal to the input when nothing changed, so
the source's physical-identity shortcut is the identity function here).
Memoisation is semantically transparent for this pure recursion and is
not modelled. -/
def fri (e : Expr) (s : Subst) : Expr :=
  let s := substFilter s e
  match e with
  | .Literal v => .Literal v
  | .Zero sh => .Zero sh
  | .Identity n => .Identity n
  | .Failure sh => .Failure sh
  | .Variable name sh => .Variable name sh
  | .Sum a b => .Sum (fri a s) (fri b s)
  | .Product a b => .Product (fri a s) (fri b s)
  | .Division a b => .Division (fri a s) (fri b s)
  | .Power a b => .Power (fri a s) (fri b s)
  | .MathFunction f a => .MathFunction f (fri a s)
  | .LogicalAnd a b => .LogicalAnd (fri a s) (fri b s)
  | .LogicalOr a b => .LogicalOr (fri a s) (fri b s)
  | .LogicalNot a => .LogicalNot (fri a s)
  | .Comparison op a b => .Comparison op (fri a s) (fri b s)
  | .Conditional c t f => .Conditional (fri c s) (fri t s) (fri f s)
  | .IndexSum body mi => .IndexSum (fri body s) mi
  | .ComponentTensor body mi => .ComponentTensor (fri body s) mi
  | .ListTensor elems => .ListTensor (friList elems s)
  | .Delta i j =>
      -- `replace_indices_delta`: rebuild through the (collapsing) smart
      -- constructor only when an operand changed
      let i' := applyRef s i
      let j' := applyRef s j
      if i' = i ∧ j' = j then .Delta i j else mkDelta i' j'
  | .Indexed (.ComponentTensor body bmi) mi =>
      -- `replace_indices_indexed`, indexing into a ComponentTensor:
      -- inline the ComponentTensor and augment the substitution rules
      fri body (substUpdate s (bmi.zip (mi.map (applyRef s))))
  | .Indexed child mi =>
      -- `replace_indices_indexed`, ordinary child (not a ComponentTensor)
      .Indexed (fri child s) (mi.map (applyRef s))
  | .FlexiblyIndexed child d2i =>
      -- `replace_indices_flexiblyindexed`; the source asserts that the
      -- child is a terminal without free indices (substrate invariant)
      .FlexiblyIndexed child
        (d2i.map (fun p => (p.1, p.2.map (fun q => (applyRef s q.1, q.2)))))
termination_by sizeOf e
decreasing_by all_goals simp_wf <;> omega

/-- Rewrites every element of a `ListTensor` (default-handler recursion
into the element list). -/
def friList (l : ExprList) (s : Subst) : ExprList :=
  match l with
  | .nil => .nil
  | .cons e rest => .cons (fri e s) (friList rest s)
termination_by sizeOf l
decreasing_by all_goals simp_wf <;> omega

end

/-- Removes all ComponentTensors in a multi-root expression DAG
(`remove_componenttensors`): index substitution with an empty initial
substitution. -/
def remove_componenttensors (expressions : List Expr) : List Expr :=
  expressions.map (fun e => fri e [])

mutual

/-- Expression contains no ComponentTensor node. -/
def Expr.ctFree : Expr → Bool
  | .Literal _ | .Zero _ | .Identity _ | .Failure _ | .Variable _ _
  | .Delta _ _ => true
  | .Sum a b | .Product a b | .Division a b | .Power a b
  | .LogicalAnd a b | .LogicalOr a b | .Comparison _ a b =>
      a.ctFree && b.ctFree
  | .MathFunction _ a | .LogicalNot a => a.ctFree
  | .Conditional c t f => c.ctFree && t.ctFree && f.ctFree
  | .IndexSum body _ => body.ctFree
  | .ComponentTensor _ _ => false
  | .ListTensor elems => elems.ctFreeL
  | .Indexed child _ => child.ctFree
  | .FlexiblyIndexed child _ => child.ctFree

/-- Every element of the list is free of ComponentTensor nodes. -/
def ExprList.ctFreeL : ExprList → Bool
  | .nil => true
  | .cons e rest => e.ctFree && rest.ctFreeL

end

mutual

/-- Expression contains no Indexed node whose child is a ComponentTensor
(the only configuration in which `replace_indices` grows the pending
substitution). -/
def Expr.noICT : Expr → Bool
  | .Literal _ | .Zero _ | .Identity _ | .Failure _ | .Variable _ _
  | .Delta _ _ => true
  | .Sum a b | .Product a b | .Division a b | .Power a b
  | .LogicalAnd a b | .LogicalOr a b | .Comparison _ a b =>
      a.noICT && b.noICT
  | .MathFunction _ a | .LogicalNot a => a.noICT
  | .Conditional c t f => c.noICT && t.noICT && f.noICT
  | .IndexSum body _ => body.noICT
  | .ComponentTensor body _ => body.noICT
  | .ListTensor elems => elems.noICTL
  | .Indexed (.ComponentTensor _ _) _ => false
  | .Indexed child _ => child.noICT
  | .FlexiblyIndexed child _ => child.noICT

/-- Every element of the list satisfies `noICT`. -/
def ExprList.noICTL : ExprList → Bool
  | .nil => true
  | .cons e rest => e.noICT && rest.noICTL

end

/-- Application of the empty substitution to an index occurrence is the
identity. -/
theorem applyRef_nil (r : IdxRef) : applyRef [] r = r := by
  cases r <;> rfl

/-- Mapping the empty substitution over a multiindex is the identity. -/
theorem map_applyRef_nil (l : List IdxRef) : l.map (applyRef []) = l := by
  induction l with
  | nil => simp
  | cons r t ih => simp [applyRef_nil, ih]


/-- Simultaneous strong induction over `Expr` and `ExprList`, by `sizeOf`.
Used throughout in place of the primitive mutual recursor. -/
theorem exprMutInd (P : Expr → Prop) (Q : ExprList → Prop)
    (he : ∀ e : Expr, (∀ e' : Expr, sizeOf e' < sizeOf e → P e') →
      (∀ l' : ExprList, sizeOf l' < sizeOf e → Q l') → P e)
    (hl : ∀ l : ExprList, (∀ e' : Expr, sizeOf e' < sizeOf l → P e') →
      (∀ l' : ExprList, sizeOf l' < sizeOf l → Q l') → Q l) :
    (∀ e, P e) ∧ (∀ l, Q l) := by
  have key : ∀ n : Nat, (∀ e : Expr, sizeOf e < n → P e) ∧
      (∀ l : ExprList, sizeOf l < n → Q l) := by
    intro n
    induction n with
    | zero => exact ⟨fun e h => absurd h (by omega), fun l h => absurd h (by omega)⟩
    | succ n ih =>
        refine ⟨fun e hse => he e (fun e' h => ih.1 e' (by omega))
          (fun l' h => ih.2 l' (by omega)), fun l hsl => hl l
          (fun e' h => ih.1 e' (by omega)) (fun l' h => ih.2 l' (by omega))⟩
  exact ⟨fun e => (key (sizeOf e + 1)).1 e (by omega),
    fun l => (key (sizeOf l + 1)).2 l (by omega)⟩

/-- Index substitution with an empty rule set leaves an expression without
Indexed-of-ComponentTensor configurations unchanged (and likewise for
element lists). -/
theorem fri_nil_all :
    (∀ e : Expr, e.noICT = true → fri e [] = e) ∧
    (∀ l : ExprList, l.noICTL = true → friList l [] = l) := by
  refine exprMutInd (fun e => e.noICT = true → fri e [] = e)
    (fun l => l.noICTL = true → friList l [] = l) ?_ ?_
  · intro e IHe IHl h
    cases e with
    | Literal v => simp [fri, substFilter]
    | Zero sh => simp [fri, substFilter]
    | Identity n => simp [fri, substFilter]
    | Failure sh => simp [fri, substFilter]
    | Variable name sh => simp [fri, substFilter]
    | Sum a b =>
        simp only [Expr.noICT, Bool.and_eq_true] at h
        simp [fri, substFilter, IHe a (by simp <;> omega) h.1, IHe b (by simp <;> omega) h.2]
    | Product a b =>
        simp only [Expr.noICT, Bool.and_eq_true] at h
        simp [fri, substFilter, IHe a (by simp <;> omega) h.1, IHe b (by simp <;> omega) h.2]
    | Division a b =>
        simp only [Expr.noICT, Bool.and_eq_true] at h
        simp [fri, substFilter, IHe a (by simp <;> omega) h.1, IHe b (by simp <;> omega) h.2]
    | Power a b =>
        simp only [Expr.noICT, Bool.and_eq_true] at h
        simp [fri, substFilter, IHe a (by simp <;> omega) h.1, IHe b (by simp <;> omega) h.2]
    | MathFunction f a =>
        simp only [Expr.noICT] at h
        simp [fri, substFilter, IHe a (by simp <;> omega) h]
    | LogicalAnd a b =>
        simp only [Expr.noICT, Bool.and_eq_true] at h
        simp [fri, substFilter, IHe a (by simp <;> omega) h.1, IHe b (by simp <;> omega) h.2]
    | LogicalOr a b =>
        simp only [Expr.noICT, Bool.and_eq_true] at h
        simp [fri, substFilter, IHe a (by simp <;> omega) h.1, IHe b (by simp <;> omega) h.2]
    | LogicalNot a =>
        simp only [Expr.noICT] at h
        simp [fri, substFilter, IHe a (by simp <;> omega) h]
    | Comparison op a b =>
        simp only [Expr.noICT, Bool.and_eq_true] at h
        simp [fri, substFilter, IHe a (by simp <;> omega) h.1, IHe b (by simp <;> omega) h.2]
    | Conditional c t f =>
        simp only [Expr.noICT, Bool.and_eq_true] at h
        simp [fri, substFilter, IHe c (by simp <;> omega) h.1.1,
          IHe t (by simp <;> omega) h.1.2, IHe f (by simp <;> omega) h.2]
    | IndexSum body mi =>
        simp only [Expr.noICT] at h
        simp [fri, substFilter, IHe body (by simp <;> omega) h]
    | ComponentTensor body mi =>
        simp only [Expr.noICT] at h
        simp [fri, substFilter, IHe body (by simp <;> omega) h]
    | ListTensor elems =>
        simp only [Expr.noICT] at h
        simp [fri, substFilter, IHl elems (by simp <;> omega) h]
    | Delta i j => simp [fri, substFilter, applyRef_nil]
    | Indexed child mi =>
        cases child with
        | ComponentTensor body bmi => simp [Expr.noICT] at h
        | Literal v =>
            have hc : (Expr.Literal v).noICT = true := by
              simpa only [Expr.noICT] using h
            simp [fri, substFilter, map_applyRef_nil,
              IHe _ (by simp <;> omega) hc]
        | Zero sh =>
            have hc : (Expr.Zero sh).noICT = true := by
              simpa only [Expr.noICT] using h
            simp [fri, substFilter, map_applyRef_nil,
              IHe _ (by simp <;> omega) hc]
        | Identity n =>
            have hc : (Expr.Identity n).noICT = true := by
              simpa only [Expr.noICT] using h
            simp [fri, substFilter, map_applyRef_nil,
              IHe _ (by simp <;> omega) hc]
        | Failure sh =>
            have hc : (Expr.Failure sh).noICT = true := by
              simpa only [Expr.noICT] using h
            simp [fri, substFilter, map_applyRef_nil,
              IHe _ (by simp <;> omega) hc]
        | Variable nm sh2 =>
            have hc : (Expr.Variable nm sh2).noICT = true := by
              simpa only [Expr.noICT] using h
            simp [fri, substFilter, map_applyRef_nil,
              IHe _ (by simp <;> omega) hc]
        | Sum a b =>
            have hc : (Expr.Sum a b).noICT = true := by
              simpa only [Expr.noICT] using h
            simp [fri, substFilter, map_applyRef_nil,
              IHe _ (by simp <;> omega) hc]
        | Product a b =>
            have hc : (Expr.Product a b).noICT = true := by
              simpa only [Expr.noICT] using h
            simp [fri, substFilter, map_applyRef_nil,
              IHe _ (by simp <;> omega) hc]
        | Division a b =>
            have hc : (Expr.Division a b).noICT = true := by
              simpa only [Expr.noICT] using h
            simp [fri, substFilter, map_applyRef_nil,
              IHe _ (by simp <;> omega) hc]
        | Power a b =>
            have hc : (Expr.Power a b).noICT = true := by
              simpa only [Expr.noICT] using h
            simp [fri, substFilter, map_applyRef_nil,
              IHe _ (by simp <;> omega) hc]
        | MathFunction f a =>
            have hc : (Expr.MathFunction f a).noICT = true := by
              simpa only [Expr.noICT] using h
            simp [fri, substFilter, map_applyRef_nil,
              IHe _ (by simp <;> omega) hc]
        | LogicalAnd a b =>
            have hc : (Expr.LogicalAnd a b).noICT = true := by
              simpa only [Expr.noICT] using h
            simp [fri, substFilter, map_applyRef_nil,
              IHe _ (by simp <;> omega) hc]
        | LogicalOr a b =>
            have hc : (Expr.LogicalOr a b).noICT = true := by
              simpa only [Expr.noICT] using h
            simp [fri, substFilter, map_applyRef_nil,
              IHe _ (by simp <;> omega) hc]
        | LogicalNot a =>
            have hc : (Expr.LogicalNot a).noICT = true := by
              simpa only [Expr.noICT] using h
            simp [fri, substFilter, map_applyRef_nil,
              IHe _ (by simp <;> omega) hc]
        | Comparison op a b =>
            have hc : (Expr.Comparison op a b).noICT = true := by
              simpa only [Expr.noICT] using h
            simp [fri, substFilter, map_applyRef_nil,
              IHe _ (by simp <;> omega) hc]
        | Conditional c t f =>
            have hc : (Expr.Conditional c t f).noICT = true := by
              simpa only [Expr.noICT] using h
            simp [fri, substFilter, map_applyRef_nil,
              IHe _ (by simp <;> omega) hc]
        | IndexSum body bmi =>
            have hc : (Expr.IndexSum body bmi).noICT = true := by
              simpa only [Expr.noICT] using h
            simp [fri, substFilter, map_applyRef_nil,
              IHe _ (by simp <;> omega) hc]
        | ListTensor elems =>
            have hc : (Expr.ListTensor elems).noICT = true := by
              simpa only [Expr.noICT] using h
            simp [fri, substFilter, map_applyRef_nil,
              IHe _ (by simp <;> omega) hc]
        | Delta i j =>
            have hc : (Expr.Delta i j).noICT = true := by
              simpa only [Expr.noICT] using h
            simp [fri, substFilter, map_applyRef_nil,
              IHe _ (by simp <;> omega) hc]
        | Indexed c cmi =>
            have hc : (Expr.Indexed c cmi).noICT = true := by
              simpa only [Expr.noICT] using h
            simp [fri, substFilter, map_applyRef_nil,
              IHe _ (by simp <;> omega) hc]
        | FlexiblyIndexed c d2i =>
            have hc : (Expr.FlexiblyIndexed c d2i).noICT = true := by
              simpa only [Expr.noICT] using h
            simp [fri, substFilter, map_applyRef_nil,
              IHe _ (by simp <;> omega) hc]
    | FlexiblyIndexed child d2i =>
        simp [fri, substFilter, applyRef_nil]
  · intro l IHe IHl h
    cases l with
    | nil => simp [friList]
    | cons e rest =>
        simp only [ExprList.noICTL, Bool.and_eq_true] at h
        simp [friList, IHe e (by simp <;> omega) h.1, IHl rest (by simp <;> omega) h.2]


/-- Number of elements of an `ExprList`. -/
def ExprList.length : ExprList → Nat
  | .nil => 0
  | .cons _ rest => rest.length + 1

/-- Shape of an expression (substrate bookkeeping, spec section 3: "tuple
of extents, possibly empty = scalar").  Operators, contractions, deltas
and index accesses are scalar; a ComponentTensor's shape is the extents of
its bound indices; the one-dimensional `ListTensor`'s shape is its
length. -/
def Expr.shape : Expr → List Nat
  | .Zero sh | .Failure sh | .Variable _ sh => sh
  | .Identity n => [n, n]
  | .ComponentTensor _ mi => mi.map Index.extent
  | .ListTensor elems => [elems.length]
  | .Literal _ | .Sum _ _ | .Product _ _ | .Division _ _ | .Power _ _
  | .MathFunction _ _ | .LogicalAnd _ _ | .LogicalOr _ _ | .LogicalNot _
  | .Comparison _ _ _ | .Conditional _ _ _ | .IndexSum _ _ | .Delta _ _
  | .Indexed _ _ | .FlexiblyIndexed _ _ => []

/-- Terminal nodes of the substrate (constants, variables, failure). -/
def Expr.isTerminal : Expr → Bool
  | .Literal _ | .Zero _ | .Identity _ | .Failure _ | .Variable _ _ => true
  | .Sum _ _ | .Product _ _ | .Division _ _ | .Power _ _
  | .MathFunction _ _ | .LogicalAnd _ _ | .LogicalOr _ _ | .LogicalNot _
  | .Comparison _ _ _ | .Conditional _ _ _ | .IndexSum _ _
  | .ComponentTensor _ _ | .ListTensor _ | .Delta _ _ | .Indexed _ _
  | .FlexiblyIndexed _ _ => false

mutual

/-- Well-shaped expressions.  Modelled from the spec: the substrate's node
constructors enforce shape consistency (scalar operands of arithmetic and
logical operators, scalar contraction and ComponentTensor bodies, a
nonempty ComponentTensor multiindex, a rank-matched `Indexed` access, and
a `FlexiblyIndexed` child that is a terminal without free indices).  Only
well-shaped expressions correspond to constructible substrate objects. -/
def Expr.ws : Expr → Bool
  | .Literal _ | .Zero _ | .Identity _ | .Failure _ | .Variable _ _
  | .Delta _ _ => true
  | .Sum a b | .Product a b | .Division a b | .Power a b
  | .LogicalAnd a b | .LogicalOr a b | .Comparison _ a b =>
      a.ws && b.ws && a.shape.isEmpty && b.shape.isEmpty
  | .MathFunction _ a | .LogicalNot a => a.ws && a.shape.isEmpty
  | .Conditional c t f =>
      c.ws && t.ws && f.ws && c.shape.isEmpty && t.shape.isEmpty &&
        f.shape.isEmpty
  | .IndexSum body _ => body.ws && body.shape.isEmpty
  | .ComponentTensor body mi => body.ws && body.shape.isEmpty && !mi.isEmpty
  | .ListTensor elems => elems.wsL
  | .Indexed child mi => child.ws && (child.shape.length == mi.length)
  | .FlexiblyIndexed child _ =>
      child.isTerminal && child.freeIndices == ∅

/-- Every element of the list is well-shaped and scalar. -/
def ExprList.wsL : ExprList → Bool
  | .nil => true
  | .cons e rest => e.ws && e.shape.isEmpty && rest.wsL

end


/-- ComponentTensor head test. -/
def Expr.isCT : Expr → Bool
  | .ComponentTensor _ _ => true
  | .Literal _ | .Zero _ | .Identity _ | .Failure _ | .Variable _ _
  | .Sum _ _ | .Product _ _ | .Division _ _ | .Power _ _
  | .MathFunction _ _ | .LogicalAnd _ _ | .LogicalOr _ _ | .LogicalNot _
  | .Comparison _ _ _ | .Conditional _ _ _ | .IndexSum _ _
  | .ListTensor _ | .Delta _ _ | .Indexed _ _ | .FlexiblyIndexed _ _ => false

/-- A well-shaped scalar expression is not ComponentTensor-headed (a
well-shaped ComponentTensor has a nonempty multiindex, hence a nonempty
shape). -/
theorem not_isCT_of_ws_scalar (e : Expr) (hw : e.ws = true)
    (hs : e.shape = []) : e.isCT = false := by
  cases e <;> simp_all [Expr.isCT, Expr.ws, Expr.shape, Bool.and_eq_true]

/-- The `noICT` equation for an `Indexed` node with a
non-ComponentTensor child. -/
theorem noICT_Indexed_of_not_isCT (x : Expr) (mi : List IdxRef)
    (hx : x.isCT = false) : (Expr.Indexed x mi).noICT = x.noICT := by
  cases x <;> simp_all [Expr.isCT, Expr.noICT]

/-- Terminal nodes trivially satisfy `noICT`. -/
theorem noICT_of_terminal (e : Expr) (h : e.isTerminal = true) :
    e.noICT = true := by
  cases e <;> simp_all [Expr.isTerminal, Expr.noICT]

/-- The delta smart constructor produces a well-shaped, scalar,
`noICT` node. -/
theorem mkDelta_props (i j : IdxRef) :
    (mkDelta i j).ws = true ∧ (mkDelta i j).shape = [] ∧
    (mkDelta i j).noICT = true := by
  unfold mkDelta
  split <;> simp [one, Expr.ws, Expr.shape, Expr.noICT]

/-- The `fri` equation for an `Indexed` node whose child is not a
ComponentTensor. -/
theorem fri_Indexed_not_ct (child : Expr) (mi : List IdxRef) (s : Subst)
    (h : child.isCT = false) :
    fri (.Indexed child mi) s =
      .Indexed (fri child (substFilter s (.Indexed child mi)))
        (mi.map (applyRef (substFilter s (.Indexed child mi)))) := by
  cases child <;> simp_all [fri, Expr.isCT]

/-- Index substitution preserves well-shapedness and shape, and its output
contains no Indexed-of-ComponentTensor configuration (the substitution is
fully discharged: every ComponentTensor consumed by an index access has
been inlined). -/
theorem fri_ws_all :
    (∀ e : Expr, ∀ s : Subst, e.ws = true →
      (fri e s).ws = true ∧ (fri e s).shape = e.shape ∧
      (fri e s).noICT = true) ∧
    (∀ l : ExprList, ∀ s : Subst, l.wsL = true →
      (friList l s).wsL = true ∧ (friList l s).length = l.length ∧
      (friList l s).noICTL = true) := by
  refine exprMutInd
    (fun e => ∀ s : Subst, e.ws = true →
      (fri e s).ws = true ∧ (fri e s).shape = e.shape ∧
      (fri e s).noICT = true)
    (fun l => ∀ s : Subst, l.wsL = true →
      (friList l s).wsL = true ∧ (friList l s).length = l.length ∧
      (friList l s).noICTL = true) ?_ ?_
  · intro e IHe IHl
    cases e with
    | Literal v => intro s h; exact ⟨by simp [fri, Expr.ws], by simp [fri], by simp [fri, Expr.noICT]⟩
    | Zero sh => intro s h; exact ⟨by simp [fri, Expr.ws], by simp [fri], by simp [fri, Expr.noICT]⟩
    | Identity n => intro s h; exact ⟨by simp [fri, Expr.ws], by simp [fri], by simp [fri, Expr.noICT]⟩
    | Failure sh => intro s h; exact ⟨by simp [fri, Expr.ws], by simp [fri], by simp [fri, Expr.noICT]⟩
    | Variable nm sh => intro s h; exact ⟨by simp [fri, Expr.ws], by simp [fri], by simp [fri, Expr.noICT]⟩
    | Sum a b =>
        intro s h
        simp only [Expr.ws, Bool.and_eq_true, List.isEmpty_iff] at h
        obtain ⟨⟨⟨ha, hb⟩, hsa⟩, hsb⟩ := h
        obtain ⟨wa, sa, na⟩ := IHe a (by simp <;> omega) (substFilter s (.Sum a b)) ha
        obtain ⟨wb, sb, nb⟩ := IHe b (by simp <;> omega) (substFilter s (.Sum a b)) hb
        refine ⟨?_, ?_, ?_⟩
        · simp [fri, Expr.ws, wa, wb, sa, sb, hsa, hsb]
        · simp [fri, Expr.shape]
        · simp [fri, Expr.noICT, na, nb]
    | Product a b =>
        intro s h
        simp only [Expr.ws, Bool.and_eq_true, List.isEmpty_iff] at h
        obtain ⟨⟨⟨ha, hb⟩, hsa⟩, hsb⟩ := h
        obtain ⟨wa, sa, na⟩ := IHe a (by simp <;> omega) (substFilter s (.Product a b)) ha
        obtain ⟨wb, sb, nb⟩ := IHe b (by simp <;> omega) (substFilter s (.Product a b)) hb
        refine ⟨?_, ?_, ?_⟩
        · simp [fri, Expr.ws, wa, wb, sa, sb, hsa, hsb]
        · simp [fri, Expr.shape]
        · simp [fri, Expr.noICT, na, nb]
    | Division a b =>
        intro s h
        simp only [Expr.ws, Bool.and_eq_true, List.isEmpty_iff] at h
        obtain ⟨⟨⟨ha, hb⟩, hsa⟩, hsb⟩ := h
        obtain ⟨wa, sa, na⟩ := IHe a (by simp <;> omega) (substFilter s (.Division a b)) ha
        obtain ⟨wb, sb, nb⟩ := IHe b (by simp <;> omega) (substFilter s (.Division a b)) hb
        refine ⟨?_, ?_, ?_⟩
        · simp [fri, Expr.ws, wa, wb, sa, sb, hsa, hsb]
        · simp [fri, Expr.shape]
        · simp [fri, Expr.noICT, na, nb]
    | Power a b =>
        intro s h
        simp only [Expr.ws, Bool.and_eq_true, List.isEmpty_iff] at h
        obtain ⟨⟨⟨ha, hb⟩, hsa⟩, hsb⟩ := h
        obtain ⟨wa, sa, na⟩ := IHe a (by simp <;> omega) (substFilter s (.Power a b)) ha
        obtain ⟨wb, sb, nb⟩ := IHe b (by simp <;> omega) (substFilter s (.Power a b)) hb
        refine ⟨?_, ?_, ?_⟩
        · simp [fri, Expr.ws, wa, wb, sa, sb, hsa, hsb]
        · simp [fri, Expr.shape]
        · simp [fri, Expr.noICT, na, nb]
    | LogicalAnd a b =>
        intro s h
        simp only [Expr.ws, Bool.and_eq_true, List.isEmpty_iff] at h
        obtain ⟨⟨⟨ha, hb⟩, hsa⟩, hsb⟩ := h
        obtain ⟨wa, sa, na⟩ := IHe a (by simp <;> omega) (substFilter s (.LogicalAnd a b)) ha
        obtain ⟨wb, sb, nb⟩ := IHe b (by simp <;> omega) (substFilter s (.LogicalAnd a b)) hb
        refine ⟨?_, ?_, ?_⟩
        · simp [fri, Expr.ws, wa, wb, sa, sb, hsa, hsb]
        · simp [fri, Expr.shape]
        · simp [fri, Expr.noICT, na, nb]
    | LogicalOr a b =>
        intro s h
        simp only [Expr.ws, Bool.and_eq_true, List.isEmpty_iff] at h
        obtain ⟨⟨⟨ha, hb⟩, hsa⟩, hsb⟩ := h
        obtain ⟨wa, sa, na⟩ := IHe a (by simp <;> omega) (substFilter s (.LogicalOr a b)) ha
        obtain ⟨wb, sb, nb⟩ := IHe b (by simp <;> omega) (substFilter s (.LogicalOr a b)) hb
        refine ⟨?_, ?_, ?_⟩
        · simp [fri, Expr.ws, wa, wb, sa, sb, hsa, hsb]
        · simp [fri, Expr.shape]
        · simp [fri, Expr.noICT, na, nb]
    | Comparison op a b =>
        intro s h
        simp only [Expr.ws, Bool.and_eq_true, List.isEmpty_iff] at h
        obtain ⟨⟨⟨ha, hb⟩, hsa⟩, hsb⟩ := h
        obtain ⟨wa, sa, na⟩ := IHe a (by simp <;> omega) (substFilter s (.Comparison op a b)) ha
        obtain ⟨wb, sb, nb⟩ := IHe b (by simp <;> omega) (substFilter s (.Comparison op a b)) hb
        refine ⟨?_, ?_, ?_⟩
        · simp [fri, Expr.ws, wa, wb, sa, sb, hsa, hsb]
        · simp [fri, Expr.shape]
        · simp [fri, Expr.noICT, na, nb]
    | MathFunction f a =>
        intro s h
        simp only [Expr.ws, Bool.and_eq_true, List.isEmpty_iff] at h
        obtain ⟨ha, hsa⟩ := h
        obtain ⟨wa, sa, na⟩ := IHe a (by simp <;> omega) (substFilter s (.MathFunction f a)) ha
        refine ⟨?_, ?_, ?_⟩
        · simp [fri, Expr.ws, wa, sa, hsa]
        · simp [fri, Expr.shape]
        · simp [fri, Expr.noICT, na]
    | LogicalNot a =>
        intro s h
        simp only [Expr.ws, Bool.and_eq_true, List.isEmpty_iff] at h
        obtain ⟨ha, hsa⟩ := h
        obtain ⟨wa, sa, na⟩ := IHe a (by simp <;> omega) (substFilter s (.LogicalNot a)) ha
        refine ⟨?_, ?_, ?_⟩
        · simp [fri, Expr.ws, wa, sa, hsa]
        · simp [fri, Expr.shape]
        · simp [fri, Expr.noICT, na]
    | Conditional c t f =>
        intro s h
        simp only [Expr.ws, Bool.and_eq_true, List.isEmpty_iff] at h
        obtain ⟨⟨⟨⟨⟨hc, ht⟩, hf⟩, hsc⟩, hst⟩, hsf⟩ := h
        obtain ⟨wc, sc, nc⟩ :=
          IHe c (by simp <;> omega) (substFilter s (.Conditional c t f)) hc
        obtain ⟨wt, st, nt⟩ :=
          IHe t (by simp <;> omega) (substFilter s (.Conditional c t f)) ht
        obtain ⟨wf, sf, nf⟩ :=
          IHe f (by simp <;> omega) (substFilter s (.Conditional c t f)) hf
        refine ⟨?_, ?_, ?_⟩
        · simp [fri, Expr.ws, wc, wt, wf, sc, st, sf, hsc, hst, hsf]
        · simp [fri, Expr.shape]
        · simp [fri, Expr.noICT, nc, nt, nf]
    | IndexSum body mi =>
        intro s h
        simp only [Expr.ws, Bool.and_eq_true, List.isEmpty_iff] at h
        obtain ⟨hb, hsb⟩ := h
        obtain ⟨wb, sb, nb⟩ :=
          IHe body (by simp <;> omega) (substFilter s (.IndexSum body mi)) hb
        refine ⟨?_, ?_, ?_⟩
        · simp [fri, Expr.ws, wb, sb, hsb]
        · simp [fri, Expr.shape]
        · simp [fri, Expr.noICT, nb]
    | ComponentTensor body mi =>
        intro s h
        simp only [Expr.ws, Bool.and_eq_true, List.isEmpty_iff] at h
        obtain ⟨⟨hb, hsb⟩, hmi⟩ := h
        obtain ⟨wb, sb, nb⟩ :=
          IHe body (by simp <;> omega) (substFilter s (.ComponentTensor body mi)) hb
        refine ⟨?_, ?_, ?_⟩
        · simp [fri, Expr.ws, wb, sb, hsb, hmi]
        · simp [fri, Expr.shape]
        · simp [fri, Expr.noICT, nb]
    | ListTensor elems =>
        intro s h
        simp only [Expr.ws] at h
        obtain ⟨wl, ll, nl⟩ :=
          IHl elems (by simp <;> omega) (substFilter s (.ListTensor elems)) h
        refine ⟨?_, ?_, ?_⟩
        · simp [fri, Expr.ws, wl]
        · simp [fri, Expr.shape, ll]
        · simp [fri, Expr.noICT, nl]
    | Delta i j =>
        intro s h
        refine ⟨?_, ?_, ?_⟩ <;>
          · simp only [fri]
            split
            · simp [Expr.ws, Expr.shape, Expr.noICT]
            · first
              | exact (mkDelta_props _ _).1
              | exact ((mkDelta_props _ _).2.1).trans rfl
              | exact (mkDelta_props _ _).2.2
    | Indexed child mi =>
        intro s h
        simp only [Expr.ws, Bool.and_eq_true, beq_iff_eq] at h
        cases child with
        | ComponentTensor body bmi =>
            obtain ⟨hc, hlen⟩ := h
            simp only [Expr.ws, Bool.and_eq_true, List.isEmpty_iff] at hc
            obtain ⟨⟨hb, hsb⟩, hbmi⟩ := hc
            obtain ⟨wb, sb, nb⟩ := IHe body (by simp <;> omega)
              (substUpdate (substFilter s (.Indexed (.ComponentTensor body bmi) mi))
                (bmi.zip (mi.map (applyRef
                  (substFilter s (.Indexed (.ComponentTensor body bmi) mi)))))) hb
            refine ⟨?_, ?_, ?_⟩
            · simp only [fri]; exact wb
            · simp only [fri]; rw [sb, hsb]; rfl
            · simp only [fri]; exact nb
        | Literal v =>
            obtain ⟨hc, hlen⟩ := h
            obtain ⟨wc, sc, nc⟩ := IHe (Expr.Literal v) (by simp <;> omega)
              (substFilter s (.Indexed (Expr.Literal v) mi)) hc
            have hct : (fri (Expr.Literal v)
                (substFilter s (.Indexed (Expr.Literal v) mi))).isCT = false := by
              first
              | (simp only [fri, Expr.isCT]; done)
              | exact not_isCT_of_ws_scalar _ wc (by rw [sc]; rfl)
            refine ⟨?_, ?_, ?_⟩
            · rw [fri_Indexed_not_ct _ _ _ (by rfl)]
              simp [Expr.ws, wc, sc, hlen]
            · rw [fri_Indexed_not_ct _ _ _ (by rfl)]
              rfl
            · rw [fri_Indexed_not_ct _ _ _ (by rfl),
                noICT_Indexed_of_not_isCT _ _ hct]
              exact nc
        | Zero sh2 =>
            obtain ⟨hc, hlen⟩ := h
            obtain ⟨wc, sc, nc⟩ := IHe (Expr.Zero sh2) (by simp <;> omega)
              (substFilter s (.Indexed (Expr.Zero sh2) mi)) hc
            have hct : (fri (Expr.Zero sh2)
                (substFilter s (.Indexed (Expr.Zero sh2) mi))).isCT = false := by
              first
              | (simp only [fri, Expr.isCT]; done)
              | exact not_isCT_of_ws_scalar _ wc (by rw [sc]; rfl)
            refine ⟨?_, ?_, ?_⟩
            · rw [fri_Indexed_not_ct _ _ _ (by rfl)]
              simp [Expr.ws, wc, sc, hlen]
            · rw [fri_Indexed_not_ct _ _ _ (by rfl)]
              rfl
            · rw [fri_Indexed_not_ct _ _ _ (by rfl),
                noICT_Indexed_of_not_isCT _ _ hct]
              exact nc
        | Identity n =>
            obtain ⟨hc, hlen⟩ := h
            obtain ⟨wc, sc, nc⟩ := IHe (Expr.Identity n) (by simp <;> omega)
              (substFilter s (.Indexed (Expr.Identity n) mi)) hc
            have hct : (fri (Expr.Identity n)
                (substFilter s (.Indexed (Expr.Identity n) mi))).isCT = false := by
              first
              | (simp only [fri, Expr.isCT]; done)
              | exact not_isCT_of_ws_scalar _ wc (by rw [sc]; rfl)
            refine ⟨?_, ?_, ?_⟩
            · rw [fri_Indexed_not_ct _ _ _ (by rfl)]
              simp [Expr.ws, wc, sc, hlen]
            · rw [fri_Indexed_not_ct _ _ _ (by rfl)]
              rfl
            · rw [fri_Indexed_not_ct _ _ _ (by rfl),
                noICT_Indexed_of_not_isCT _ _ hct]
              exact nc
        | Failure sh2 =>
            obtain ⟨hc, hlen⟩ := h
            obtain ⟨wc, sc, nc⟩ := IHe (Expr.Failure sh2) (by simp <;> omega)
              (substFilter s (.Indexed (Expr.Failure sh2) mi)) hc
            have hct : (fri (Expr.Failure sh2)
                (substFilter s (.Indexed (Expr.Failure sh2) mi))).isCT = false := by
              first
              | (simp only [fri, Expr.isCT]; done)
              | exact not_isCT_of_ws_scalar _ wc (by rw [sc]; rfl)
            refine ⟨?_, ?_, ?_⟩
            · rw [fri_Indexed_not_ct _ _ _ (by rfl)]
              simp [Expr.ws, wc, sc, hlen]
            · rw [fri_Indexed_not_ct _ _ _ (by rfl)]
              rfl
            · rw [fri_Indexed_not_ct _ _ _ (by rfl),
                noICT_Indexed_of_not_isCT _ _ hct]
              exact nc
        | Variable nm sh2 =>
            obtain ⟨hc, hlen⟩ := h
            obtain ⟨wc, sc, nc⟩ := IHe (Expr.Variable nm sh2) (by simp <;> omega)
              (substFilter s (.Indexed (Expr.Variable nm sh2) mi)) hc
            have hct : (fri (Expr.Variable nm sh2)
                (substFilter s (.Indexed (Expr.Variable nm sh2) mi))).isCT = false := by
              first
              | (simp only [fri, Expr.isCT]; done)
              | exact not_isCT_of_ws_scalar _ wc (by rw [sc]; rfl)
            refine ⟨?_, ?_, ?_⟩
            · rw [fri_Indexed_not_ct _ _ _ (by rfl)]
              simp [Expr.ws, wc, sc, hlen]
            · rw [fri_Indexed_not_ct _ _ _ (by rfl)]
              rfl
            · rw [fri_Indexed_not_ct _ _ _ (by rfl),
                noICT_Indexed_of_not_isCT _ _ hct]
              exact nc
        | Sum a b =>
            obtain ⟨hc, hlen⟩ := h
            obtain ⟨wc, sc, nc⟩ := IHe (Expr.Sum a b) (by simp <;> omega)
              (substFilter s (.Indexed (Expr.Sum a b) mi)) hc
            have hct : (fri (Expr.Sum a b)
                (substFilter s (.Indexed (Expr.Sum a b) mi))).isCT = false := by
              first
              | (simp only [fri, Expr.isCT]; done)
              | exact not_isCT_of_ws_scalar _ wc (by rw [sc]; rfl)
            refine ⟨?_, ?_, ?_⟩
            · rw [fri_Indexed_not_ct _ _ _ (by rfl)]
              simp [Expr.ws, wc, sc, hlen]
            · rw [fri_Indexed_not_ct _ _ _ (by rfl)]
              rfl
            · rw [fri_Indexed_not_ct _ _ _ (by rfl),
                noICT_Indexed_of_not_isCT _ _ hct]
              exact nc
        | Product a b =>
            obtain ⟨hc, hlen⟩ := h
            obtain ⟨wc, sc, nc⟩ := IHe (Expr.Product a b) (by simp <;> omega)
              (substFilter s (.Indexed (Expr.Product a b) mi)) hc
            have hct : (fri (Expr.Product a b)
                (substFilter s (.Indexed (Expr.Product a b) mi))).isCT = false := by
              first
              | (simp only [fri, Expr.isCT]; done)
              | exact not_isCT_of_ws_scalar _ wc (by rw [sc]; rfl)
            refine ⟨?_, ?_, ?_⟩
            · rw [fri_Indexed_not_ct _ _ _ (by rfl)]
              simp [Expr.ws, wc, sc, hlen]
            · rw [fri_Indexed_not_ct _ _ _ (by rfl)]
              rfl
            · rw [fri_Indexed_not_ct _ _ _ (by rfl),
                noICT_Indexed_of_not_isCT _ _ hct]
              exact nc
        | Division a b =>
            obtain ⟨hc, hlen⟩ := h
            obtain ⟨wc, sc, nc⟩ := IHe (Expr.Division a b) (by simp <;> omega)
              (substFilter s (.Indexed (Expr.Division a b) mi)) hc
            have hct : (fri (Expr.Division a b)
                (substFilter s (.Indexed (Expr.Division a b) mi))).isCT = false := by
              first
              | (simp only [fri, Expr.isCT]; done)
              | exact not_isCT_of_ws_scalar _ wc (by rw [sc]; rfl)
            refine ⟨?_, ?_, ?_⟩
            · rw [fri_Indexed_not_ct _ _ _ (by rfl)]
              simp [Expr.ws, wc, sc, hlen]
            · rw [fri_Indexed_not_ct _ _ _ (by rfl)]
              rfl
            · rw [fri_Indexed_not_ct _ _ _ (by rfl),
                noICT_Indexed_of_not_isCT _ _ hct]
              exact nc
        | Power a b =>
            obtain ⟨hc, hlen⟩ := h
            obtain ⟨wc, sc, nc⟩ := IHe (Expr.Power a b) (by simp <;> omega)
              (substFilter s (.Indexed (Expr.Power a b) mi)) hc
            have hct : (fri (Expr.Power a b)
                (substFilter s (.Indexed (Expr.Power a b) mi))).isCT = false := by
              first
              | (simp only [fri, Expr.isCT]; done)
              | exact not_isCT_of_ws_scalar _ wc (by rw [sc]; rfl)
            refine ⟨?_, ?_, ?_⟩
            · rw [fri_Indexed_not_ct _ _ _ (by rfl)]
              simp [Expr.ws, wc, sc, hlen]
            · rw [fri_Indexed_not_ct _ _ _ (by rfl)]
              rfl
            · rw [fri_Indexed_not_ct _ _ _ (by rfl),
                noICT_Indexed_of_not_isCT _ _ hct]
              exact nc
        | MathFunction f a =>
            obtain ⟨hc, hlen⟩ := h
            obtain ⟨wc, sc, nc⟩ := IHe (Expr.MathFunction f a) (by simp <;> omega)
              (substFilter s (.Indexed (Expr.MathFunction f a) mi)) hc
            have hct : (fri (Expr.MathFunction f a)
                (substFilter s (.Indexed (Expr.MathFunction f a) mi))).isCT = false := by
              first
              | (simp only [fri, Expr.isCT]; done)
              | exact not_isCT_of_ws_scalar _ wc (by rw [sc]; rfl)
            refine ⟨?_, ?_, ?_⟩
            · rw [fri_Indexed_not_ct _ _ _ (by rfl)]
              simp [Expr.ws, wc, sc, hlen]
            · rw [fri_Indexed_not_ct _ _ _ (by rfl)]
              rfl
            · rw [fri_Indexed_not_ct _ _ _ (by rfl),
                noICT_Indexed_of_not_isCT _ _ hct]
              exact nc
        | LogicalAnd a b =>
            obtain ⟨hc, hlen⟩ := h
            obtain ⟨wc, sc, nc⟩ := IHe (Expr.LogicalAnd a b) (by simp <;> omega)
              (substFilter s (.Indexed (Expr.LogicalAnd a b) mi)) hc
            have hct : (fri (Expr.LogicalAnd a b)
                (substFilter s (.Indexed (Expr.LogicalAnd a b) mi))).isCT = false := by
              first
              | (simp only [fri, Expr.isCT]; done)
              | exact not_isCT_of_ws_scalar _ wc (by rw [sc]; rfl)
            refine ⟨?_, ?_, ?_⟩
            · rw [fri_Indexed_not_ct _ _ _ (by rfl)]
              simp [Expr.ws, wc, sc, hlen]
            · rw [fri_Indexed_not_ct _ _ _ (by rfl)]
              rfl
            · rw [fri_Indexed_not_ct _ _ _ (by rfl),
                noICT_Indexed_of_not_isCT _ _ hct]
              exact nc
        | LogicalOr a b =>
            obtain ⟨hc, hlen⟩ := h
            obtain ⟨wc, sc, nc⟩ := IHe (Expr.LogicalOr a b) (by simp <;> omega)
              (substFilter s (.Indexed (Expr.LogicalOr a b) mi)) hc
            have hct : (fri (Expr.LogicalOr a b)
                (substFilter s (.Indexed (Expr.LogicalOr a b) mi))).isCT = false := by
              first
              | (simp only [fri, Expr.isCT]; done)
              | exact not_isCT_of_ws_scalar _ wc (by rw [sc]; rfl)
            refine ⟨?_, ?_, ?_⟩
            · rw [fri_Indexed_not_ct _ _ _ (by rfl)]
              simp [Expr.ws, wc, sc, hlen]
            · rw [fri_Indexed_not_ct _ _ _ (by rfl)]
              rfl
            · rw [fri_Indexed_not_ct _ _ _ (by rfl),
                noICT_Indexed_of_not_isCT _ _ hct]
              exact nc
        | LogicalNot a =>
            obtain ⟨hc, hlen⟩ := h
            obtain ⟨wc, sc, nc⟩ := IHe (Expr.LogicalNot a) (by simp <;> omega)
              (substFilter s (.Indexed (Expr.LogicalNot a) mi)) hc
            have hct : (fri (Expr.LogicalNot a)
                (substFilter s (.Indexed (Expr.LogicalNot a) mi))).isCT = false := by
              first
              | (simp only [fri, Expr.isCT]; done)
              | exact not_isCT_of_ws_scalar _ wc (by rw [sc]; rfl)
            refine ⟨?_, ?_, ?_⟩
            · rw [fri_Indexed_not_ct _ _ _ (by rfl)]
              simp [Expr.ws, wc, sc, hlen]
            · rw [fri_Indexed_not_ct _ _ _ (by rfl)]
              rfl
            · rw [fri_Indexed_not_ct _ _ _ (by rfl),
                noICT_Indexed_of_not_isCT _ _ hct]
              exact nc
        | Comparison op a b =>
            obtain ⟨hc, hlen⟩ := h
            obtain ⟨wc, sc, nc⟩ := IHe (Expr.Comparison op a b) (by simp <;> omega)
              (substFilter s (.Indexed (Expr.Comparison op a b) mi)) hc
            have hct : (fri (Expr.Comparison op a b)
                (substFilter s (.Indexed (Expr.Comparison op a b) mi))).isCT = false := by
              first
              | (simp only [fri, Expr.isCT]; done)
              | exact not_isCT_of_ws_scalar _ wc (by rw [sc]; rfl)
            refine ⟨?_, ?_, ?_⟩
            · rw [fri_Indexed_not_ct _ _ _ (by rfl)]
              simp [Expr.ws, wc, sc, hlen]
            · rw [fri_Indexed_not_ct _ _ _ (by rfl)]
              rfl
            · rw [fri_Indexed_not_ct _ _ _ (by rfl),
                noICT_Indexed_of_not_isCT _ _ hct]
              exact nc
        | Conditional c t f =>
            obtain ⟨hc, hlen⟩ := h
            obtain ⟨wc, sc, nc⟩ := IHe (Expr.Conditional c t f) (by simp <;> omega)
              (substFilter s (.Indexed (Expr.Conditional c t f) mi)) hc
            have hct : (fri (Expr.Conditional c t f)
                (substFilter s (.Indexed (Expr.Conditional c t f) mi))).isCT = false := by
              first
              | (simp only [fri, Expr.isCT]; done)
              | exact not_isCT_of_ws_scalar _ wc (by rw [sc]; rfl)
            refine ⟨?_, ?_, ?_⟩
            · rw [fri_Indexed_not_ct _ _ _ (by rfl)]
              simp [Expr.ws, wc, sc, hlen]
            · rw [fri_Indexed_not_ct _ _ _ (by rfl)]
              rfl
            · rw [fri_Indexed_not_ct _ _ _ (by rfl),
                noICT_Indexed_of_not_isCT _ _ hct]
              exact nc
        | IndexSum body bmi =>
            obtain ⟨hc, hlen⟩ := h
            obtain ⟨wc, sc, nc⟩ := IHe (Expr.IndexSum body bmi) (by simp <;> omega)
              (substFilter s (.Indexed (Expr.IndexSum body bmi) mi)) hc
            have hct : (fri (Expr.IndexSum body bmi)
                (substFilter s (.Indexed (Expr.IndexSum body bmi) mi))).isCT = false := by
              first
              | (simp only [fri, Expr.isCT]; done)
              | exact not_isCT_of_ws_scalar _ wc (by rw [sc]; rfl)
            refine ⟨?_, ?_, ?_⟩
            · rw [fri_Indexed_not_ct _ _ _ (by rfl)]
              simp [Expr.ws, wc, sc, hlen]
            · rw [fri_Indexed_not_ct _ _ _ (by rfl)]
              rfl
            · rw [fri_Indexed_not_ct _ _ _ (by rfl),
                noICT_Indexed_of_not_isCT _ _ hct]
              exact nc
        | ListTensor elems =>
            obtain ⟨hc, hlen⟩ := h
            obtain ⟨wc, sc, nc⟩ := IHe (Expr.ListTensor elems) (by simp <;> omega)
              (substFilter s (.Indexed (Expr.ListTensor elems) mi)) hc
            have hct : (fri (Expr.ListTensor elems)
                (substFilter s (.Indexed (Expr.ListTensor elems) mi))).isCT = false := by
              first
              | (simp only [fri, Expr.isCT]; done)
              | exact not_isCT_of_ws_scalar _ wc (by rw [sc]; rfl)
            refine ⟨?_, ?_, ?_⟩
            · rw [fri_Indexed_not_ct _ _ _ (by rfl)]
              simp [Expr.ws, wc, sc, hlen]
            · rw [fri_Indexed_not_ct _ _ _ (by rfl)]
              rfl
            · rw [fri_Indexed_not_ct _ _ _ (by rfl),
                noICT_Indexed_of_not_isCT _ _ hct]
              exact nc
        | Delta di dj =>
            obtain ⟨hc, hlen⟩ := h
            obtain ⟨wc, sc, nc⟩ := IHe (Expr.Delta di dj) (by simp <;> omega)
              (substFilter s (.Indexed (Expr.Delta di dj) mi)) hc
            have hct : (fri (Expr.Delta di dj)
                (substFilter s (.Indexed (Expr.Delta di dj) mi))).isCT = false := by
              first
              | (simp only [fri, Expr.isCT]; done)
              | exact not_isCT_of_ws_scalar _ wc (by rw [sc]; rfl)
            refine ⟨?_, ?_, ?_⟩
            · rw [fri_Indexed_not_ct _ _ _ (by rfl)]
              simp [Expr.ws, wc, sc, hlen]
            · rw [fri_Indexed_not_ct _ _ _ (by rfl)]
              rfl
            · rw [fri_Indexed_not_ct _ _ _ (by rfl),
                noICT_Indexed_of_not_isCT _ _ hct]
              exact nc
        | Indexed c2 cmi2 =>
            obtain ⟨hc, hlen⟩ := h
            obtain ⟨wc, sc, nc⟩ := IHe (Expr.Indexed c2 cmi2) (by simp <;> omega)
              (substFilter s (.Indexed (Expr.Indexed c2 cmi2) mi)) hc
            have hct : (fri (Expr.Indexed c2 cmi2)
                (substFilter s (.Indexed (Expr.Indexed c2 cmi2) mi))).isCT = false := by
              first
              | (simp only [fri, Expr.isCT]; done)
              | exact not_isCT_of_ws_scalar _ wc (by rw [sc]; rfl)
            refine ⟨?_, ?_, ?_⟩
            · rw [fri_Indexed_not_ct _ _ _ (by rfl)]
              simp [Expr.ws, wc, sc, hlen]
            · rw [fri_Indexed_not_ct _ _ _ (by rfl)]
              rfl
            · rw [fri_Indexed_not_ct _ _ _ (by rfl),
                noICT_Indexed_of_not_isCT _ _ hct]
              exact nc
        | FlexiblyIndexed c2 fd2i =>
            obtain ⟨hc, hlen⟩ := h
            obtain ⟨wc, sc, nc⟩ := IHe (Expr.FlexiblyIndexed c2 fd2i) (by simp <;> omega)
              (substFilter s (.Indexed (Expr.FlexiblyIndexed c2 fd2i) mi)) hc
            have hct : (fri (Expr.FlexiblyIndexed c2 fd2i)
                (substFilter s (.Indexed (Expr.FlexiblyIndexed c2 fd2i) mi))).isCT = false := by
              first
              | (simp only [fri, Expr.isCT]; done)
              | exact not_isCT_of_ws_scalar _ wc (by rw [sc]; rfl)
            refine ⟨?_, ?_, ?_⟩
            · rw [fri_Indexed_not_ct _ _ _ (by rfl)]
              simp [Expr.ws, wc, sc, hlen]
            · rw [fri_Indexed_not_ct _ _ _ (by rfl)]
              rfl
            · rw [fri_Indexed_not_ct _ _ _ (by rfl),
                noICT_Indexed_of_not_isCT _ _ hct]
              exact nc
    | FlexiblyIndexed child d2i =>
        intro s h
        refine ⟨?_, ?_, ?_⟩
        · simp only [Expr.ws] at h ⊢
          simp only [fri]
          exact h
        · simp [fri, Expr.shape]
        · simp only [Expr.ws, Bool.and_eq_true] at h
          simp only [fri, Expr.noICT]
          exact noICT_of_terminal child h.1
  · intro l IHe IHl
    cases l with
    | nil =>
        intro s h
        exact ⟨by simp [friList, ExprList.wsL], by simp [friList, ExprList.length],
          by simp [friList, ExprList.noICTL]⟩
    | cons e rest =>
        intro s h
        simp only [ExprList.wsL, Bool.and_eq_true, List.isEmpty_iff] at h
        obtain ⟨⟨he, hse⟩, hrest⟩ := h
        obtain ⟨we, se, ne⟩ := IHe e (by simp <;> omega) s he
        obtain ⟨wr, lr, nr⟩ := IHl rest (by simp <;> omega) s hrest
        refine ⟨?_, ?_, ?_⟩
        · simp [friList, ExprList.wsL, we, se, hse, wr]
        · simp [friList, ExprList.length, lr]
        · simp [friList, ExprList.noICTL, ne, nr]

/-- An expression free of ComponentTensors is not ComponentTensor-headed. -/
theorem isCT_false_of_ctFree (e : Expr) (h : e.ctFree = true) :
    e.isCT = false := by
  cases e <;> simp_all [Expr.ctFree, Expr.isCT]

/-- An expression free of ComponentTensors has no Indexed-of-ComponentTensor
configuration. -/
theorem noICT_of_ctFree :
    (∀ e : Expr, e.ctFree = true → e.noICT = true) ∧
    (∀ l : ExprList, l.ctFreeL = true → l.noICTL = true) := by
  refine exprMutInd (fun e => e.ctFree = true → e.noICT = true)
    (fun l => l.ctFreeL = true → l.noICTL = true) ?_ ?_
  · intro e IHe IHl h
    cases e with
    | Literal v => simp [Expr.noICT]
    | Zero sh => simp [Expr.noICT]
    | Identity n => simp [Expr.noICT]
    | Failure sh => simp [Expr.noICT]
    | Variable nm sh => simp [Expr.noICT]
    | Sum a b =>
        simp only [Expr.ctFree, Bool.and_eq_true] at h
        simp [Expr.noICT, IHe a (by simp <;> omega) h.1, IHe b (by simp <;> omega) h.2]
    | Product a b =>
        simp only [Expr.ctFree, Bool.and_eq_true] at h
        simp [Expr.noICT, IHe a (by simp <;> omega) h.1, IHe b (by simp <;> omega) h.2]
    | Division a b =>
        simp only [Expr.ctFree, Bool.and_eq_true] at h
        simp [Expr.noICT, IHe a (by simp <;> omega) h.1, IHe b (by simp <;> omega) h.2]
    | Power a b =>
        simp only [Expr.ctFree, Bool.and_eq_true] at h
        simp [Expr.noICT, IHe a (by simp <;> omega) h.1, IHe b (by simp <;> omega) h.2]
    | MathFunction f a =>
        simp only [Expr.ctFree] at h
        simp [Expr.noICT, IHe a (by simp <;> omega) h]
    | LogicalAnd a b =>
        simp only [Expr.ctFree, Bool.and_eq_true] at h
        simp [Expr.noICT, IHe a (by simp <;> omega) h.1, IHe b (by simp <;> omega) h.2]
    | LogicalOr a b =>
        simp only [Expr.ctFree, Bool.and_eq_true] at h
        simp [Expr.noICT, IHe a (by simp <;> omega) h.1, IHe b (by simp <;> omega) h.2]
    | LogicalNot a =>
        simp only [Expr.ctFree] at h
        simp [Expr.noICT, IHe a (by simp <;> omega) h]
    | Comparison op a b =>
        simp only [Expr.ctFree, Bool.and_eq_true] at h
        simp [Expr.noICT, IHe a (by simp <;> omega) h.1, IHe b (by simp <;> omega) h.2]
    | Conditional c t f =>
        simp only [Expr.ctFree, Bool.and_eq_true] at h
        simp [Expr.noICT, IHe c (by simp <;> omega) h.1.1,
          IHe t (by simp <;> omega) h.1.2, IHe f (by simp <;> omega) h.2]
    | IndexSum body mi =>
        simp only [Expr.ctFree] at h
        simp [Expr.noICT, IHe body (by simp <;> omega) h]
    | ComponentTensor body mi => simp [Expr.ctFree] at h
    | ListTensor elems =>
        simp only [Expr.ctFree] at h
        simp [Expr.noICT, IHl elems (by simp <;> omega) h]
    | Delta i j => simp [Expr.noICT]
    | Indexed child mi =>
        simp only [Expr.ctFree] at h
        rw [noICT_Indexed_of_not_isCT _ _ (isCT_false_of_ctFree _ h)]
        exact IHe child (by simp <;> omega) h
    | FlexiblyIndexed child d2i =>
        simp only [Expr.ctFree] at h
        simpa [Expr.noICT] using IHe child (by simp <;> omega) h
  · intro l IHe IHl h
    cases l with
    | nil => simp [ExprList.noICTL]
    | cons e rest =>
        simp only [ExprList.ctFreeL, Bool.and_eq_true] at h
        simp [ExprList.noICTL, IHe e (by simp <;> omega) h.1,
          IHl rest (by simp <;> omega) h.2]

/-- C9: component-tensor removal is idempotent on well-shaped inputs
(applying it twice yields the same result as applying it once), and on
inputs already free of component-tensor nodes it returns the identical
expressions unchanged.  Well-shapedness (`Expr.ws`) models which raw
terms are constructible through the substrate's node constructors. -/
theorem remove_componenttensors_idempotent (es : List Expr) :
    ((∀ e ∈ es, e.ws = true) →
      remove_componenttensors (remove_componenttensors es) =
        remove_componenttensors es) ∧
    ((∀ e ∈ es, e.ctFree = true) → remove_componenttensors es = es) := by
  constructor
  · intro hws
    simp only [remove_componenttensors, List.map_map]
    refine List.map_congr_left ?_
    intro e he
    simp only [Function.comp_apply]
    exact fri_nil_all.1 _ ((fri_ws_all.1 e [] (hws e he)).2.2)
  · intro hcf
    simp only [remove_componenttensors]
    refine List.map_congr_left ?_ |>.trans (List.map_id _)
    intro e he
    exact fri_nil_all.1 _ (noICT_of_ctFree.1 e (hcf e he))

/-- Witness for C9 at concrete inputs: an indexed component-tensor access
(idempotence part) and a component-tensor-free sum (identity part). -/
theorem remove_componenttensors_idempotent_witness :
    (remove_componenttensors (remove_componenttensors
        [.Indexed (.ComponentTensor (.Literal 2) [⟨0, 3⟩]) [.fixed 1]]) =
      remove_componenttensors
        [.Indexed (.ComponentTensor (.Literal 2) [⟨0, 3⟩]) [.fixed 1]]) ∧
    (remove_componenttensors [.Sum (.Literal 1) (.Literal 2)] =
      [.Sum (.Literal 1) (.Literal 2)]) :=
  ⟨(remove_componenttensors_idempotent _).1 (by decide),
   (remove_componenttensors_idempotent _).2 (by decide)⟩

/-- Runtime failures of the Python source, distinguished by kind:
assertion failures, `ValueError`-style unpacking failures, the two
capacity `NotImplementedError`s, other `NotImplementedError`s, attribute
lookup failures, `FactorisationError`, and exhaustion of modelling fuel
(the last is an artefact of the embedding, not a source behaviour). -/
inductive Err where
  | assertionError
  | valueError
  | notImplTooComplex
  | notImplTooManyIndices
  | notImplOther
  | attributeError
  | factorisationError
  | keyError
  | fuelExhausted
deriving DecidableEq, Repr

mutual

/-- No Kronecker delta anywhere in the expression has equal operands.
Such a delta is unconstructible through the substrate's collapsing `Delta`
constructor, so every Python-built expression satisfies this. -/
def Expr.noDegen : Expr → Bool
  | .Literal _ | .Zero _ | .Identity _ | .Failure _ | .Variable _ _ => true
  | .Sum a b | .Product a b | .Division a b | .Power a b
  | .LogicalAnd a b | .LogicalOr a b | .Comparison _ a b =>
      a.noDegen && b.noDegen
  | .MathFunction _ a | .LogicalNot a => a.noDegen
  | .Conditional c t f => c.noDegen && t.noDegen && f.noDegen
  | .IndexSum body _ => body.noDegen
  | .ComponentTensor body _ => body.noDegen
  | .ListTensor elems => elems.noDegenL
  | .Delta i j => i != j
  | .Indexed child _ => child.noDegen
  | .FlexiblyIndexed child _ => child.noDegen

/-- Every element of the list satisfies `noDegen`. -/
def ExprList.noDegenL : ExprList → Bool
  | .nil => true
  | .cons e rest => e.noDegen && rest.noDegenL

end

/-- Index substitution never creates a degenerate delta: the delta handler
rebuilds through the collapsing smart constructor. -/
theorem fri_noDegen_all :
    (∀ e : Expr, ∀ s : Subst, e.noDegen = true → (fri e s).noDegen = true) ∧
    (∀ l : ExprList, ∀ s : Subst, l.noDegenL = true →
      (friList l s).noDegenL = true) := by
  refine exprMutInd
    (fun e => ∀ s : Subst, e.noDegen = true → (fri e s).noDegen = true)
    (fun l => ∀ s : Subst, l.noDegenL = true → (friList l s).noDegenL = true)
    ?_ ?_
  · intro e IHe IHl
    cases e with
    | Literal v => intro s h; simp [fri, Expr.noDegen]
    | Zero sh => intro s h; simp [fri, Expr.noDegen]
    | Identity n => intro s h; simp [fri, Expr.noDegen]
    | Failure sh => intro s h; simp [fri, Expr.noDegen]
    | Variable nm sh => intro s h; simp [fri, Expr.noDegen]
    | Sum a b =>
        intro s h
        simp only [Expr.noDegen, Bool.and_eq_true] at h
        simp [fri, Expr.noDegen, IHe a (by simp <;> omega) _ h.1,
          IHe b (by simp <;> omega) _ h.2]
    | Product a b =>
        intro s h
        simp only [Expr.noDegen, Bool.and_eq_true] at h
        simp [fri, Expr.noDegen, IHe a (by simp <;> omega) _ h.1,
          IHe b (by simp <;> omega) _ h.2]
    | Division a b =>
        intro s h
        simp only [Expr.noDegen, Bool.and_eq_true] at h
        simp [fri, Expr.noDegen, IHe a (by simp <;> omega) _ h.1,
          IHe b (by simp <;> omega) _ h.2]
    | Power a b =>
        intro s h
        simp only [Expr.noDegen, Bool.and_eq_true] at h
        simp [fri, Expr.noDegen, IHe a (by simp <;> omega) _ h.1,
          IHe b (by simp <;> omega) _ h.2]
    | MathFunction f a =>
        intro s h
        simp only [Expr.noDegen] at h
        simp [fri, Expr.noDegen, IHe a (by simp <;> omega) _ h]
    | LogicalAnd a b =>
        intro s h
        simp only [Expr.noDegen, Bool.and_eq_true] at h
        simp [fri, Expr.noDegen, IHe a (by simp <;> omega) _ h.1,
          IHe b (by simp <;> omega) _ h.2]
    | LogicalOr a b =>
        intro s h
        simp only [Expr.noDegen, Bool.and_eq_true] at h
        simp [fri, Expr.noDegen, IHe a (by simp <;> omega) _ h.1,
          IHe b (by simp <;> omega) _ h.2]
    | LogicalNot a =>
        intro s h
        simp only [Expr.noDegen] at h
        simp [fri, Expr.noDegen, IHe a (by simp <;> omega) _ h]
    | Comparison op a b =>
        intro s h
        simp only [Expr.noDegen, Bool.and_eq_true] at h
        simp [fri, Expr.noDegen, IHe a (by simp <;> omega) _ h.1,
          IHe b (by simp <;> omega) _ h.2]
    | Conditional c t f =>
        intro s h
        simp only [Expr.noDegen, Bool.and_eq_true] at h
        simp [fri, Expr.noDegen, IHe c (by simp <;> omega) _ h.1.1,
          IHe t (by simp <;> omega) _ h.1.2, IHe f (by simp <;> omega) _ h.2]
    | IndexSum body mi =>
        intro s h
        simp only [Expr.noDegen] at h
        simp [fri, Expr.noDegen, IHe body (by simp <;> omega) _ h]
    | ComponentTensor body mi =>
        intro s h
        simp only [Expr.noDegen] at h
        simp [fri, Expr.noDegen, IHe body (by simp <;> omega) _ h]
    | ListTensor elems =>
        intro s h
        simp only [Expr.noDegen] at h
        simp [fri, Expr.noDegen, IHl elems (by simp <;> omega) _ h]
    | Delta i j =>
        intro s h
        simp only [fri]
        split
        · exact h
        · unfold mkDelta
          split
          · simp [one, Expr.noDegen]
          · simp_all [Expr.noDegen, bne_iff_ne]
    | Indexed child mi =>
        intro s h
        simp only [Expr.noDegen] at h
        cases child with
        | ComponentTensor body bmi =>
            simp only [Expr.noDegen] at h
            simp only [fri]
            exact IHe body (by simp <;> omega) _ h
        | _ =>
            rw [fri_Indexed_not_ct _ _ _ (by rfl)]
            simp only [Expr.noDegen]
            exact IHe _ (by simp <;> omega) _ h
    | FlexiblyIndexed child d2i =>
        intro s h
        simp only [Expr.noDegen] at h ⊢
        simp only [fri, Expr.noDegen]
        exact h
  · intro l IHe IHl
    cases l with
    | nil => intro s h; simp [friList, ExprList.noDegenL]
    | cons e rest =>
        intro s h
        simp only [ExprList.noDegenL, Bool.and_eq_true] at h
        simp [friList, ExprList.noDegenL, IHe e (by simp <;> omega) _ h.1,
          IHl rest (by simp <;> omega) _ h.2]

/-- The delta queue of `delta_elimination`: pairs of a top-level `Delta`
factor together with one of its operands that is a summation index
(Python: `[(f, index) for f in factors if isinstance(f, Delta)
for index in (f.i, f.j) if index in sum_indices]`). -/
def deltaQueue (sum_indices : List Index) (factors : List Expr) :
    List (Expr × Index) :=
  factors.flatMap fun f =>
    match f with
    | .Delta i j =>
        [i, j].filterMap fun r =>
          match r with
          | .free k => if k ∈ sum_indices then some (f, k) else none
          | _ => none
    | _ => []

/-- Python `to_, = list({delta.i, delta.j} - {from_})`: the single element
of the two-element operand set with the processed index removed, or `none`
when the unpacking would fail. -/
def deltaOther (i j : IdxRef) (from_ : Index) : Option IdxRef :=
  if i = j then (if i = .free from_ then none else some i)
  else if i = .free from_ then some j
  else if j = .free from_ then some i
  else none

/-- Queue entries come from `Delta` factors with the chosen summation
index among their operands. -/
theorem deltaQueue_mem {si : List Index} {factors : List Expr}
    {d : Expr} {k : Index} (h : (d, k) ∈ deltaQueue si factors) :
    d ∈ factors ∧ k ∈ si ∧
      ∃ i j, d = .Delta i j ∧ (IdxRef.free k = i ∨ IdxRef.free k = j) := by
  simp only [deltaQueue, List.mem_flatMap] at h
  obtain ⟨f, hf, hmem⟩ := h
  cases f with
  | Delta i j =>
      simp only [List.mem_filterMap] at hmem
      obtain ⟨r, hr, hsome⟩ := hmem
      cases r with
      | free k2 =>
          by_cases hk : k2 ∈ si
          · simp only [hk, if_pos, Option.some.injEq, Prod.mk.injEq] at hsome
            obtain ⟨hd, hkk⟩ := hsome
            subst hd
            subst hkk
            simp only [List.mem_cons, List.mem_singleton, List.not_mem_nil,
              or_false] at hr
            exact ⟨hf, hk, i, j, rfl, hr⟩
          · simp [hk] at hsome
      | fixed n => simp at hsome
      | varIdx v => simp at hsome
  | Literal v => simp at hmem
  | Zero sh => simp at hmem
  | Identity n => simp at hmem
  | Failure sh => simp at hmem
  | Variable nm sh => simp at hmem
  | Sum a b => simp at hmem
  | Product a b => simp at hmem
  | Division a b => simp at hmem
  | Power a b => simp at hmem
  | MathFunction fn a => simp at hmem
  | LogicalAnd a b => simp at hmem
  | LogicalOr a b => simp at hmem
  | LogicalNot a => simp at hmem
  | Comparison op a b => simp at hmem
  | Conditional c t g => simp at hmem
  | IndexSum body mi => simp at hmem
  | ComponentTensor body mi => simp at hmem
  | ListTensor elems => simp at hmem
  | Indexed child mi => simp at hmem
  | FlexiblyIndexed child d2i => simp at hmem

/-- The `while delta_queue:` loop of `delta_elimination`.  The queue is
recomputed from the current state at the head of every iteration (the
source computes it once before the loop and again at the end of each
iteration, which is the same thing).  Each iteration removes the processed
index from `sum_indices`, so the index list length strictly decreases.
A `valueError` models a failing unpack of `list({delta.i, delta.j} -
{from_})`; the `Delta`-typed queue entry is guaranteed by construction. -/
def deltaElimLoop (sum_indices : List Index) (factors : List Expr) :
    Except Err (List Index × List Expr) :=
  match h : deltaQueue sum_indices factors with
  | [] => .ok (sum_indices, factors)
  | (d, from_) :: _ =>
      match d with
      | .Delta i j =>
          match deltaOther i j from_ with
          | none => .error .valueError
          | some to_ =>
              deltaElimLoop (sum_indices.erase from_)
                (factors.map (fun e => fri e [(from_, to_)]))
      | _ => .error .assertionError
termination_by sum_indices.length
decreasing_by
  have hm : (Expr.Delta i j, from_) ∈ deltaQueue sum_indices factors := by
    rw [h]
    exact List.mem_cons_self _ _
  have hmem := (deltaQueue_mem hm).2.1
  rw [List.length_erase_of_mem hmem]
  have hp := List.length_pos_of_mem hmem
  omega

/-- IndexSum-Delta cancellation (`delta_elimination`): run the elimination
loop, then drop unit-valued factors. -/
def delta_elimination (sum_indices : List Index) (factors : List Expr) :
    Except Err (List Index × List Expr) := do
  let (si, fs) ← deltaElimLoop sum_indices factors
  return (si, fs.filter (fun e => e != one))

/-- The elimination loop succeeds on factor lists without degenerate
deltas, and returns a sub-multiset of the summation indices together with
factors still free of degenerate deltas. -/
theorem deltaElimLoop_ok (n : Nat) : ∀ (si : List Index) (factors : List Expr),
    si.length < n → (∀ f ∈ factors, f.noDegen = true) →
    ∃ si' fs', deltaElimLoop si factors = .ok (si', fs') ∧ si' ⊆ si ∧
      (∀ f ∈ fs', f.noDegen = true) := by
  induction n with
  | zero => intro si factors h; omega
  | succ n ih =>
      intro si factors hlen hnd
      rw [deltaElimLoop.eq_def]
      split
      · exact ⟨si, factors, rfl, fun x hx => hx, hnd⟩
      · rename_i d from_ rest heq
        obtain ⟨hdin, hfrom, i, j, hd, hor⟩ :=
          deltaQueue_mem (heq ▸ List.mem_cons_self (d, from_) rest)
        subst hd
        have hij : i ≠ j := by
          have := hnd _ hdin
          simpa [Expr.noDegen, bne_iff_ne] using this
        have hlen2 : (si.erase from_).length < n := by
          rw [List.length_erase_of_mem hfrom]
          have := List.length_pos_of_mem hfrom
          omega
        rcases hor with h1 | h1
        · have hone : deltaOther i j from_ = some j := by
            simp only [deltaOther]
            rw [if_neg hij, if_pos h1.symm]
          simp only [hone]
          obtain ⟨si', fs', heq2, hsub, hnd2⟩ :=
            ih (si.erase from_) (factors.map (fun e => fri e [(from_, j)]))
              hlen2 (by
                intro f hf
                simp only [List.mem_map] at hf
                obtain ⟨g, hg, hfg⟩ := hf
                exact hfg ▸ fri_noDegen_all.1 g _ (hnd g hg))
          exact ⟨si', fs', heq2,
            fun x hx => List.erase_subset _ _ (hsub hx), hnd2⟩
        · have hi_ne : ¬ (i = IdxRef.free from_) := by
            intro hcon
            exact hij (hcon.trans h1)
          have hone : deltaOther i j from_ = some i := by
            simp only [deltaOther]
            rw [if_neg hij, if_neg hi_ne, if_pos h1.symm]
          simp only [hone]
          obtain ⟨si', fs', heq2, hsub, hnd2⟩ :=
            ih (si.erase from_) (factors.map (fun e => fri e [(from_, i)]))
              hlen2 (by
                intro f hf
                simp only [List.mem_map] at hf
                obtain ⟨g, hg, hfg⟩ := hf
                exact hfg ▸ fri_noDegen_all.1 g _ (hnd g hg))
          exact ⟨si', fs', heq2,
            fun x hx => List.erase_subset _ _ (hsub hx), hnd2⟩

/-- C5: on every input pair whose factors carry no degenerate delta (the
only expressions constructible through the substrate), `delta_elimination`
terminates with a result: the loop is well-founded because every
iteration removes one index from `sum_indices`; the returned summation
indices are a subset of the input ones; and unit-valued (`one`) factors
are dropped from the returned factor list. -/
theorem delta_elimination_ok (si : List Index) (factors : List Expr)
    (hnd : ∀ f ∈ factors, f.noDegen = true) :
    ∃ si' fs', delta_elimination si factors = .ok (si', fs') ∧
      si' ⊆ si ∧ one ∉ fs' := by
  obtain ⟨si', fs', heq, hsub, hnd2⟩ :=
    deltaElimLoop_ok (si.length + 1) si factors (by omega) hnd
  refine ⟨si', fs'.filter (fun e => e != one), ?_, hsub, ?_⟩
  · simp [delta_elimination, heq]
  · intro hmem
    rw [List.mem_filter] at hmem
    simp at hmem

/-- Witness for C5: eliminating delta(i, j) against summation index i in
the product delta(i, j) * f(i) yields sum index subset and no unit factor
(concrete scenario 2 of the spec). -/
theorem delta_elimination_ok_witness :
    ∃ si' fs',
      delta_elimination [⟨0, 3⟩]
        [.Delta (.free ⟨0, 3⟩) (.free ⟨1, 3⟩),
         .Indexed (.Variable 7 [3]) [.free ⟨0, 3⟩]] = .ok (si', fs') ∧
      si' ⊆ [⟨0, 3⟩] ∧ one ∉ fs' :=
  delta_elimination_ok _ _ (by decide)

/-- Operation count to combine a pair of GEM expressions (`count` in
`associate_product` / `associate_sum`): the product of the extents of the
union of their free index sets. -/
def pairCount (a b : Expr) : Nat :=
  (a.freeIndices ∪ b.freeIndices).prod Index.extent

/-- All unordered pairs in `itertools.combinations(l, 2)` order. -/
def pairsAll : List Expr → List (Expr × Expr)
  | [] => []
  | x :: xs => (xs.map fun y => (x, y)) ++ pairsAll xs

/-- Python `min(pairs, key=count)`: the first pair attaining the minimal
combination cost (ties keep the earlier pair). -/
def minByCount (l : List (Expr × Expr)) : Option (Expr × Expr) :=
  l.foldl
    (fun acc p =>
      match acc with
      | none => some p
      | some q => if pairCount p.1 p.2 < pairCount q.1 q.2 then some p else some q)
    none

/-- A minimum extracted by `minByCount` is an element of the pair list. -/
theorem minByCount_mem {l : List (Expr × Expr)} {p : Expr × Expr}
    (h : minByCount l = some p) : p ∈ l := by
  have aux : ∀ (l : List (Expr × Expr)) (acc : Option (Expr × Expr)),
      l.foldl
        (fun acc q =>
          match acc with
          | none => some q
          | some r => if pairCount q.1 q.2 < pairCount r.1 r.2 then some q
              else some r) acc = some p →
      p ∈ l ∨ acc = some p := by
    intro l
    induction l with
    | nil => intro acc h2; exact Or.inr h2
    | cons x xs ih =>
        intro acc h2
        rcases ih _ h2 with hin | hacc
        · exact Or.inl (List.mem_cons_of_mem _ hin)
        · cases acc with
          | none =>
              dsimp only at hacc
              injection hacc with hxp
              exact Or.inl (hxp ▸ List.mem_cons_self _ _)
          | some q =>
              dsimp only at hacc
              by_cases hlt : pairCount x.1 x.2 < pairCount q.1 q.2
              · rw [if_pos hlt] at hacc
                injection hacc with hxp
                exact Or.inl (hxp ▸ List.mem_cons_self _ _)
              · rw [if_neg hlt] at hacc
                exact Or.inr hacc
  rcases aux l none h with hin | hacc
  · exact hin
  · simp at hacc

/-- Members of the combination list are ordered sublists of the operand
list. -/
theorem pairsAll_sublist {l : List Expr} {a b : Expr}
    (h : (a, b) ∈ pairsAll l) : [a, b].Sublist l := by
  induction l with
  | nil => simp [pairsAll] at h
  | cons x xs ih =>
      simp only [pairsAll, List.mem_append, List.mem_map, Prod.mk.injEq] at h
      rcases h with ⟨y, hy, hxy⟩ | hrec
      · obtain ⟨hx, hyb⟩ := hxy
        subst hx
        subst hyb
        exact (List.singleton_sublist.mpr hy).cons₂ _
      · exact (ih hrec).cons x

/-- From an ordered two-element sublist: the first element is a member,
and the second survives erasing one occurrence of the first. -/
theorem sublist_pair_mem {l : List Expr} {a b : Expr}
    (h : [a, b].Sublist l) : a ∈ l ∧ b ∈ l.erase a := by
  induction l with
  | nil => simp at h
  | cons x xs ih =>
      by_cases hxa : x = a
      · subst hxa
        have hb : b ∈ xs := by
          cases h with
          | cons _ h2 => exact h2.subset (by simp)
          | cons₂ _ h2 => exact List.singleton_sublist.mp h2
        refine ⟨List.mem_cons_self _ _, ?_⟩
        rw [List.erase_cons_head]
        exact hb
      · have h2 : [a, b].Sublist xs := by
          cases h with
          | cons _ h3 => exact h3
          | cons₂ _ h3 => exact absurd rfl hxa
        obtain ⟨ha, hb⟩ := ih h2
        refine ⟨List.mem_cons_of_mem _ ha, ?_⟩
        rw [List.erase_cons_tail]
        · exact List.mem_cons_of_mem _ hb
        · simp [hxa]

/-- The greedy pairwise-merge loop shared by `associate_product` and
`associate_sum`: while more than one operand remains, combine the
cheapest pair (removing the two chosen operands by first-occurrence, as
Python `list.remove` does, and appending the combination), accumulating
the pair costs. -/
def greedyLoop (combine : Expr → Expr → Expr) (factors : List Expr)
    (flops : Nat) : List Expr × Nat :=
  if factors.length ≤ 1 then (factors, flops)
  else
    match hab : minByCount (pairsAll factors) with
    | none => (factors, flops)
    | some (a, b) =>
        greedyLoop combine (((factors.erase a).erase b) ++ [combine a b])
          (flops + pairCount a b)
termination_by factors.length
decreasing_by
  obtain ⟨ha, hb⟩ := sublist_pair_mem (pairsAll_sublist (minByCount_mem hab))
  simp only [List.length_append, List.length_singleton]
  rw [List.length_erase_of_mem hb, List.length_erase_of_mem ha]
  have := List.length_pos_of_mem ha
  have := List.length_pos_of_mem hb
  omega

/-- Apply associativity rules to construct an operation-minimal product
tree (`associate_product`): reject more than 32 factors, then run the
greedy merge; the final single-element unpacking (`product, = factors`)
fails with a `ValueError` on an empty input. -/
def associate_product (factors : List Expr) : Except Err (Expr × Nat) :=
  if factors.length > 32 then .error .notImplTooComplex
  else
    match greedyLoop (fun a b => .Product a b) factors 0 with
    | ([p], flops) => .ok (p, flops)
    | _ => .error .valueError

/-- First-occurrence-ordered distinct keys of a list (OrderedDict key
order for the summand groups of `associate_sum`). -/
def firstOccKeys : List (Finset Index) → List (Finset Index)
  | [] => []
  | k :: rest => k :: ((firstOccKeys rest).filter (fun k2 => k2 ≠ k))

/-- Apply associativity rules to construct an operation-minimal summation
tree (`associate_sum`): group the summands by their free-index sets
(insertion-ordered, `reduce(Sum, group, Zero())` per group), reject more
than 32 groups, then run the greedy merge. -/
def associate_sum (summands : List Expr) : Except Err (Expr × Nat) :=
  let keys := firstOccKeys (summands.map Expr.freeIndices)
  let grouped := keys.map fun k =>
    (summands.filter (fun e => decide (e.freeIndices = k))).foldl
      (fun acc e => .Sum acc e) (.Zero [])
  if grouped.length > 32 then .error .notImplTooComplex
  else
    match greedyLoop (fun a b => .Sum a b) grouped 0 with
    | ([p], flops) => .ok (p, flops)
    | _ => .error .valueError

/-- Multiplicative leaves of a product tree (operands modulo
associativity). -/
def prodLeaves : Expr → List Expr
  | .Product a b => prodLeaves a ++ prodLeaves b
  | .Literal v => [.Literal v]
  | .Zero sh => [.Zero sh]
  | .Identity n => [.Identity n]
  | .Failure sh => [.Failure sh]
  | .Variable nm sh => [.Variable nm sh]
  | .Sum a b => [.Sum a b]
  | .Division a b => [.Division a b]
  | .Power a b => [.Power a b]
  | .MathFunction f a => [.MathFunction f a]
  | .LogicalAnd a b => [.LogicalAnd a b]
  | .LogicalOr a b => [.LogicalOr a b]
  | .LogicalNot a => [.LogicalNot a]
  | .Comparison op a b => [.Comparison op a b]
  | .Conditional c t f => [.Conditional c t f]
  | .IndexSum body mi => [.IndexSum body mi]
  | .ComponentTensor body mi => [.ComponentTensor body mi]
  | .ListTensor elems => [.ListTensor elems]
  | .Delta i j => [.Delta i j]
  | .Indexed child mi => [.Indexed child mi]
  | .FlexiblyIndexed child d2i => [.FlexiblyIndexed child d2i]

/-- Additive leaves of a summation tree, ignoring `Zero` units (operands
modulo associativity and the `Zero()` seeds of the group reduction). -/
def sumLeaves : Expr → List Expr
  | .Sum a b => sumLeaves a ++ sumLeaves b
  | .Zero _ => []
  | .Literal v => [.Literal v]
  | .Identity n => [.Identity n]
  | .Failure sh => [.Failure sh]
  | .Variable nm sh => [.Variable nm sh]
  | .Product a b => [.Product a b]
  | .Division a b => [.Division a b]
  | .Power a b => [.Power a b]
  | .MathFunction f a => [.MathFunction f a]
  | .LogicalAnd a b => [.LogicalAnd a b]
  | .LogicalOr a b => [.LogicalOr a b]
  | .LogicalNot a => [.LogicalNot a]
  | .Comparison op a b => [.Comparison op a b]
  | .Conditional c t f => [.Conditional c t f]
  | .IndexSum body mi => [.IndexSum body mi]
  | .ComponentTensor body mi => [.ComponentTensor body mi]
  | .ListTensor elems => [.ListTensor elems]
  | .Delta i j => [.Delta i j]
  | .Indexed child mi => [.Indexed child mi]
  | .FlexiblyIndexed child d2i => [.FlexiblyIndexed child d2i]

/-- The greedy merge loop returns a single tree whose leaves are, up to
permutation, the concatenated leaves of the operands; generic in the
combination operator and any leaf function distributing over it. -/
theorem greedyLoop_leaves (combine : Expr → Expr → Expr)
    (leavesFn : Expr → List Expr)
    (hdist : ∀ a b, leavesFn (combine a b) = leavesFn a ++ leavesFn b)
    (n : Nat) : ∀ (factors : List Expr) (flops : Nat),
    factors.length ≤ n → factors ≠ [] →
    ∃ p fl, greedyLoop combine factors flops = ([p], fl) ∧
      (leavesFn p).Perm (factors.flatMap leavesFn) := by
  induction n with
  | zero =>
      intro factors flops hlen hne
      cases factors with
      | nil => exact absurd rfl hne
      | cons x xs => simp at hlen
  | succ n ih =>
      intro factors flops hlen hne
      rw [greedyLoop.eq_def]
      by_cases hone : factors.length ≤ 1
      · rw [if_pos hone]
        match factors, hne with
        | [], hne => exact absurd rfl hne
        | [x], _ =>
            exact ⟨x, flops, rfl, by simp⟩
        | x :: y :: rest, _ => simp at hone
      · rw [if_neg hone]
        have hpairs : minByCount (pairsAll factors) ≠ none := by
          match factors, hne with
          | x :: y :: rest, _ =>
              intro hcon
              have hmem : (x, y) ∈ pairsAll (x :: y :: rest) := by
                simp [pairsAll]
              revert hcon
              unfold minByCount
              generalize pairsAll (x :: y :: rest) = l at hmem
              have aux : ∀ (l : List (Expr × Expr)) (q : Expr × Expr),
                  l.foldl
                    (fun acc p =>
                      match acc with
                      | none => some p
                      | some r => if pairCount p.1 p.2 < pairCount r.1 r.2
                          then some p else some r) (some q) ≠ none := by
                intro l
                induction l with
                | nil => intro q h; exact Option.noConfusion h
                | cons z zs ih2 =>
                    intro q
                    dsimp only [List.foldl]
                    split <;> apply ih2
              cases l with
              | nil => simp at hmem
              | cons z zs =>
                  dsimp only [List.foldl]
                  apply aux
          | [x], _ => simp at hone
          | [], hne => exact absurd rfl hne
        match hab : minByCount (pairsAll factors) with
        | none => exact absurd hab hpairs
        | some (a, b) =>
            obtain ⟨ha, hb⟩ := sublist_pair_mem (pairsAll_sublist (minByCount_mem hab))
            have hlen2 : (((factors.erase a).erase b) ++ [combine a b]).length ≤ n := by
              simp only [List.length_append, List.length_singleton]
              rw [List.length_erase_of_mem hb, List.length_erase_of_mem ha]
              have := List.length_pos_of_mem ha
              omega
            have hne2 : ((factors.erase a).erase b) ++ [combine a b] ≠ [] := by
              simp
            obtain ⟨p, fl, heq, hperm⟩ := ih _ (flops + pairCount a b) hlen2 hne2
            refine ⟨p, fl, heq, hperm.trans ?_⟩
            have hp : factors.Perm (a :: b :: (factors.erase a).erase b) :=
              (List.perm_cons_erase ha).trans ((List.perm_cons_erase hb).cons a)
            have hflat := (List.Perm.flatMap_right leavesFn hp).symm
            have h3 : (((factors.erase a).erase b) ++ [combine a b]).flatMap leavesFn =
                (((factors.erase a).erase b).flatMap leavesFn) ++
                  (leavesFn a ++ leavesFn b) := by
              simp [List.flatMap_append, List.flatMap_cons, hdist]
            have h4 : (a :: b :: (factors.erase a).erase b).flatMap leavesFn =
                (leavesFn a ++ leavesFn b) ++
                  ((factors.erase a).erase b).flatMap leavesFn := by
              simp [List.flatMap_cons, List.append_assoc]
            rw [h3]
            exact List.perm_append_comm.trans (h4 ▸ hflat)

/-- Keys produced by `firstOccKeys` are exactly the keys occurring in the
input, without duplicates. -/
theorem firstOccKeys_spec (l : List (Finset Index)) :
    (firstOccKeys l).Nodup ∧ ∀ k, k ∈ firstOccKeys l ↔ k ∈ l := by
  induction l with
  | nil => simp [firstOccKeys]
  | cons k rest ih =>
      obtain ⟨hnd, hmem⟩ := ih
      constructor
      · refine List.Nodup.cons ?_ (List.Nodup.filter _ hnd)
        intro hk
        rw [List.mem_filter] at hk
        simp at hk
      · intro k2
        simp only [firstOccKeys, List.mem_cons, List.mem_filter, hmem,
          decide_eq_true_eq]
        constructor
        · rintro (h | ⟨h, _⟩)
          · exact Or.inl h
          · exact Or.inr h
        · rintro (h | h)
          · exact Or.inl h
          · by_cases hk : k2 = k
            · exact Or.inl hk
            · exact Or.inr ⟨h, by simpa using hk⟩

/-- Grouping by distinct covering keys partitions a list (up to
permutation). -/
theorem filter_keys_partition (f : Expr → Finset Index) :
    ∀ (ks : List (Finset Index)) (l : List Expr), ks.Nodup →
    (∀ x ∈ l, f x ∈ ks) →
    (ks.flatMap fun k => l.filter (fun e => decide (f e = k))).Perm l := by
  intro ks
  induction ks with
  | nil =>
      intro l _ hcov
      cases l with
      | nil => simp
      | cons x xs => exact absurd (hcov x (List.mem_cons_self _ _)) (by simp)
  | cons k rest ih =>
      intro l hnd hcov
      simp only [List.flatMap_cons]
      have hgroups : rest.flatMap (fun k2 => l.filter (fun e => decide (f e = k2))) =
          rest.flatMap (fun k2 =>
            (l.filter (fun e => !decide (f e = k))).filter
              (fun e => decide (f e = k2))) := by
        refine List.flatMap_congr ?_
        intro k2 hk2
        rw [List.filter_filter]
        refine (List.filter_congr ?_).symm
        intro e _
        have hne : k2 ≠ k := by
          intro hcon
          rw [List.nodup_cons] at hnd
          exact hnd.1 (hcon ▸ hk2)
        by_cases hfe : f e = k2
        · simp [hfe, hne]
        · simp [hfe]
      rw [hgroups]
      have hperm2 := ih (l.filter (fun e => !decide (f e = k)))
        (List.nodup_cons.mp hnd).2
        (by
          intro x hx
          rw [List.mem_filter] at hx
          have := hcov x hx.1
          rcases List.mem_cons.mp this with h | h
          · exact absurd (by simpa using h) (by simpa using hx.2)
          · exact h)
      exact (List.Perm.append_left _ hperm2).trans
        (List.filter_append_perm (fun e => decide (f e = k)) l)

/-- Additive leaves of the left fold building a group sum. -/
theorem sumLeaves_foldl (g : List Expr) : ∀ z : Expr,
    sumLeaves (g.foldl (fun acc e => .Sum acc e) z) =
      sumLeaves z ++ g.flatMap sumLeaves := by
  induction g with
  | nil => intro z; simp
  | cons x xs ih =>
      intro z
      simp only [List.foldl_cons, ih, sumLeaves, List.flatMap_cons,
        List.append_assoc]

/-- When the number of distinct free-index groups is at most 32,
`associate_sum` succeeds and preserves the additive-leaf multiset. -/
theorem associate_sum_groups_ok (factors : List Expr) :
    factors ≠ [] →
    (firstOccKeys (factors.map Expr.freeIndices)).length ≤ 32 →
    ∃ p fl, associate_sum factors = .ok (p, fl) ∧
      (sumLeaves p).Perm (factors.flatMap sumLeaves) := by
  intro hne h32
  have hkeys := firstOccKeys_spec (factors.map Expr.freeIndices)
  set keys := firstOccKeys (factors.map Expr.freeIndices) with hkdef
  set grouped := keys.map (fun k =>
    (factors.filter (fun e => decide (e.freeIndices = k))).foldl
      (fun acc e => Expr.Sum acc e) (Expr.Zero [])) with hgdef
  have hglen : grouped.length = keys.length := by simp [hgdef]
  have hgne : grouped ≠ [] := by
    match factors, hne with
    | x :: xs, _ =>
        simp only [hgdef, hkdef, List.map_cons, firstOccKeys]
        simp
  have h32n : ¬(grouped.length > 32) := by omega
  obtain ⟨p, fl, heq, hperm⟩ :=
    greedyLoop_leaves (fun a b => .Sum a b) sumLeaves
      (fun a b => by simp [sumLeaves]) grouped.length grouped 0 le_rfl hgne
  refine ⟨p, fl, ?_, ?_⟩
  · simp only [associate_sum, ← hkdef, ← hgdef, if_neg h32n, heq]
  · refine hperm.trans ?_
    have hcover : ∀ x ∈ factors, x.freeIndices ∈ keys := by
      intro x hx
      exact (hkeys.2 _).mpr (List.mem_map_of_mem _ hx)
    have hpart := filter_keys_partition Expr.freeIndices keys factors
      hkeys.1 hcover
    have hstep1 : grouped.flatMap sumLeaves =
        keys.flatMap (fun k =>
          (factors.filter (fun e => decide (e.freeIndices = k))).flatMap
            sumLeaves) := by
      rw [hgdef, List.flatMap_map]
      refine List.flatMap_congr ?_
      intro k _
      rw [sumLeaves_foldl]
      simp [sumLeaves]
    have hstep2 : keys.flatMap (fun k =>
        (factors.filter (fun e => decide (e.freeIndices = k))).flatMap
          sumLeaves) =
        (keys.flatMap (fun k =>
          factors.filter (fun e => decide (e.freeIndices = k)))).flatMap
          sumLeaves := by
      rw [List.bind_assoc]
    rw [hstep1, hstep2]
    exact List.Perm.flatMap_right sumLeaves hpart

/-- C2 (amended): for any nonempty operand list, `associate_product`
returns a tree using every operand exactly once (multiplicative-leaf
multiset preserved) and never raises for at most 32 operands, raising the
capacity error for more than 32; `associate_sum` likewise uses every
operand exactly once (additive-leaf multiset preserved, `Zero` group
seeds aside), but its capacity threshold applies to the number of
distinct free-index groups formed by the pre-summing step, not to the raw
operand count: at most 32 groups never raises (in particular at most 32
operands never raises), and more than 32 groups always raises. -/
theorem associate_correctness (factors : List Expr) :
    (factors ≠ [] → factors.length ≤ 32 →
      ∃ p fl, associate_product factors = .ok (p, fl) ∧
        (prodLeaves p).Perm (factors.flatMap prodLeaves)) ∧
    (factors.length > 32 →
      associate_product factors = .error .notImplTooComplex) ∧
    (factors ≠ [] →
      (firstOccKeys (factors.map Expr.freeIndices)).length ≤ 32 →
      ∃ p fl, associate_sum factors = .ok (p, fl) ∧
        (sumLeaves p).Perm (factors.flatMap sumLeaves)) ∧
    ((firstOccKeys (factors.map Expr.freeIndices)).length > 32 →
      associate_sum factors = .error .notImplTooComplex) := by
  refine ⟨?_, ?_, ?_, ?_⟩
  · intro hne h32
    have h32n : ¬(factors.length > 32) := by omega
    obtain ⟨p, fl, heq, hperm⟩ :=
      greedyLoop_leaves (fun a b => .Product a b) prodLeaves
        (fun a b => by simp [prodLeaves]) factors.length factors 0 le_rfl hne
    refine ⟨p, fl, ?_, hperm⟩
    simp only [associate_product, if_neg h32n, heq]
  · intro h32
    simp only [associate_product, if_pos h32]
  · exact associate_sum_groups_ok factors
  · intro h32
    have hcond : ((firstOccKeys (factors.map Expr.freeIndices)).map (fun k =>
        (factors.filter (fun e => decide (e.freeIndices = k))).foldl
          (fun acc e => Expr.Sum acc e) (Expr.Zero []))).length > 32 := by
      rw [List.length_map]
      omega
    simp only [associate_sum, if_pos hcond]

/-- Counterexample to C2 as stated: thirty-three summands sharing one
free-index set are pre-summed into a single group, so `associate_sum`
does not raise the capacity error even though the operand count exceeds
32. -/
theorem associate_sum_over32_no_raise :
    (List.replicate 33 one).length > 32 ∧
    associate_sum (List.replicate 33 one) ≠ Except.error Err.notImplTooComplex := by
  constructor
  · simp
  · have hkeys : ∀ n : Nat, n ≠ 0 →
        firstOccKeys (List.replicate n (∅ : Finset Index)) = [∅] := by
      intro n
      induction n with
      | zero => intro h; exact absurd rfl h
      | succ m ih =>
          intro _
          cases m with
          | zero => simp [firstOccKeys]
          | succ k =>
              rw [List.replicate_succ, firstOccKeys, ih (by omega)]
              simp
    have hmap : (List.replicate 33 one).map Expr.freeIndices =
        List.replicate 33 (∅ : Finset Index) := by
      rw [List.map_replicate]
      simp [one, Expr.freeIndices]
    obtain ⟨p, fl, heq, _⟩ := associate_sum_groups_ok (List.replicate 33 one)
      (by simp) (by rw [hmap, hkeys 33 (by omega)]; simp)
    rw [heq]
    simp

/-- Witness for the amended C2 at concrete inputs: a two-factor product,
an over-large product operand list, a singleton sum, and a sum whose
thirty-three groups have pairwise distinct free-index sets. -/
theorem associate_correctness_witness :
    (∃ p fl, associate_product [.Literal 2, .Literal 3] = .ok (p, fl) ∧
      (prodLeaves p).Perm
        ([.Literal 2, .Literal 3].flatMap prodLeaves)) ∧
    (associate_product (List.replicate 33 (Expr.Literal 1)) =
      .error .notImplTooComplex) ∧
    (∃ p fl, associate_sum [.Literal 2] = .ok (p, fl) ∧
      (sumLeaves p).Perm ([.Literal 2].flatMap sumLeaves)) ∧
    (associate_sum ((List.range 33).map (fun i =>
        Expr.Indexed (.Variable 0 [2]) [.free ⟨i, 2⟩])) =
      .error .notImplTooComplex) :=
  ⟨(associate_correctness _).1 (by simp) (by simp),
   (associate_correctness _).2.1 (by simp),
   (associate_correctness _).2.2.1 (by simp) (by decide),
   (associate_correctness _).2.2.2 (by decide)⟩

/-- Python `reduce` without initializer: left fold from the first
element, raising on an empty sequence. -/
def reduce1 (f : Expr → Expr → Expr) : List Expr → Except Err Expr
  | [] => .error .valueError
  | x :: xs => .ok (xs.foldl f x)

/-- Group the factors by their free indices in insertion order and
multiply out each group (`groups` in `sum_factorise`). -/
def prodGroupsGo (factors : List Expr) :
    List (Finset Index) → Except Err (List Expr)
  | [] => .ok []
  | k :: rest => do
      let g ← reduce1 (fun a b => Expr.Product a b)
        (factors.filter (fun e => decide (e.freeIndices = k)))
      let gs ← prodGroupsGo factors rest
      return g :: gs

/-- One pass of the contraction simulation of `sum_factorise` for a fixed
index ordering: eliminate the indices one at a time, multiplying the
contracted terms with the associativity optimiser and charging the
contraction cost. -/
def sfSteps (ordering : List Index) (terms : List Expr) (flops : Nat) :
    Except Err (List Expr × Nat) :=
  match ordering with
  | [] => .ok (terms, flops)
  | s :: rest => do
      let contract := terms.filter (fun t => decide (s ∈ t.freeIndices))
      let deferred := terms.filter (fun t => !decide (s ∈ t.freeIndices))
      let (product, flops_) ← associate_product contract
      sfSteps rest (deferred ++ [Expr.IndexSum product [s]])
        (flops + flops_ + product.freeIndices.prod Index.extent)

/-- The candidate expression and flop count of one contraction ordering in
`sum_factorise`. -/
def sfCandidate (groups : List Expr) (ordering : List Index) :
    Except Err (Expr × Nat) := do
  let (terms, flops) ← sfSteps ordering groups 0
  let (expr, flops_) ← associate_product terms
  return (expr, flops + flops_)

/-- Fold of `sum_factorise`'s permutation loop: evaluate each ordering in
turn (errors propagate immediately, as in the source), keeping the
strictly cheapest candidate; `none` models the initial
`expression = None` / infinite `best_flops` state. -/
def sfBest (groups : List Expr) (orderings : List (List Index))
    (best : Option (Expr × Nat)) : Except Err Expr :=
  match orderings with
  | [] =>
      match best with
      | some (e, _) => .ok e
      | none => .error .valueError
  | o :: rest => do
      let (expr, flops) ← sfCandidate groups o
      match best with
      | none => sfBest groups rest (some (expr, flops))
      | some (be, bf) =>
          if flops < bf then sfBest groups rest (some (expr, flops))
          else sfBest groups rest (some (be, bf))

/-- Optimise a tensor product through sum factorisation (`sum_factorise`):
empty product short-circuit, capacity guard at five summation indices,
then the exhaustive search over contraction orderings. -/
def sum_factorise (sum_indices : List Index) (factors : List Expr) :
    Except Err Expr :=
  if factors.length = 0 ∧ sum_indices.length = 0 then .ok one
  else if sum_indices.length > 5 then .error .notImplTooManyIndices
  else do
    let groups ← prodGroupsGo factors
      (firstOccKeys (factors.map Expr.freeIndices))
    sfBest groups sum_indices.permutations none

/-- Chasing the capacity error through `Except` binds. -/
theorem bind_ne_tmi {α β : Type} {ma : Except Err α} {f : α → Except Err β}
    (h1 : ma ≠ .error .notImplTooManyIndices)
    (h2 : ∀ a, f a ≠ .error .notImplTooManyIndices) :
    (ma >>= f) ≠ .error .notImplTooManyIndices := by
  cases ma with
  | error e =>
      intro hcon
      have hred : (Except.error e >>= f) = (Except.error e : Except Err β) := rfl
      rw [hred] at hcon
      injection hcon with he
      exact h1 (by rw [he])
  | ok a => exact h2 a

/-- Python `reduce` can only fail with a `ValueError`-style error. -/
theorem reduce1_ne_tmi (f : Expr → Expr → Expr) (l : List Expr) :
    reduce1 f l ≠ .error .notImplTooManyIndices := by
  cases l <;> simp [reduce1]

/-- The associativity optimiser never raises the summation-index capacity
error (its capacity error is the operand-count one). -/
theorem associate_product_ne_tmi (fs : List Expr) :
    associate_product fs ≠ .error .notImplTooManyIndices := by
  unfold associate_product
  split
  · simp
  · split <;> simp

/-- Grouping never raises the summation-index capacity error. -/
theorem prodGroupsGo_ne_tmi (fs : List Expr) :
    ∀ ks, prodGroupsGo fs ks ≠ .error .notImplTooManyIndices := by
  intro ks
  induction ks with
  | nil => simp [prodGroupsGo]
  | cons k rest ih =>
      simp only [prodGroupsGo, bind_pure_comp]
      refine bind_ne_tmi (reduce1_ne_tmi _ _) ?_
      intro g
      refine bind_ne_tmi ih ?_
      intro gs
      simp

/-- The contraction simulation never raises the summation-index capacity
error. -/
theorem sfSteps_ne_tmi : ∀ (ordering : List Index) (terms : List Expr)
    (flops : Nat), sfSteps ordering terms flops ≠ .error .notImplTooManyIndices := by
  intro ordering
  induction ordering with
  | nil => intro terms flops; simp [sfSteps]
  | cons s rest ih =>
      intro terms flops
      simp only [sfSteps]
      refine bind_ne_tmi (associate_product_ne_tmi _) ?_
      intro p
      exact ih _ _

/-- A candidate ordering never raises the summation-index capacity
error. -/
theorem sfCandidate_ne_tmi (groups : List Expr) (ordering : List Index) :
    sfCandidate groups ordering ≠ .error .notImplTooManyIndices := by
  simp only [sfCandidate, bind_pure_comp]
  refine bind_ne_tmi (sfSteps_ne_tmi _ _ _) ?_
  intro p
  refine bind_ne_tmi (associate_product_ne_tmi _) ?_
  intro q
  simp

/-- The permutation fold never raises the summation-index capacity
error. -/
theorem sfBest_ne_tmi (groups : List Expr) : ∀ (orderings : List (List Index))
    (best : Option (Expr × Nat)),
    sfBest groups orderings best ≠ .error .notImplTooManyIndices := by
  intro orderings
  induction orderings with
  | nil => intro best; cases best <;> simp [sfBest]
  | cons o rest ih =>
      intro best
      simp only [sfBest]
      refine bind_ne_tmi (sfCandidate_ne_tmi _ _) ?_
      intro p
      obtain ⟨expr, flops⟩ := p
      cases best with
      | none => exact ih _
      | some b =>
          obtain ⟨be, bf⟩ := b
          dsimp only
          split
          · exact ih _
          · exact ih _

/-- C8: `sum_factorise` raises its capacity error exactly for more than
five summation indices: with more than five it always raises it, and with
at most five it never does (other failures, such as the associativity
optimiser's own capacity error, are distinct error kinds). -/
theorem sum_factorise_capacity (sum_indices : List Index)
    (factors : List Expr) :
    (sum_indices.length > 5 →
      sum_factorise sum_indices factors = .error .notImplTooManyIndices) ∧
    (sum_indices.length ≤ 5 →
      sum_factorise sum_indices factors ≠ .error .notImplTooManyIndices) := by
  constructor
  · intro h5
    have hguard : ¬(factors.length = 0 ∧ sum_indices.length = 0) := by
      intro h
      omega
    simp only [sum_factorise, if_neg hguard, if_pos h5]
  · intro h5
    by_cases hguard : factors.length = 0 ∧ sum_indices.length = 0
    · obtain ⟨hf0, hs0⟩ := hguard
      rw [List.length_eq_zero] at hf0 hs0
      subst hf0
      subst hs0
      simp [sum_factorise]
    · have h5n : ¬(sum_indices.length > 5) := by omega
      simp only [sum_factorise, if_neg hguard, if_neg h5n]
      exact bind_ne_tmi (prodGroupsGo_ne_tmi _ _) (fun groups => sfBest_ne_tmi _ _ _)

/-- Witness for C8: six summation indices raise the capacity error; an
empty index list does not. -/
theorem sum_factorise_capacity_witness :
    (sum_factorise ((List.range 6).map (fun i => ⟨i, 2⟩)) [.Literal 1] =
      .error .notImplTooManyIndices) ∧
    (sum_factorise [] [.Literal 1] ≠ .error .notImplTooManyIndices) :=
  ⟨(sum_factorise_capacity _ _).1 (by simp),
   (sum_factorise_capacity _ _).2 (by simp)⟩

/-- Refactorisation labels (`ATOMIC`, `COMPOUND`, `OTHER`). -/
inductive Label where
  | atomic
  | compound
  | other
deriving DecidableEq, Repr

/-- Traverses a product tree and collects factors (`traverse_product`),
descending into tensor contractions and the dividends (but not divisors)
of divisions; `stop_at` stops the decomposition at designated nodes.
The source's explicit work-stack is realised as structural recursion with
identical traversal order. -/
def traverse_product (stop_at : Expr → Bool) (e : Expr) :
    List Index × List Expr :=
  if stop_at e then ([], [e])
  else
    match e with
    | .IndexSum c mi =>
        let (si, ts) := traverse_product stop_at c
        (mi ++ si, ts)
    | .Product a b =>
        let (s1, t1) := traverse_product stop_at a
        let (s2, t2) := traverse_product stop_at b
        (s1 ++ s2, t1 ++ t2)
    | .Division d v =>
        if d = one then ([], [.Division d v])
        else
          let (si, ts) := traverse_product stop_at d
          (si, ts ++ [.Division one v])
    | _ => ([], [e])
termination_by sizeOf e
decreasing_by all_goals simp_wf <;> omega

/-- Traverses a summation tree and collects summands (`traverse_sum`). -/
def traverse_sum (stop_at : Expr → Bool) (e : Expr) : List Expr :=
  if stop_at e then [e]
  else
    match e with
    | .Sum a b => traverse_sum stop_at a ++ traverse_sum stop_at b
    | _ => [e]
termination_by sizeOf e
decreasing_by all_goals simp_wf <;> omega

mutual

/-- All nodes of an expression, the root included (the DAG `traversal`;
revisiting shared nodes is harmless for the uses below). -/
def Expr.subnodes : Expr → List Expr
  | .Literal v => [.Literal v]
  | .Zero sh => [.Zero sh]
  | .Identity n => [.Identity n]
  | .Failure sh => [.Failure sh]
  | .Variable nm sh => [.Variable nm sh]
  | .Sum a b => .Sum a b :: (a.subnodes ++ b.subnodes)
  | .Product a b => .Product a b :: (a.subnodes ++ b.subnodes)
  | .Division a b => .Division a b :: (a.subnodes ++ b.subnodes)
  | .Power a b => .Power a b :: (a.subnodes ++ b.subnodes)
  | .MathFunction f a => .MathFunction f a :: a.subnodes
  | .LogicalAnd a b => .LogicalAnd a b :: (a.subnodes ++ b.subnodes)
  | .LogicalOr a b => .LogicalOr a b :: (a.subnodes ++ b.subnodes)
  | .LogicalNot a => .LogicalNot a :: a.subnodes
  | .Comparison op a b => .Comparison op a b :: (a.subnodes ++ b.subnodes)
  | .Conditional c t f => .Conditional c t f :: (c.subnodes ++ t.subnodes ++ f.subnodes)
  | .IndexSum body mi => .IndexSum body mi :: body.subnodes
  | .ComponentTensor body mi => .ComponentTensor body mi :: body.subnodes
  | .ListTensor elems => .ListTensor elems :: elems.subnodesL
  | .Delta i j => [.Delta i j]
  | .Indexed child mi => .Indexed child mi :: child.subnodes
  | .FlexiblyIndexed child d2i => .FlexiblyIndexed child d2i :: child.subnodes

/-- All nodes of the elements of an `ExprList`. -/
def ExprList.subnodesL : ExprList → List Expr
  | .nil => []
  | .cons e rest => e.subnodes ++ rest.subnodesL

end

/-- Check whether any node of any expression is a `Failure`
(`propagate_failure`). -/
def propagate_failure (expressions : List Expr) : Bool :=
  expressions.any fun e =>
    e.subnodes.any fun n =>
      match n with
      | .Failure _ => true
      | _ => false

/-- Row-major enumeration of all multi-index values of a shape
(`numpy.ndindex`). -/
def ndindex : List Nat → List (List Nat)
  | [] => [[]]
  | n :: rest => (List.range n).flatMap fun i => (ndindex rest).map (i :: ·)

mutual

/-- Unrolls IndexSums over indices satisfying the predicate
(`_unroll_indexsum` under a `Memoizer`; the default handler is the
rebuild-children recursion). -/
def unrollIS (pred : Index → Bool) (e : Expr) : Expr :=
  match e with
  | .Literal v => .Literal v
  | .Zero sh => .Zero sh
  | .Identity n => .Identity n
  | .Failure sh => .Failure sh
  | .Variable nm sh => .Variable nm sh
  | .Sum a b => .Sum (unrollIS pred a) (unrollIS pred b)
  | .Product a b => .Product (unrollIS pred a) (unrollIS pred b)
  | .Division a b => .Division (unrollIS pred a) (unrollIS pred b)
  | .Power a b => .Power (unrollIS pred a) (unrollIS pred b)
  | .MathFunction f a => .MathFunction f (unrollIS pred a)
  | .LogicalAnd a b => .LogicalAnd (unrollIS pred a) (unrollIS pred b)
  | .LogicalOr a b => .LogicalOr (unrollIS pred a) (unrollIS pred b)
  | .LogicalNot a => .LogicalNot (unrollIS pred a)
  | .Comparison op a b => .Comparison op (unrollIS pred a) (unrollIS pred b)
  | .Conditional c t f =>
      .Conditional (unrollIS pred c) (unrollIS pred t) (unrollIS pred f)
  | .IndexSum body mi =>
      let unroll := mi.filter pred
      if unroll.isEmpty then .IndexSum (unrollIS pred body) mi
      else
        let summand := unrollIS pred body
        let sh := unroll.map Index.extent
        let unrolled := (ndindex sh).foldl
          (fun acc alpha =>
            Expr.Sum acc (.Indexed (.ComponentTensor summand unroll)
              (alpha.map (fun a => IdxRef.fixed (Int.ofNat a)))))
          (.Zero [])
        .IndexSum unrolled (mi.filter (fun i => !pred i))
  | .ComponentTensor body mi => .ComponentTensor (unrollIS pred body) mi
  | .ListTensor elems => .ListTensor (unrollISL pred elems)
  | .Delta i j => .Delta i j
  | .Indexed child mi => .Indexed (unrollIS pred child) mi
  | .FlexiblyIndexed child d2i => .FlexiblyIndexed (unrollIS pred child) d2i

/-- Unrolls IndexSums in every element of a `ListTensor`. -/
def unrollISL (pred : Index → Bool) : ExprList → ExprList
  | .nil => .nil
  | .cons e rest => .cons (unrollIS pred e) (unrollISL pred rest)

end

/-- Unrolls IndexSums over indices below a predicate in a list of
expressions (`unroll_indexsum`). -/
def unroll_indexsum (expressions : List Expr) (pred : Index → Bool) :
    List Expr :=
  expressions.map (unrollIS pred)

/-- MonomialSum key: (frozen set of sum indices, frozen multiset of
atomics) — Python `(frozenset(sum_indices),
frozenset(Counter(atomics).items()))`. -/
abbrev MSKey := Finset Index × Multiset Expr

/-- Key computed by `MonomialSum.add` from a monomial's data. -/
def keyOf (sum_indices : List Index) (atomics : List Expr) : MSKey :=
  (sum_indices.toFinset, (atomics : Multiset Expr))

/-- Dictionary lookup with the `defaultdict(Zero)` default. -/
def msLookup (m : List (MSKey × Expr)) (k : MSKey) : Expr :=
  (((m.find? (fun p => p.1 = k)).map Prod.snd)).getD (.Zero [])

/-- Dictionary update preserving insertion order (Python `dict`
assignment). -/
def msSet (m : List (MSKey × Expr)) (k : MSKey) (v : Expr) :
    List (MSKey × Expr) :=
  match m with
  | [] => [(k, v)]
  | (k2, v2) :: rest =>
      if k2 = k then (k, v) :: rest else (k2, v2) :: msSet rest k v

/-- Python `dict.setdefault` preserving insertion order. -/
def setdefaultA {β : Type} (l : List (MSKey × β)) (k : MSKey) (v : β) :
    List (MSKey × β) :=
  match l with
  | [] => [(k, v)]
  | (k2, v2) :: rest =>
      if k2 = k then (k2, v2) :: rest else (k2, v2) :: setdefaultA rest k v

/-- Python `dict.setdefault(key, []).append(v)` preserving insertion
order. -/
def setdefaultAppend {κ : Type} [DecidableEq κ] {β : Type}
    (l : List (κ × List β)) (k : κ) (v : β) : List (κ × List β) :=
  match l with
  | [] => [(k, [v])]
  | (k2, vs) :: rest =>
      if k2 = k then (k2, vs ++ [v]) :: rest
      else (k2, vs) :: setdefaultAppend rest k v

/-- Represents a sum of monomials (`MonomialSum`): an insertion-ordered
mapping from keys to accumulated `rest` expressions, plus the
insertion-ordered record of one canonical (sum_indices, atomics)
representative per key, plus the dynamically attached `argument_indices`
attribute (`none` while unset). -/
structure MonomialSum where
  monomials : List (MSKey × Expr)
  ordering : List (MSKey × (List Index × List Expr))
  argument_indices : Option (List Index)
deriving DecidableEq

/-- The empty `MonomialSum()`. -/
def MonomialSum.empty : MonomialSum := ⟨[], [], none⟩

/-- Updates the MonomialSum adding a new monomial (`MonomialSum.add`).
The source asserts that the sum indices carry no duplicates. -/
def MonomialSum.add (ms : MonomialSum) (sum_indices : List Index)
    (atomics : List Expr) (rest : Expr) : Except Err MonomialSum :=
  if sum_indices.Nodup then
    let key := keyOf sum_indices atomics
    .ok { ms with
      monomials := msSet ms.monomials key (.Sum (msLookup ms.monomials key) rest)
      ordering := setdefaultA ms.ordering key (sum_indices, atomics) }
  else .error .assertionError

/-- Iteration over a MonomialSum yields its monomials in insertion order
(`__iter__`). -/
def MonomialSum.toMonomials (ms : MonomialSum) :
    List (List Index × List Expr × Expr) :=
  ms.ordering.map (fun p => (p.2.1, p.2.2, msLookup ms.monomials p.1))

/-- Sum of multiple MonomialSums (`MonomialSum.sum`): merge the rest
accumulators pointwise and keep the first-seen ordering
representatives. -/
def MonomialSum.sum (args : List MonomialSum) : MonomialSum :=
  args.foldl
    (fun result arg =>
      { monomials := arg.monomials.foldl
          (fun m p => msSet m p.1 (.Sum (msLookup m p.1) p.2))
          result.monomials
        ordering := arg.ordering.foldl
          (fun o p => setdefaultA o p.1 p.2) result.ordering
        argument_indices := result.argument_indices })
    MonomialSum.empty

/-- Cartesian product of lists in `itertools.product` order. -/
def cartesian {α : Type} : List (List α) → List (List α)
  | [] => [[]]
  | l :: rest => l.flatMap fun x => (cartesian rest).map (x :: ·)

/-- Product of multiple MonomialSums (`MonomialSum.product`). -/
def MonomialSum.product (args : List MonomialSum) : Except Err MonomialSum :=
  (cartesian (args.map MonomialSum.toMonomials)).foldlM
    (fun result monomials =>
      let sum_indices := monomials.flatMap (fun m => m.1)
      let atomics := monomials.flatMap (fun m => m.2.1)
      let rest := monomials.foldl (fun r m => .Product m.2.2 r) one
      result.add sum_indices atomics rest)
    MonomialSum.empty

/-- Generator of unique sum-index sets together with their first-seen
ordered representative (`unique_sum_indices`). -/
def uniqueSIGo : List (MSKey × (List Index × List Expr)) →
    Finset (Finset Index) → List (Finset Index × List Index)
  | [], _ => []
  | (k, v) :: rest, seen =>
      if k.1 ∈ seen then uniqueSIGo rest seen
      else (k.1, v.1) :: uniqueSIGo rest (insert k.1 seen)

/-- Unique sum indices of a MonomialSum (`unique_sum_indices`). -/
def MonomialSum.unique_sum_indices (ms : MonomialSum) :
    List (Finset Index × List Index) :=
  uniqueSIGo ms.ordering ∅

/-- Delta elimination on the reversed summation indices followed by sum
factorisation (`fast_sum_factorise`). -/
def fast_sum_factorise (sum_indices : List Index) (factors : List Expr) :
    Except Err Expr := do
  let (si, fs) ← delta_elimination sum_indices.reverse factors
  sum_factorise si fs

/-- Convert a MonomialSum to a GEM node (`MonomialSum.to_expression`):
monomials with no sum indices go straight through sum factorisation;
per sum-index group, a single monomial is sum-factorised directly, while
two or more are multiplied out with the associativity optimiser, summed
with the associativity optimiser and wrapped in one IndexSum; the
resulting terms are summed with the associativity optimiser. -/
def MonomialSum.to_expression (ms : MonomialSum) : Except Err Expr := do
  let (indexsums, groups) ← ms.ordering.foldlM
    (fun (acc : List Expr ×
        List ((Finset Index × List Index) × List (List Expr × Expr)))
      p => do
      let (key, (sum_indices, atomics)) := p
      let rest := msLookup ms.monomials key
      if key.1 = ∅ then do
        let e ← fast_sum_factorise sum_indices (atomics ++ [rest])
        return (acc.1 ++ [e], acc.2)
      else
        return (acc.1, setdefaultAppend acc.2 (key.1, sum_indices) (atomics, rest)))
    ([], [])
  let indexsums ← groups.foldlM
    (fun (acc : List Expr) g => do
      let ((_, sum_indices), monomials) := g
      match monomials with
      | [(atomics, rest)] => do
          let e ← fast_sum_factorise sum_indices (atomics ++ [rest])
          return (acc ++ [e])
      | _ => do
          let products ← monomials.mapM (fun m => do
            let (p, _) ← associate_product (m.1 ++ [m.2])
            return p)
          let (s, _) ← associate_sum products
          return (acc ++ [Expr.IndexSum s sum_indices]))
    indexsums
  let (result, _) ← associate_sum indexsums
  return result

/-- The external 0/1 integer-program solver behind `find_optimal_atomics`
(`pulp`), abstracted as an oracle: variable count, per-variable weights
and at-least-one coverage constraints in, a boolean assignment (or
failure) out.  No claim depends on the solution's content. -/
structure IlpOracle where
  solve : Nat → List Int → List (List Nat) → Option (Nat → Bool)

/-- Product of the extents of the argument indices of a factor
(`argument_indices_extent`); an assertion failure when the
`argument_indices` attribute was never initialised. -/
def argument_indices_extent (ms : MonomialSum) (factor : Expr) :
    Except Err Nat :=
  match ms.argument_indices with
  | none => .error .assertionError
  | some ai => .ok ((factor.freeIndices ∩ ai.toFinset).prod Index.extent)

/-- Stable descending insertion by key (Python
`sorted(key=..., reverse=True)`). -/
def insertDesc {α : Type} (key : α → Nat) (x : α) : List α → List α
  | [] => [x]
  | y :: ys => if key y ≤ key x then x :: y :: ys else y :: insertDesc key x ys

/-- Stable descending sort by key (Python
`sorted(key=..., reverse=True)`). -/
def sortDesc {α : Type} (key : α → Nat) : List α → List α
  | [] => []
  | x :: xs => insertDesc key x (sortDesc key xs)

/-- Choose the optimal atomics to factorise for one sum-index set
(`find_optimal_atomics`): collect the distinct atomics of the monomials
sharing the set in first-occurrence order, short-circuit the zero- and
one-atomic cases, otherwise solve the weighted minimum cover through the
oracle and return the chosen and unchosen atomics, each sorted by
decreasing argument-index extent. -/
def find_optimal_atomics (oracle : IlpOracle) (ms : MonomialSum)
    (sipair : Finset Index × List Index) :
    Except Err (List Expr × List Expr) := do
  let relevant := ms.ordering.filter (fun p => decide (p.1.1 = sipair.1))
  let atoms := relevant.foldl
    (fun acc p => p.2.2.foldl
      (fun acc a => if a ∈ acc then acc else acc ++ [a]) acc) []
  let connections := relevant.map (fun p => p.2.2.map (fun a => atoms.indexOf a))
  match atoms with
  | [] => return ([], [])
  | [a] => return ([a], [])
  | _ => do
      let weighted ← atoms.mapM (fun a => do
        let ext ← argument_indices_extent ms a
        return (a, ext))
      match oracle.solve atoms.length
          (weighted.map (fun p => (10000000 : Int) - (p.2 : Int)))
          connections with
      | none => .error .assertionError
      | some sol =>
          let optimal := (weighted.enum.filter (fun p => sol p.1)).map (fun p => p.2)
          let other := (weighted.enum.filter (fun p => !sol p.1)).map (fun p => p.2)
          return ((sortDesc Prod.snd optimal).map Prod.fst,
            (sortDesc Prod.snd other).map Prod.fst)

/-- Phase one of `factorise_atomics`: assign every monomial to the first
(sum-index set, atomic) pair of the priority list whose set matches and
whose atomic the monomial contains (first-match-wins), grouping matched
monomial keys per pair; unmatched monomials are added unchanged to the
fresh MonomialSum. -/
def factorGroups (ms : MonomialSum)
    (optimal_atomics : List ((Finset Index × List Index) × Expr))
    (new0 : MonomialSum) :
    Except Err
      (List (((Finset Index × List Index) × Expr) × List MSKey) ×
        MonomialSum) :=
  ms.ordering.foldlM
    (fun acc p => do
      let (key, (si, atomics)) := p
      match optimal_atomics.find?
          (fun q => decide (key.1 = q.1.1) && decide (q.2 ∈ atomics)) with
      | some q => return (setdefaultAppend acc.1 q key, acc.2)
      | none => do
          let ms2 ← acc.2.add si atomics (msLookup ms.monomials key)
          return (acc.1, ms2))
    ([], new0)

mutual

/-- Group and factorise monomials based on a priority list of (sum index
set, atomic) pairs (`MonomialSum.factorise_atomics`): early returns on an
empty priority list or fewer than two monomials; phase one groups the
monomials (`factorGroups`) and the count-conservation assertion checks
that no monomial was dropped; phase two passes singleton groups through
and factorises larger groups, recursively optimising the residual
MonomialSum (the recursion consumes `fuel`, a modelling bound absent in
the source, whose recursion is bounded by the shrinking atomics count). -/
def MonomialSum.factorise_atomics (oracle : IlpOracle) (ms : MonomialSum)
    (optimal_atomics : List ((Finset Index × List Index) × Expr))
    (fuel : Nat) : Except Err MonomialSum :=
  if optimal_atomics.isEmpty then .ok ms
  else if ms.ordering.length < 2 then .ok ms
  else
    match ms.argument_indices with
    | none => .error .attributeError
    | some ai => do
        let (factor_group, new_ms) ← factorGroups ms optimal_atomics ⟨[], [], some ai⟩
        if ¬((factor_group.map (fun g => g.2.length)).sum +
            new_ms.ordering.length = ms.ordering.length) then
          .error .assertionError
        else do
          let new_ms ← factor_group.foldlM
            (fun (nms : MonomialSum) g => do
              let ((gk, oa), keys) := g
              match keys with
              | [k] =>
                  match ms.ordering.find? (fun p => decide (p.1 = k)) with
                  | none => .error .keyError
                  | some (_, (_, atomics)) =>
                      nms.add gk.2 atomics (msLookup ms.monomials k)
              | _ => do
                  let pairs ← keys.mapM (fun k => do
                    match ms.ordering.find? (fun p => decide (p.1 = k)) with
                    | none => .error Err.keyError
                    | some (_, (_, atomics)) =>
                        return (atomics.erase oa, msLookup ms.monomials k))
                  let sub ← pairs.foldlM
                    (fun (s : MonomialSum) pr => s.add [] pr.1 pr.2)
                    (⟨[], [], some ai⟩ : MonomialSum)
                  let sub ← match fuel with
                    | 0 => .error Err.fuelExhausted
                    | n + 1 => sub.optimise oracle n
                  if sub.ordering.isEmpty then .error .assertionError
                  else
                    match sub.ordering, sub.monomials with
                    | [(_, (_, new_atomics))], [(_, new_rest)] =>
                        nms.add gk.2 (new_atomics ++ [oa]) new_rest
                    | [_], _ => .error .valueError
                    | _, _ => do
                        let new_node ← sub.to_expression
                        if (ai.toFinset ∩ new_node.freeIndices) ≠ ∅ then
                          nms.add gk.2 [oa, new_node] one
                        else
                          nms.add gk.2 [oa] new_node)
            new_ms
          return new_ms
termination_by (fuel, 0)

/-- Self-optimisation (`MonomialSum.optimise`): collect the optimal
atomics of every distinct sum-index set in first-encounter order, then
factorise once with the combined priority list. -/
def MonomialSum.optimise (oracle : IlpOracle) (ms : MonomialSum)
    (fuel : Nat) : Except Err MonomialSum := do
  let optimal_atomics ← ms.unique_sum_indices.foldlM
    (fun (acc : List ((Finset Index × List Index) × Expr)) sipair => do
      let (opt, _) ← find_optimal_atomics oracle ms sipair
      return acc ++ opt.map (fun a => (sipair, a)))
    []
  ms.factorise_atomics oracle optimal_atomics fuel
termination_by (fuel, 1)

end

/-- Refactorise an expression into sum-of-products form
(`_collect_monomials`): flatten the product stopping at non-compound
nodes, partition the factors by label, break up each compound factor into
summands (fewer than two summands is a `FactorisationError`), recursively
collect each summand's monomials and sum them, expand the product of the
compound factors' MonomialSums, and for each resulting monomial split its
indices into those appearing in atomics (kept as sum indices) and the
rest (factored immediately into `rest` by sum factorisation).  The `fuel`
bounds the recursion depth in the embedding; the source recursion is
bounded by the summand structure. -/
def collectM1 (classifier : Expr → Label) (fuel : Nat) (expression : Expr) :
    Except Err MonomialSum := do
  let stop_at := fun e => decide (classifier e ≠ Label.compound)
  let (common_indices, terms) := traverse_product stop_at expression
  let common_atomics := terms.filter (fun t => decide (classifier t = .atomic))
  let compounds := terms.filter (fun t => decide (classifier t = .compound))
  let common_others := terms.filter (fun t => decide (classifier t = .other))
  let sums ← compounds.mapM (fun expr => do
    let summands := traverse_sum stop_at expr
    if summands.length ≤ 1 then .error .factorisationError
    else do
      let mss ← match fuel with
        | 0 => .error Err.fuelExhausted
        | n + 1 => summands.mapM (fun s => collectM1 classifier n s)
      return MonomialSum.sum mss)
  let prod ← MonomialSum.product sums
  prod.toMonomials.foldlM
    (fun (result : MonomialSum) m => do
      let (s, a, r) := m
      let all_indices := common_indices ++ s
      let atomics := common_atomics ++ a
      let atomic_indices := atomics.foldl (fun acc x => acc ∪ x.freeIndices) ∅
      let sum_indices := all_indices.filter (fun i => decide (i ∈ atomic_indices))
      let rest_indices := all_indices.filter (fun i => !decide (i ∈ atomic_indices))
      let rest ← sum_factorise rest_indices (common_others ++ [r])
      result.add sum_indices atomics rest)
    MonomialSum.empty
termination_by fuel

/-- Refactorise expressions into sum-of-products form
(`collect_monomials`): strip component-tensors, force-unroll the indices
of compound accesses into literal list-tensors (stripping
component-tensors again), then collect each expression's monomials. -/
def collect_monomials (classifier : Expr → Label) (fuel : Nat)
    (expressions : List Expr) : Except Err (List MonomialSum) := do
  let expressions := remove_componenttensors expressions
  let must_unroll := (expressions.flatMap Expr.subnodes).flatMap
    (fun n =>
      match n with
      | .Indexed (.ListTensor _) mi =>
          if classifier n = .compound then
            mi.filterMap (fun r =>
              match r with
              | .free i => some i
              | _ => none)
          else []
      | _ => [])
  let expressions :=
    if must_unroll.isEmpty then expressions
    else remove_componenttensors
      (unroll_indexsum expressions (fun i => decide (i ∈ must_unroll)))
  expressions.mapM (collectM1 classifier fuel)

/-- The driver's classifier (`classify` in `optimise`): conditionals are
atomic; otherwise by the number of argument indices among the free
indices: zero is other, one is atomic for a plain indexed access and
compound otherwise, two or more is compound. -/
def classify (argument_indices : Finset Index) (expression : Expr) : Label :=
  match expression with
  | .Conditional _ _ _ => .atomic
  | _ =>
      let n := (argument_indices ∩ expression.freeIndices).card
      if n = 0 then .other
      else if n = 1 then
        match expression with
        | .Indexed _ _ => .atomic
        | _ => .compound
      else .compound

/-- The top-level optimisation driver (`optimise`): build the classifier
from the argument multiindices, collect the expression's monomials and
attach the argument indices.  The source then iterates
`monomial_sum.all_sum_indices()` — but `MonomialSum` defines no method of
that name (its generator is `unique_sum_indices`), so every call that
reaches this point fails with an `AttributeError` instead of running the
selection/factorisation passes. -/
def optimise (oracle : IlpOracle) (fuel : Nat) (node : Expr)
    (quadrature_multiindex argument_multiindices : List (List Index)) :
    Except Err Expr := do
  let argument_indices := argument_multiindices.flatMap id
  let classifier := classify argument_indices.toFinset
  let mss ← collect_monomials classifier fuel [node]
  match mss with
  | [monomial_sum] =>
      let _ := { monomial_sum with argument_indices := some argument_indices }
      .error .attributeError
  | _ => .error .valueError

/-- Optimise a list of expressions (`optimise_expressions`): skip all
optimisation when a failure marker is present anywhere, returning the
inputs unchanged. -/
def optimise_expressions (oracle : IlpOracle) (fuel : Nat)
    (expressions : List Expr)
    (quadrature_indices argument_indices : List (List Index)) :
    Except Err (List Expr) :=
  if propagate_failure expressions then .ok expressions
  else expressions.mapM
    (fun node => optimise oracle fuel node quadrature_indices argument_indices)

/-- An oracle that always reports solver failure; concrete stand-in for
witnesses whose claims never reach the solver. -/
def trivialOracle : IlpOracle := ⟨fun _ _ _ => none⟩

/-- C7: when any input expression contains a failure marker anywhere in
its DAG, `optimise_expressions` bypasses all optimisation passes and
returns exactly the unmodified input expression list. -/
theorem optimise_expressions_failure (oracle : IlpOracle) (fuel : Nat)
    (expressions : List Expr)
    (quadrature_indices argument_indices : List (List Index))
    (h : ∃ e ∈ expressions, ∃ sh, Expr.Failure sh ∈ e.subnodes) :
    optimise_expressions oracle fuel expressions quadrature_indices
      argument_indices = .ok expressions := by
  have hp : propagate_failure expressions = true := by
    simp only [propagate_failure, List.any_eq_true]
    obtain ⟨e, he, sh, hn⟩ := h
    exact ⟨e, he, .Failure sh, hn, rfl⟩
  simp [optimise_expressions, hp]

/-- Witness for C7: a failure marker and an ordinary literal pass through
unchanged. -/
theorem optimise_expressions_failure_witness :
    optimise_expressions trivialOracle 0 [.Failure [2], .Literal 3] [] [] =
      .ok [.Failure [2], .Literal 3] :=
  optimise_expressions_failure trivialOracle 0 _ [] []
    ⟨.Failure [2], by simp, [2], by simp [Expr.subnodes]⟩

set_option maxHeartbeats 2000000 in
/-- C10: `factorise_atomics` returns the very same MonomialSum unmodified
whenever the priority list of (sum indices, atomic) pairs is empty or the
MonomialSum holds fewer than two monomials. -/
theorem factorise_atomics_identity (oracle : IlpOracle) (ms : MonomialSum)
    (optimal_atomics : List ((Finset Index × List Index) × Expr))
    (fuel : Nat)
    (h : optimal_atomics = [] ∨ ms.ordering.length < 2) :
    ms.factorise_atomics oracle optimal_atomics fuel = .ok ms := by
  rcases h with h | h
  · subst h
    rw [MonomialSum.factorise_atomics]
    simp
  · by_cases he : optimal_atomics.isEmpty
    · rw [MonomialSum.factorise_atomics, if_pos he]
    · rw [MonomialSum.factorise_atomics, if_neg he, if_pos h]

/-- Witness for C10: the empty priority list and a singleton MonomialSum,
each returned unchanged. -/
theorem factorise_atomics_identity_witness :
    MonomialSum.factorise_atomics trivialOracle MonomialSum.empty [] 0 =
      .ok MonomialSum.empty ∧
    MonomialSum.factorise_atomics trivialOracle
      ⟨[(keyOf [] [], one)], [(keyOf [] [], ([], []))], none⟩
      [((∅, []), one)] 0 =
      .ok ⟨[(keyOf [] [], one)], [(keyOf [] [], ([], []))], none⟩ :=
  ⟨factorise_atomics_identity trivialOracle _ _ 0 (Or.inl rfl),
   factorise_atomics_identity trivialOracle _ _ 0 (Or.inr (by simp))⟩

/-- `Except` bind on a success reduces to the continuation. -/
@[simp] theorem exceptBind_ok {α β : Type} (a : α) (f : α → Except Err β) :
    (Except.ok a >>= f : Except Err β) = f a := rfl

/-- `Except` bind on an error short-circuits. -/
@[simp] theorem exceptBind_err {α β : Type} (e : Err) (f : α → Except Err β) :
    ((Except.error e : Except Err α) >>= f : Except Err β) = .error e := rfl

/-- `pure` in the `Except` monad is `ok`. -/
@[simp] theorem exceptPure_eq {α : Type} (a : α) :
    (pure a : Except Err α) = .ok a := rfl

/-- `Functor.map` over a success in the `Except` monad. -/
@[simp] theorem exceptMap_ok {α β : Type} (g : α → β) (a : α) :
    (g <$> (Except.ok a : Except Err α)) = .ok (g a) := rfl

/-- `Functor.map` over an error in the `Except` monad. -/
@[simp] theorem exceptMap_err {α β : Type} (g : α → β) (e : Err) :
    (g <$> (Except.error e : Except Err α)) = (.error e : Except Err β) := rfl

/-- C1: the driver `optimise` fails with an `AttributeError` on every
expression whose monomial collection succeeds — even a bare literal —
because after collecting it calls the method `all_sum_indices`, which
`MonomialSum` does not define; the advertised index-selection and
factorisation phases are never reached. -/
theorem optimise_attribute_error :
    optimise trivialOracle 1 (.Literal 2) [] [] = .error .attributeError := by
  have hgl : ∀ (x : Expr) (f : Nat),
      greedyLoop (fun a b => .Product a b) [x] f = ([x], f) := by
    intro x f
    rw [greedyLoop]
    simp
  have hap : ∀ x : Expr, associate_product [x] = .ok (x, 0) := by
    intro x
    simp [associate_product, hgl]
  have hcl : classify ∅ (.Literal 2) = Label.other := rfl
  have htp : traverse_product
      (fun e => decide (classify ∅ e ≠ Label.compound)) (.Literal 2) =
      ([], [.Literal 2]) := by
    rw [traverse_product]
    · simp [hcl]
    all_goals simp
  have hcm : collectM1 (classify ∅) 1 (.Literal 2) =
      .ok ⟨[(keyOf [] [], .Sum (.Zero [])
              (.Product (.Literal 2) (.Sum (.Zero []) one)))],
           [(keyOf [] [], ([], []))], none⟩ := by
    simp only [collectM1]
    rw [htp]
    simp +decide [hcl, hap, MonomialSum.product, cartesian,
      MonomialSum.toMonomials, MonomialSum.add, MonomialSum.empty, msLookup,
      msSet, setdefaultA, keyOf, sum_factorise, firstOccKeys, prodGroupsGo,
      reduce1, sfBest, sfCandidate, sfSteps, Expr.freeIndices, List.find?,
      List.permutations_nil, List.mapM_nil, List.mapM_cons, List.mapM.loop,
      List.foldlM_cons, List.foldlM_nil]
  have hcol : collect_monomials (classify ∅) 1 [.Literal 2] =
      .ok [⟨[(keyOf [] [], .Sum (.Zero [])
              (.Product (.Literal 2) (.Sum (.Zero []) one)))],
           [(keyOf [] [], ([], []))], none⟩] := by
    have hfri : fri (.Literal 2) [] = .Literal 2 := fri_nil_all.1 _ (by decide)
    simp [collect_monomials, remove_componenttensors, hfri, Expr.subnodes,
      hcm, List.mapM.loop]
  simp [optimise, hcol]

/-- The helper `expression` of `_replace_delta_delta`: a fixed integer
index becomes a literal, a `VariableIndex` contributes its wrapped scalar
expression (modelled as an opaque scalar variable), and a free running
index cannot be converted. -/
def idxToExpression : IdxRef → Except Err Expr
  | .fixed n => .ok (.Literal n)
  | .varIdx v => .ok (.Variable v [])
  | .free _ => .error .valueError

/-- The `Delta` handler of `replace_delta` (`_replace_delta_delta`): if
either index is a free `Index` the delta becomes an indexed access into an
identity matrix (asserting equal extents only when both are free, and
taking the size from `j` then, else from the single free index); otherwise
both indices are converted to scalar expressions and the delta becomes the
conditional `(i == j) ? 1 : 0`. -/
def replace_delta_delta (i j : IdxRef) : Except Err Expr :=
  match i, j with
  | .free a, .free b =>
      if a.extent = b.extent
      then .ok (.Indexed (.Identity b.extent) [.free a, .free b])
      else .error .assertionError
  | .free a, r => .ok (.Indexed (.Identity a.extent) [.free a, r])
  | r, .free b => .ok (.Indexed (.Identity b.extent) [r, .free b])
  | r, s => do
      let ei ← idxToExpression r
      let ej ← idxToExpression s
      pure (.Conditional (.Comparison .opEq ei ej) one (.Zero []))

/-- C3 counterexample: a mixed static/runtime delta index pair does not
raise; the handler routes it down the identity-matrix branch, producing an
indexed identity access with the runtime index embedded. -/
theorem replace_delta_mixed_no_raise :
    replace_delta_delta (.free ⟨0, 3⟩) (.fixed 1) =
      .ok (.Indexed (.Identity 3) [.free ⟨0, 3⟩, .fixed 1]) := rfl

/-- C3 (amended): deltas over two free indices of equal extent become
identity accesses (and unequal extents raise the assertion); deltas over
two integer/runtime indices become the conditional `(i == j) ? 1 : 0`; a
mixed free/runtime pair also takes the identity branch, sized by the free
index, without any assertion. -/
theorem replace_delta_cases :
    (∀ a b : Index,
      (a.extent = b.extent →
        replace_delta_delta (.free a) (.free b) =
          .ok (.Indexed (.Identity b.extent) [.free a, .free b])) ∧
      (a.extent ≠ b.extent →
        replace_delta_delta (.free a) (.free b) = .error .assertionError)) ∧
    (∀ m n : Int,
      replace_delta_delta (.fixed m) (.fixed n) =
        .ok (.Conditional (.Comparison .opEq (.Literal m) (.Literal n))
          one (.Zero []))) ∧
    (∀ u v : Nat,
      replace_delta_delta (.varIdx u) (.varIdx v) =
        .ok (.Conditional (.Comparison .opEq (.Variable u []) (.Variable v []))
          one (.Zero []))) ∧
    (∀ (m : Int) (v : Nat),
      replace_delta_delta (.fixed m) (.varIdx v) =
        .ok (.Conditional (.Comparison .opEq (.Literal m) (.Variable v []))
          one (.Zero [])) ∧
      replace_delta_delta (.varIdx v) (.fixed m) =
        .ok (.Conditional (.Comparison .opEq (.Variable v []) (.Literal m))
          one (.Zero []))) ∧
    (∀ (a : Index) (n : Int),
      replace_delta_delta (.free a) (.fixed n) =
        .ok (.Indexed (.Identity a.extent) [.free a, .fixed n]) ∧
      replace_delta_delta (.fixed n) (.free a) =
        .ok (.Indexed (.Identity a.extent) [.fixed n, .free a])) ∧
    (∀ (a : Index) (v : Nat),
      replace_delta_delta (.free a) (.varIdx v) =
        .ok (.Indexed (.Identity a.extent) [.free a, .varIdx v]) ∧
      replace_delta_delta (.varIdx v) (.free a) =
        .ok (.Indexed (.Identity a.extent) [.varIdx v, .free a])) := by
  refine ⟨fun a b => ⟨fun h => ?_, fun h => ?_⟩, fun m n => rfl,
    fun u v => rfl, fun m v => ⟨rfl, rfl⟩, fun a n => ⟨rfl, rfl⟩,
    fun a v => ⟨rfl, rfl⟩⟩
  · simp [replace_delta_delta, h]
  · simp [replace_delta_delta, h]

/-- Witness for C3: both-free deltas with equal and unequal extents. -/
theorem replace_delta_cases_witness :
    replace_delta_delta (.free ⟨0, 3⟩) (.free ⟨1, 3⟩) =
      .ok (.Indexed (.Identity 3) [.free ⟨0, 3⟩, .free ⟨1, 3⟩]) ∧
    replace_delta_delta (.free ⟨0, 3⟩) (.free ⟨1, 4⟩) =
      .error .assertionError :=
  ⟨(replace_delta_cases.1 ⟨0, 3⟩ ⟨1, 3⟩).1 rfl,
   (replace_delta_cases.1 ⟨0, 3⟩ ⟨1, 4⟩).2 (by decide)⟩

/-- `dict.setdefault(k, []).append(v)` grows the total element count over
all groups by exactly one. -/
theorem setdefaultAppend_sum {κ : Type} [DecidableEq κ] {β : Type}
    (l : List (κ × List β)) (k : κ) (v : β) :
    ((setdefaultAppend l k v).map (fun g => g.2.length)).sum =
      (l.map (fun g => g.2.length)).sum + 1 := by
  induction l with
  | nil => simp [setdefaultAppend]
  | cons p tl ih =>
      obtain ⟨k2, vs⟩ := p
      by_cases h : k2 = k <;> simp [setdefaultAppend, h, ih] <;> omega

/-- `dict.setdefault` on an absent key appends the new entry at the
end. -/
theorem setdefaultA_not_mem {β : Type} (l : List (MSKey × β)) (k : MSKey)
    (v : β) (h : k ∉ l.map Prod.fst) :
    setdefaultA l k v = l ++ [(k, v)] := by
  induction l with
  | nil => simp [setdefaultA]
  | cons p tl ih =>
      obtain ⟨k2, v2⟩ := p
      simp only [List.map_cons, List.mem_cons, not_or] at h
      obtain ⟨h1, h2⟩ := h
      have h1h : ¬(k2 = k) := fun hc => h1 hc.symm
      simp [setdefaultA, h1h, ih h2]

/-- The grouping fold of `factorise_atomics` phase one: with well-formed
ordering entries (each representative regenerating its key, with
duplicate-free sum indices), globally duplicate-free keys, and keys fresh
for the accumulator, the fold succeeds and the total of group sizes plus
new-ordering entries grows by exactly the number of entries folded. -/
theorem factorGroups_fold (ms : MonomialSum)
    (oas : List ((Finset Index × List Index) × Expr)) :
    ∀ (l : List (MSKey × (List Index × List Expr)))
      (acc : List (((Finset Index × List Index) × Expr) × List MSKey) ×
        MonomialSum),
      (∀ p ∈ l, keyOf p.2.1 p.2.2 = p.1 ∧ p.2.1.Nodup) →
      (l.map Prod.fst).Nodup →
      (∀ p ∈ l, p.1 ∉ acc.2.ordering.map Prod.fst) →
      ∃ r, (l.foldlM
          (fun acc p => do
            let (key, (si, atomics)) := p
            match oas.find?
                (fun q => decide (key.1 = q.1.1) && decide (q.2 ∈ atomics)) with
            | some q => return (setdefaultAppend acc.1 q key, acc.2)
            | none => do
                let ms2 ← acc.2.add si atomics (msLookup ms.monomials key)
                return (acc.1, ms2))
          acc : Except Err
            (List (((Finset Index × List Index) × Expr) × List MSKey) ×
              MonomialSum)) = .ok r ∧
        (r.1.map (fun g => g.2.length)).sum + r.2.ordering.length =
          (acc.1.map (fun g => g.2.length)).sum + acc.2.ordering.length +
            l.length := by
  intro l
  induction l with
  | nil =>
      intro acc _ _ _
      exact ⟨acc, rfl, by simp⟩
  | cons p tl ih =>
      obtain ⟨key, si, atomics⟩ := p
      intro acc hwf hnd hfresh
      obtain ⟨hkey, hsi⟩ := hwf _ (List.mem_cons_self _ _)
      simp only [List.map_cons, List.nodup_cons] at hnd
      obtain ⟨hknd, hndtl⟩ := hnd
      rw [List.foldlM_cons]
      cases hfind : oas.find?
          (fun q => decide (key.1 = q.1.1) && decide (q.2 ∈ atomics)) with
      | some q =>
          obtain ⟨r, hr, hsum⟩ := ih (setdefaultAppend acc.1 q key, acc.2)
            (fun p hp => hwf p (List.mem_cons_of_mem _ hp)) hndtl
            (fun p hp => hfresh p (List.mem_cons_of_mem _ hp))
          refine ⟨r, ?_, ?_⟩
          · simp only [hfind, exceptPure_eq, exceptBind_ok]
            exact hr
          · rw [hsum, setdefaultAppend_sum]
            simp only [List.length_cons]
            omega
      | none =>
          have hadd : acc.2.add si atomics (msLookup ms.monomials key) =
              .ok { acc.2 with
                monomials := msSet acc.2.monomials (keyOf si atomics)
                  (.Sum (msLookup acc.2.monomials (keyOf si atomics))
                    (msLookup ms.monomials key))
                ordering := setdefaultA acc.2.ordering (keyOf si atomics)
                  (si, atomics) } := by
            simp [MonomialSum.add, hsi]
          have hordnew : (setdefaultA acc.2.ordering (keyOf si atomics)
              (si, atomics)) =
              acc.2.ordering ++ [(keyOf si atomics, (si, atomics))] := by
            refine setdefaultA_not_mem _ _ _ ?_
            rw [hkey]
            exact hfresh _ (List.mem_cons_self _ _)
          obtain ⟨r, hr, hsum⟩ := ih (acc.1, { acc.2 with
              monomials := msSet acc.2.monomials (keyOf si atomics)
                (.Sum (msLookup acc.2.monomials (keyOf si atomics))
                  (msLookup ms.monomials key))
              ordering := setdefaultA acc.2.ordering (keyOf si atomics)
                (si, atomics) })
            (fun p hp => hwf p (List.mem_cons_of_mem _ hp)) hndtl
            (by
              intro p hp
              simp only [hordnew, List.map_append, List.map_cons,
                List.map_nil, List.mem_append, List.mem_cons,
                List.not_mem_nil, or_false, not_or]
              refine ⟨hfresh p (List.mem_cons_of_mem _ hp), ?_⟩
              rw [hkey]
              intro hc
              exact hknd ((show p.1 = key from hc) ▸
                (List.mem_map_of_mem Prod.fst hp)))
          refine ⟨r, ?_, ?_⟩
          · simp only [hfind, hadd, exceptPure_eq, exceptBind_ok]
            exact hr
          · rw [hsum]
            simp only [hordnew, List.length_append, List.length_cons,
              List.length_nil]
            omega

/-- C6: for every well-formed MonomialSum — duplicate-free ordering keys,
each stored (sum indices, atomics) representative regenerating its key,
and duplicate-free sum indices — the grouping phase of `factorise_atomics`
succeeds and satisfies the asserted count conservation: monomials assigned
to factor groups plus monomials passed through unchanged equal the input
monomial count. -/
theorem factorise_atomics_conservation (ms : MonomialSum)
    (oas : List ((Finset Index × List Index) × Expr))
    (ai : Option (List Index))
    (hnodup : (ms.ordering.map Prod.fst).Nodup)
    (hwf : ∀ p ∈ ms.ordering, keyOf p.2.1 p.2.2 = p.1 ∧ p.2.1.Nodup) :
    ∃ r, factorGroups ms oas ⟨[], [], ai⟩ = .ok r ∧
      (r.1.map (fun g => g.2.length)).sum + r.2.ordering.length =
        ms.ordering.length := by
  obtain ⟨r, hr, hsum⟩ := factorGroups_fold ms oas ms.ordering
    ([], ⟨[], [], ai⟩) hwf hnodup (by simp)
  refine ⟨r, ?_, by simpa using hsum⟩
  unfold factorGroups
  exact hr

/-- Witness for C6: a one-monomial MonomialSum with an empty priority
list conserves its single monomial. -/
theorem factorise_atomics_conservation_witness :
    ∃ r, factorGroups ⟨[(keyOf [] [], one)], [(keyOf [] [], ([], []))], none⟩
        [] ⟨[], [], none⟩ = .ok r ∧
      (r.1.map (fun g => g.2.length)).sum + r.2.ordering.length = 1 :=
  factorise_atomics_conservation
    ⟨[(keyOf [] [], one)], [(keyOf [] [], ([], []))], none⟩ [] none
    (by decide) (by decide)

/-- Sum of a mapped flat-map, monomial by monomial. -/
theorem map_flatMap_sum {α β : Type} (g : α → List β) (h : β → ℚ)
    (l : List α) :
    ((l.flatMap g).map h).sum = (l.map (fun x => ((g x).map h).sum)).sum := by
  induction l with
  | nil => simp
  | cons x xs ih => simp [ih]

/-- Product of a mapped flat-map, group by group. -/
theorem map_flatMap_prod {α β : Type} (g : α → List β) (h : β → ℚ)
    (l : List α) :
    ((l.flatMap g).map h).prod =
      (l.map (fun x => ((g x).map h).prod)).prod := by
  induction l with
  | nil => simp
  | cons x xs ih => simp [ih]

/-- First-occurrence key extraction never lengthens a list. -/
theorem firstOccKeys_length (l : List (Finset Index)) :
    (firstOccKeys l).length ≤ l.length := by
  induction l with
  | nil => simp [firstOccKeys]
  | cons k rest ih =>
      simp only [firstOccKeys, List.length_cons]
      have := List.length_filter_le (fun k2 => decide (k2 ≠ k))
        (firstOccKeys rest)
      omega

/-- With no summation indices the delta queue is empty. -/
theorem deltaQueue_nil (factors : List Expr) : deltaQueue [] factors = [] := by
  rw [List.eq_nil_iff_forall_not_mem]
  intro x hx
  obtain ⟨d, k⟩ := x
  exact absurd (deltaQueue_mem hx).2.1 (List.not_mem_nil _)

/-- With no summation indices the elimination loop is the identity. -/
theorem deltaElimLoop_nil (factors : List Expr) :
    deltaElimLoop [] factors = .ok ([], factors) := by
  rw [deltaElimLoop.eq_def]
  split
  · rfl
  · next d from_ rest h =>
      rw [deltaQueue_nil] at h
      cases h

/-- With no summation indices delta elimination only drops unit
factors. -/
theorem delta_elimination_nil (factors : List Expr) :
    delta_elimination [] factors =
      .ok ([], factors.filter (fun e => e != one)) := by
  simp [delta_elimination, deltaElimLoop_nil]

/-- Lookup at the head entry. -/
theorem msLookup_cons_self (k : MSKey) (v : Expr)
    (tl : List (MSKey × Expr)) : msLookup ((k, v) :: tl) k = v := by
  simp [msLookup, List.find?]

/-- Lookup past a different head entry. -/
theorem msLookup_cons_ne (k k0 : MSKey) (v : Expr)
    (tl : List (MSKey × Expr)) (h : k ≠ k0) :
    msLookup ((k0, v) :: tl) k = msLookup tl k := by
  simp [msLookup, List.find?, Ne.symm h]

/-- Lookup after update at the same key. -/
theorem msLookup_msSet_self (m : List (MSKey × Expr)) (k : MSKey)
    (v : Expr) : msLookup (msSet m k v) k = v := by
  induction m with
  | nil => simp [msSet, msLookup_cons_self]
  | cons p tl ih =>
      obtain ⟨k2, v2⟩ := p
      by_cases h : k2 = k
      · subst h
        simp [msSet, msLookup_cons_self]
      · simp only [msSet, if_neg h]
        rw [msLookup_cons_ne _ _ _ _ (Ne.symm h)]
        exact ih

/-- Lookup after update at a different key. -/
theorem msLookup_msSet_ne (m : List (MSKey × Expr)) (k : MSKey) (v : Expr)
    (k2 : MSKey) (h : k2 ≠ k) :
    msLookup (msSet m k v) k2 = msLookup m k2 := by
  induction m with
  | nil =>
      simp only [msSet]
      exact msLookup_cons_ne _ _ _ _ h
  | cons p tl ih =>
      obtain ⟨k3, v3⟩ := p
      by_cases h3 : k3 = k
      · subst h3
        have hs : msSet ((k3, v3) :: tl) k3 v = (k3, v) :: tl := by
          simp [msSet]
        rw [hs, msLookup_cons_ne _ _ _ _ h, msLookup_cons_ne _ _ _ _ h]
      · simp only [msSet, if_neg h3]
        by_cases h32 : k2 = k3
        · subst h32
          rw [msLookup_cons_self, msLookup_cons_self]
        · rw [msLookup_cons_ne _ _ _ _ h32, msLookup_cons_ne _ _ _ _ h32]
          exact ih

/-- Updating an absent key appends the entry. -/
theorem msSet_not_mem (m : List (MSKey × Expr)) (k : MSKey) (v : Expr)
    (h : k ∉ m.map Prod.fst) : msSet m k v = m ++ [(k, v)] := by
  induction m with
  | nil => simp [msSet]
  | cons p tl ih =>
      obtain ⟨k2, v2⟩ := p
      simp only [List.map_cons, List.mem_cons, not_or] at h
      obtain ⟨h1, h2⟩ := h
      simp [msSet, Ne.symm h1, ih h2]

/-- Updating a present key preserves the key list. -/
theorem msSet_keys_mem (m : List (MSKey × Expr)) (k : MSKey) (v : Expr)
    (h : k ∈ m.map Prod.fst) :
    (msSet m k v).map Prod.fst = m.map Prod.fst := by
  induction m with
  | nil => simp at h
  | cons p tl ih =>
      obtain ⟨k2, v2⟩ := p
      by_cases h2 : k2 = k
      · subst h2
        simp [msSet]
      · simp only [List.map_cons, List.mem_cons] at h
        rcases h with h | h
        · exact absurd h.symm h2
        · simp [msSet, h2, ih h]

/-- `dict.setdefault` leaves a present key untouched. -/
theorem setdefaultA_mem {β : Type} (l : List (MSKey × β)) (k : MSKey)
    (v : β) (h : k ∈ l.map Prod.fst) : setdefaultA l k v = l := by
  induction l with
  | nil => simp at h
  | cons p tl ih =>
      obtain ⟨k2, v2⟩ := p
      by_cases h2 : k2 = k
      · simp [setdefaultA, h2]
      · simp only [List.map_cons, List.mem_cons] at h
        rcases h with h | h
        · exact absurd h.symm h2
        · simp [setdefaultA, h2, ih h]

/-- The monomial-merging fold of `MonomialSum.sum`. -/
def mergeMon (dst : List (MSKey × Expr)) (source : List (MSKey × Expr)) :
    List (MSKey × Expr) :=
  source.foldl (fun m p => msSet m p.1 (.Sum (msLookup m p.1) p.2)) dst

/-- The ordering-merging fold of `MonomialSum.sum`. -/
def mergeOrd (dst : List (MSKey × (List Index × List Expr)))
    (source : List (MSKey × (List Index × List Expr))) :
    List (MSKey × (List Index × List Expr)) :=
  source.foldl (fun o p => setdefaultA o p.1 p.2) dst

/-- `MonomialSum.sum` of a pair, written with the two merging folds. -/
theorem sum_pair_eq (A B : MonomialSum) :
    MonomialSum.sum [A, B] =
      ⟨mergeMon (mergeMon [] A.monomials) B.monomials,
        mergeOrd (mergeOrd [] A.ordering) B.ordering, none⟩ := rfl

/-- Lookup through the monomial merge: present keys accumulate a `Sum`
with the source value, absent keys read the destination. -/
theorem mergeMon_lookup (source : List (MSKey × Expr)) :
    ∀ dst : List (MSKey × Expr), (source.map Prod.fst).Nodup → ∀ k,
    msLookup (mergeMon dst source) k =
      if k ∈ source.map Prod.fst
      then .Sum (msLookup dst k) (msLookup source k)
      else msLookup dst k := by
  induction source with
  | nil =>
      intro dst _ k
      simp [mergeMon]
  | cons p tl ih =>
      obtain ⟨k0, v0⟩ := p
      intro dst hnd k
      simp only [List.map_cons, List.nodup_cons] at hnd
      obtain ⟨hk0, hndtl⟩ := hnd
      have hstep : mergeMon dst ((k0, v0) :: tl) =
          mergeMon (msSet dst k0 (.Sum (msLookup dst k0) v0)) tl := rfl
      rw [hstep, ih _ hndtl k]
      by_cases hk : k = k0
      · subst hk
        rw [if_neg hk0, msLookup_msSet_self, if_pos (by simp),
          msLookup_cons_self]
      · rw [msLookup_msSet_ne _ _ _ _ hk]
        by_cases hmem : k ∈ tl.map Prod.fst
        · rw [if_pos hmem, if_pos (by simp [hmem]),
            msLookup_cons_ne _ _ _ _ hk]
        · rw [if_neg hmem, if_neg (by simp [hk, hmem])]

/-- Keys after the monomial merge: the destination keys followed by the
fresh source keys in source order. -/
theorem mergeMon_keys (source : List (MSKey × Expr)) :
    ∀ dst : List (MSKey × Expr), (source.map Prod.fst).Nodup →
    (mergeMon dst source).map Prod.fst =
      dst.map Prod.fst ++
        (source.map Prod.fst).filter
          (fun k => decide (k ∉ dst.map Prod.fst)) := by
  induction source with
  | nil =>
      intro dst _
      simp [mergeMon]
  | cons p tl ih =>
      obtain ⟨k0, v0⟩ := p
      intro dst hnd
      simp only [List.map_cons, List.nodup_cons] at hnd
      obtain ⟨hk0, hndtl⟩ := hnd
      have hstep : mergeMon dst ((k0, v0) :: tl) =
          mergeMon (msSet dst k0 (.Sum (msLookup dst k0) v0)) tl := rfl
      rw [hstep, ih _ hndtl]
      by_cases hmem : k0 ∈ dst.map Prod.fst
      · rw [msSet_keys_mem _ _ _ hmem]
        simp [List.filter_cons, hmem]
      · rw [msSet_not_mem _ _ _ hmem]
        have hcong : (tl.map Prod.fst).filter
            (fun k => decide (k ∉ dst.map Prod.fst ++ [k0])) =
            (tl.map Prod.fst).filter
              (fun k => decide (k ∉ dst.map Prod.fst)) := by
          refine List.filter_congr ?_
          intro k hk
          have hne : k ≠ k0 := fun hc => hk0 (hc ▸ hk)
          simp [List.mem_append, hne]
        simp only [List.map_append, List.map_cons, List.map_nil]
        rw [hcong, List.filter_cons, if_pos (by simp [hmem])]
        simp

/-- The ordering merge appends exactly the fresh-key source entries. -/
theorem mergeOrd_eq (source : List (MSKey × (List Index × List Expr))) :
    ∀ dst, (source.map Prod.fst).Nodup →
    mergeOrd dst source =
      dst ++ source.filter (fun p => decide (p.1 ∉ dst.map Prod.fst)) := by
  induction source with
  | nil =>
      intro dst _
      simp [mergeOrd]
  | cons p tl ih =>
      obtain ⟨k0, v0⟩ := p
      intro dst hnd
      simp only [List.map_cons, List.nodup_cons] at hnd
      obtain ⟨hk0, hndtl⟩ := hnd
      have hstep : mergeOrd dst ((k0, v0) :: tl) =
          mergeOrd (setdefaultA dst k0 v0) tl := rfl
      rw [hstep, ih _ hndtl]
      by_cases hmem : k0 ∈ dst.map Prod.fst
      · rw [setdefaultA_mem _ _ _ hmem]
        simp [List.filter_cons, hmem]
      · rw [setdefaultA_not_mem _ _ _ hmem]
        have hcong : tl.filter
            (fun p => decide (p.1 ∉ dst.map Prod.fst ++ [k0])) =
            tl.filter (fun p => decide (p.1 ∉ dst.map Prod.fst)) := by
          refine List.filter_congr ?_
          intro q hq
          have hne : q.1 ≠ k0 := fun hc =>
            hk0 (hc ▸ List.mem_map_of_mem Prod.fst hq)
          simp [List.mem_append, hne]
        simp only [List.map_append, List.map_cons, List.map_nil]
        rw [hcong, List.filter_cons, if_pos (by simp [hmem])]
        simp

/-- Keys of a key-filtered association list. -/
theorem filter_keys_map {β : Type} (l : List (MSKey × β)) (K : List MSKey) :
    (l.filter (fun p => decide (p.1 ∉ K))).map Prod.fst =
      (l.map Prod.fst).filter (fun k => decide (k ∉ K)) := by
  induction l with
  | nil => rfl
  | cons p tl ih =>
      by_cases h : p.1 ∈ K
      · simp only [List.filter_cons, List.map_cons]
        rw [if_neg (by simp [h]), if_neg (by simp [h])]
        exact ih
      · simp only [List.filter_cons, List.map_cons]
        rw [if_pos (by simp [h]), if_pos (by simp [h]), List.map_cons, ih]

/-- Sums of pointwise sums split. -/
theorem sum_map_add {α : Type} (f g : α → ℚ) (l : List α) :
    (l.map (fun x => f x + g x)).sum = (l.map f).sum + (l.map g).sum := by
  induction l with
  | nil => simp
  | cons x xs ih =>
      simp only [List.map_cons, List.sum_cons, ih]
      ring

/-- A sum of guarded terms is the sum over the filtered list. -/
theorem sum_map_ite_filter {α : Type} (c : α → Prop) [DecidablePred c]
    (f : α → ℚ) (l : List α) :
    (l.map (fun x => if c x then f x else 0)).sum =
      ((l.filter (fun x => decide (c x))).map f).sum := by
  induction l with
  | nil => simp
  | cons x xs ih =>
      by_cases h : c x
      · simp only [List.map_cons, List.sum_cons, if_pos h, ih,
          List.filter_cons]
        rw [if_pos (by simpa using h)]
        simp
      · simp only [List.map_cons, List.sum_cons, if_neg h, ih,
          List.filter_cons]
        rw [if_neg (by simpa using h)]
        simp

/-- A sum over a list splits along any boolean test. -/
theorem sum_map_filter_split {α : Type} (c : α → Bool) (f : α → ℚ)
    (l : List α) :
    (l.map f).sum =
      ((l.filter c).map f).sum + ((l.filter (fun x => !c x)).map f).sum := by
  induction l with
  | nil => simp
  | cons x xs ih =>
      by_cases h : c x = true
      · simp only [List.map_cons, List.sum_cons, ih, List.filter_cons, h]
        simp
        ring
      · simp only [List.map_cons, List.sum_cons, ih, List.filter_cons, h]
        simp only [Bool.not_eq_true] at h
        simp [h]
        ring

/-- C4 counterexample: the conversion of the empty MonomialSum — which is
also `MonomialSum.sum` of two empty MonomialSums — raises a ValueError in
`associate_sum` instead of producing any expression, so the claimed
identity cannot hold for every pair of MonomialSums. -/
theorem to_expression_empty_error :
    MonomialSum.sum [MonomialSum.empty, MonomialSum.empty] =
      MonomialSum.empty ∧
    MonomialSum.to_expression MonomialSum.empty = .error .valueError := by
  refine ⟨rfl, ?_⟩
  have hg : greedyLoop (fun a b => .Sum a b) [] 0 = ([], 0) := by
    rw [greedyLoop]
    simp
  simp [MonomialSum.to_expression, MonomialSum.empty, associate_sum,
    firstOccKeys, hg]

/-- Point update of an index assignment. -/
def update (σ : Index → Nat) (i : Index) (v : Nat) : Index → Nat :=
  fun j => if j = i then v else σ j

/-- Iterated summation of a function of the assignment over all values of
a multiindex, each index ranging over its extent — the meaning of an
`IndexSum` binder list. -/
def sumOver : List Index → (Index → Nat) → ((Index → Nat) → ℚ) → ℚ
  | [], σ, f => f σ
  | i :: is, σ, f =>
      ((List.range i.extent).map (fun v => sumOver is (update σ i v) f)).sum

/-- Pointwise rational evaluation of an expression under an index
assignment, abstracted over an interpretation `I` of every node the
refactoriser treats as opaque.  Modelled from the spec: "evaluates
identically, for every assignment of free indices and variables" —
sums, products, literals, zeros and index sums (contractions) are
interpreted arithmetically, and equality of `evalI I` for every
assignment-coherent `I` refines the spec's judgement, since any concrete
choice of variable values induces one such `I`. -/
def evalI (I : Expr → (Index → Nat) → ℚ) : Expr → (Index → Nat) → ℚ
  | .Sum a b, σ => evalI I a σ + evalI I b σ
  | .Product a b, σ => evalI I a σ * evalI I b σ
  | .Literal v, _ => v
  | .Zero _, _ => 0
  | .IndexSum body mi, σ => sumOver mi σ (fun τ => evalI I body τ)
  | .Identity n, σ => I (.Identity n) σ
  | .Failure sh, σ => I (.Failure sh) σ
  | .Variable nm sh, σ => I (.Variable nm sh) σ
  | .Division a b, σ => I (.Division a b) σ
  | .Power a b, σ => I (.Power a b) σ
  | .MathFunction f a, σ => I (.MathFunction f a) σ
  | .LogicalAnd a b, σ => I (.LogicalAnd a b) σ
  | .LogicalOr a b, σ => I (.LogicalOr a b) σ
  | .LogicalNot a, σ => I (.LogicalNot a) σ
  | .Comparison op a b, σ => I (.Comparison op a b) σ
  | .Conditional c t f, σ => I (.Conditional c t f) σ
  | .ComponentTensor body mi, σ => I (.ComponentTensor body mi) σ
  | .ListTensor elems, σ => I (.ListTensor elems) σ
  | .Delta i j, σ => I (.Delta i j) σ
  | .Indexed child mi, σ => I (.Indexed child mi) σ
  | .FlexiblyIndexed child d2i, σ => I (.FlexiblyIndexed child d2i) σ

/-- Coherence of an interpretation: the value of a node depends on the
assignment only through the node's free indices. -/
def IWF (I : Expr → (Index → Nat) → ℚ) : Prop :=
  ∀ (e : Expr) (σ τ : Index → Nat),
    (∀ i ∈ e.freeIndices, σ i = τ i) → I e σ = I e τ

/-- Reading the updated point. -/
theorem update_same (σ : Index → Nat) (i : Index) (v : Nat) :
    update σ i v i = v := by
  simp [update]

/-- Reading another point. -/
theorem update_ne (σ : Index → Nat) (i : Index) (v : Nat) (j : Index)
    (h : j ≠ i) : update σ i v j = σ j := by
  simp [update, h]

/-- Updates at distinct indices commute. -/
theorem update_comm (σ : Index → Nat) (i j : Index) (v w : Nat)
    (h : i ≠ j) : update (update σ i v) j w = update (update σ j w) i v := by
  funext k
  by_cases hk : k = j
  · subst hk
    rw [update_same, update_ne _ _ _ _ (Ne.symm h), update_same]
  · by_cases hki : k = i
    · subst hki
      rw [update_ne _ _ _ _ hk, update_same, update_same]
    · rw [update_ne _ _ _ _ hk, update_ne _ _ _ _ hki,
        update_ne _ _ _ _ hki, update_ne _ _ _ _ hk]

/-- A list of zeros sums to zero. -/
theorem sum_map_zero {α : Type} (l : List α) :
    (l.map (fun _ => (0 : ℚ))).sum = 0 := by
  induction l with
  | nil => rfl
  | cons x xs ih => simp [ih]

/-- `sumOver` only looks at the summand function pointwise. -/
theorem sumOver_ext (mi : List Index) : ∀ (σ : Index → Nat)
    (f g : (Index → Nat) → ℚ), (∀ τ, f τ = g τ) →
    sumOver mi σ f = sumOver mi σ g := by
  induction mi with
  | nil => intro σ f g h; exact h σ
  | cons i is ih =>
      intro σ f g h
      simp only [sumOver]
      refine congrArg List.sum (List.map_congr_left ?_)
      intro v _
      exact ih _ f g h

/-- `sumOver` is insensitive to the assignment outside the bound indices,
for summands that only read a supporting set. -/
theorem sumOver_congr_of (mi : List Index) : ∀ (σ τ : Index → Nat)
    (f : (Index → Nat) → ℚ) (S : Finset Index),
    (∀ σ0 τ0, (∀ j ∈ S, σ0 j = τ0 j) → f σ0 = f τ0) →
    (∀ j ∈ S, j ∉ mi → σ j = τ j) →
    sumOver mi σ f = sumOver mi τ f := by
  induction mi with
  | nil =>
      intro σ τ f S hf hστ
      exact hf σ τ (fun j hj => hστ j hj (List.not_mem_nil j))
  | cons i is ih =>
      intro σ τ f S hf hστ
      simp only [sumOver]
      refine congrArg List.sum (List.map_congr_left ?_)
      intro v _
      refine ih _ _ f S hf ?_
      intro j hjS hjis
      by_cases hji : j = i
      · subst hji
        rw [update_same, update_same]
      · rw [update_ne _ _ _ _ hji, update_ne _ _ _ _ hji]
        exact hστ j hjS (by simp [hji, hjis])

/-- `sumOver` distributes over pointwise sums. -/
theorem sumOver_add (mi : List Index) : ∀ (σ : Index → Nat)
    (f g : (Index → Nat) → ℚ),
    sumOver mi σ (fun τ => f τ + g τ) = sumOver mi σ f + sumOver mi σ g := by
  induction mi with
  | nil => intro σ f g; rfl
  | cons i is ih =>
      intro σ f g
      simp only [sumOver]
      rw [show (List.range i.extent).map
          (fun v => sumOver is (update σ i v) (fun τ => f τ + g τ)) =
          (List.range i.extent).map (fun v =>
            sumOver is (update σ i v) f + sumOver is (update σ i v) g) from
        List.map_congr_left (fun v _ => ih _ f g)]
      exact sum_map_add _ _ _

/-- `sumOver` of the zero function. -/
theorem sumOver_zero (mi : List Index) : ∀ σ : Index → Nat,
    sumOver mi σ (fun _ => 0) = 0 := by
  induction mi with
  | nil => intro σ; rfl
  | cons i is ih =>
      intro σ
      simp only [sumOver]
      rw [show (List.range i.extent).map
          (fun v => sumOver is (update σ i v) (fun _ => 0)) =
          (List.range i.extent).map (fun _ => (0 : ℚ)) from
        List.map_congr_left (fun v _ => ih _)]
      exact sum_map_zero _

/-- `sumOver` commutes with finite summation of summands. -/
theorem sumOver_sum_list {α : Type} (mi : List Index) (l : List α)
    (F : α → (Index → Nat) → ℚ) : ∀ σ : Index → Nat,
    sumOver mi σ (fun τ => (l.map (fun x => F x τ)).sum) =
      (l.map (fun x => sumOver mi σ (F x))).sum := by
  induction l with
  | nil =>
      intro σ
      simp only [List.map_nil]
      exact sumOver_zero mi σ
  | cons x xs ih =>
      intro σ
      simp only [List.map_cons, List.sum_cons]
      rw [← ih σ, ← sumOver_add]

/-- A constant factor pulls out of a mapped sum. -/
theorem sum_map_mul_left_q {α : Type} (c : ℚ) (f : α → ℚ) (l : List α) :
    (l.map (fun x => c * f x)).sum = c * (l.map f).sum := by
  induction l with
  | nil => simp
  | cons x xs ih =>
      simp only [List.map_cons, List.sum_cons, ih]
      ring

/-- `sumOver` pulls out a constant factor. -/
theorem sumOver_mul_left (mi : List Index) : ∀ (σ : Index → Nat) (c : ℚ)
    (f : (Index → Nat) → ℚ),
    sumOver mi σ (fun τ => c * f τ) = c * sumOver mi σ f := by
  induction mi with
  | nil => intro σ c f; rfl
  | cons i is ih =>
      intro σ c f
      simp only [sumOver]
      rw [show (List.range i.extent).map
          (fun v => sumOver is (update σ i v) (fun τ => c * f τ)) =
          (List.range i.extent).map (fun v =>
            c * sumOver is (update σ i v) f) from
        List.map_congr_left (fun v _ => ih _ c f)]
      exact sum_map_mul_left_q _ _ _

/-- `sumOver` over a concatenation nests. -/
theorem sumOver_append (l1 l2 : List Index) : ∀ (σ : Index → Nat)
    (f : (Index → Nat) → ℚ),
    sumOver (l1 ++ l2) σ f = sumOver l1 σ (fun τ => sumOver l2 τ f) := by
  induction l1 with
  | nil => intro σ f; rfl
  | cons i is ih =>
      intro σ f
      simp only [List.cons_append, sumOver]
      refine congrArg List.sum (List.map_congr_left ?_)
      intro v _
      exact ih _ f

/-- Finite double sums over ranges commute. -/
theorem list_sum_comm (n m : Nat) (g : Nat → Nat → ℚ) :
    ((List.range n).map (fun v => ((List.range m).map (fun w =>
      g v w)).sum)).sum =
    ((List.range m).map (fun w => ((List.range n).map (fun v =>
      g v w)).sum)).sum := by
  induction n with
  | zero =>
      simp only [List.range_zero, List.map_nil, List.sum_nil]
      exact (sum_map_zero _).symm
  | succ n ih =>
      have hL : ((List.range (n + 1)).map (fun v =>
          ((List.range m).map (fun w => g v w)).sum)).sum =
          ((List.range n).map (fun v =>
            ((List.range m).map (fun w => g v w)).sum)).sum +
            ((List.range m).map (fun w => g n w)).sum := by
        rw [List.range_succ, List.map_append, List.sum_append]
        simp
      have hR : ∀ w, ((List.range (n + 1)).map (fun v => g v w)).sum =
          ((List.range n).map (fun v => g v w)).sum + g n w := by
        intro w
        rw [List.range_succ, List.map_append, List.sum_append]
        simp
      rw [hL, ih,
        show (List.range m).map (fun w =>
            ((List.range (n + 1)).map (fun v => g v w)).sum) =
          (List.range m).map (fun w =>
            ((List.range n).map (fun v => g v w)).sum + g n w) from
          List.map_congr_left (fun w _ => hR w),
        sum_map_add]

/-- Fubini for `sumOver`: permuting a duplicate-free multiindex does not
change the iterated sum. -/
theorem sumOver_perm : ∀ {mi mi' : List Index}, mi.Perm mi' → mi.Nodup →
    ∀ (σ : Index → Nat) (f : (Index → Nat) → ℚ),
    sumOver mi σ f = sumOver mi' σ f := by
  intro mi mi' hp
  induction hp with
  | nil => intro _ σ f; rfl
  | cons x hp ih =>
      intro hnd σ f
      simp only [sumOver]
      refine congrArg List.sum (List.map_congr_left ?_)
      intro v _
      exact ih (List.Nodup.of_cons hnd) _ f
  | swap x y l =>
      intro hnd σ f
      have hxy : y ≠ x := by
        rw [List.nodup_cons] at hnd
        exact fun hc => hnd.1 (hc ▸ List.mem_cons_self _ _)
      simp only [sumOver]
      rw [list_sum_comm y.extent x.extent
        (fun v w => sumOver l (update (update σ y v) x w) f)]
      refine congrArg List.sum (List.map_congr_left ?_)
      intro w _
      refine congrArg List.sum (List.map_congr_left ?_)
      intro v _
      rw [update_comm _ _ _ _ _ hxy]
  | trans h1 h2 ih1 ih2 =>
      intro hnd σ f
      exact (ih1 hnd σ f).trans (ih2 (h1.nodup hnd) σ f)

/-- Evaluation is coherent: it reads the assignment only at the free
indices of the expression. -/
theorem evalI_congr {I : Expr → (Index → Nat) → ℚ} (HI : IWF I) :
    ∀ (e : Expr) (σ τ : Index → Nat),
    (∀ i ∈ e.freeIndices, σ i = τ i) → evalI I e σ = evalI I e τ := by
  have main := exprMutInd (fun e => ∀ σ τ : Index → Nat,
      (∀ i ∈ e.freeIndices, σ i = τ i) → evalI I e σ = evalI I e τ)
    (fun _ => True) ?_ (fun _ _ _ => trivial)
  · exact main.1
  intro e ihe _
  cases e with
  | Sum a b =>
      intro σ τ h
      have iha := ihe a (by simp <;> omega) σ τ (fun i hi => h i (by
        simp only [Expr.freeIndices, Finset.mem_union]
        exact Or.inl hi))
      have ihb := ihe b (by simp <;> omega) σ τ (fun i hi => h i (by
        simp only [Expr.freeIndices, Finset.mem_union]
        exact Or.inr hi))
      show evalI I a σ + evalI I b σ = evalI I a τ + evalI I b τ
      rw [iha, ihb]
  | Product a b =>
      intro σ τ h
      have iha := ihe a (by simp <;> omega) σ τ (fun i hi => h i (by
        simp only [Expr.freeIndices, Finset.mem_union]
        exact Or.inl hi))
      have ihb := ihe b (by simp <;> omega) σ τ (fun i hi => h i (by
        simp only [Expr.freeIndices, Finset.mem_union]
        exact Or.inr hi))
      show evalI I a σ * evalI I b σ = evalI I a τ * evalI I b τ
      rw [iha, ihb]
  | Literal v => intro σ τ _; rfl
  | Zero sh => intro σ τ _; rfl
  | IndexSum body mi =>
      intro σ τ h
      show sumOver mi σ (fun τ0 => evalI I body τ0) =
        sumOver mi τ (fun τ0 => evalI I body τ0)
      refine sumOver_congr_of mi σ τ _ body.freeIndices ?_ ?_
      · intro σ0 τ0 h0
        exact ihe body (by simp <;> omega) σ0 τ0 h0
      · intro j hj hjm
        refine h j ?_
        simp only [Expr.freeIndices, Finset.mem_sdiff, List.mem_toFinset]
        exact ⟨hj, hjm⟩
  | Identity n => intro σ τ h; exact HI _ σ τ h
  | Failure sh => intro σ τ h; exact HI _ σ τ h
  | Variable nm sh => intro σ τ h; exact HI _ σ τ h
  | Division a b => intro σ τ h; exact HI _ σ τ h
  | Power a b => intro σ τ h; exact HI _ σ τ h
  | MathFunction f a => intro σ τ h; exact HI _ σ τ h
  | LogicalAnd a b => intro σ τ h; exact HI _ σ τ h
  | LogicalOr a b => intro σ τ h; exact HI _ σ τ h
  | LogicalNot a => intro σ τ h; exact HI _ σ τ h
  | Comparison op a b => intro σ τ h; exact HI _ σ τ h
  | Conditional c t f => intro σ τ h; exact HI _ σ τ h
  | ComponentTensor body mi => intro σ τ h; exact HI _ σ τ h
  | ListTensor elems => intro σ τ h; exact HI _ σ τ h
  | Delta i j => intro σ τ h; exact HI _ σ τ h
  | Indexed child mi => intro σ τ h; exact HI _ σ τ h
  | FlexiblyIndexed child d2i => intro σ τ h; exact HI _ σ τ h

/-- A free index of an expression is a free index of one of its
multiplicative leaves. -/
theorem mem_frees_prodLeaves (s : Index) : ∀ e : Expr,
    (s ∈ e.freeIndices ↔ ∃ l ∈ prodLeaves e, s ∈ l.freeIndices) := by
  have main := exprMutInd (fun e =>
      s ∈ e.freeIndices ↔ ∃ l ∈ prodLeaves e, s ∈ l.freeIndices)
    (fun _ => True) ?_ (fun _ _ _ => trivial)
  · exact main.1
  intro e ihe _
  cases e with
  | Product a b =>
      have iha := ihe a (by simp <;> omega)
      have ihb := ihe b (by simp <;> omega)
      simp only [Expr.freeIndices, prodLeaves, Finset.mem_union,
        List.mem_append, iha, ihb]
      constructor
      · rintro (⟨l, hl, hs⟩ | ⟨l, hl, hs⟩)
        · exact ⟨l, Or.inl hl, hs⟩
        · exact ⟨l, Or.inr hl, hs⟩
      · rintro ⟨l, hl | hl, hs⟩
        · exact Or.inl ⟨l, hl, hs⟩
        · exact Or.inr ⟨l, hl, hs⟩
  | _ => simp [prodLeaves]

/-- Evaluation distributes over the additive-leaf decomposition. -/
theorem evalI_sumLeaves (I : Expr → (Index → Nat) → ℚ) (σ : Index → Nat)
    (e : Expr) :
    evalI I e σ = ((sumLeaves e).map (fun l => evalI I l σ)).sum := by
  have main := exprMutInd (fun e =>
      evalI I e σ = ((sumLeaves e).map (fun l => evalI I l σ)).sum)
    (fun _ => True) ?_ (fun _ _ _ => trivial)
  · exact main.1 e
  intro e ihe _
  cases e with
  | Sum a b =>
      have iha := ihe a (by simp <;> omega)
      have ihb := ihe b (by simp <;> omega)
      show evalI I a σ + evalI I b σ = _
      simp [sumLeaves, iha, ihb]
  | Zero sh => simp [sumLeaves, evalI]
  | _ => simp [sumLeaves, evalI]

/-- Evaluation distributes over the multiplicative-leaf decomposition. -/
theorem evalI_prodLeaves (I : Expr → (Index → Nat) → ℚ) (σ : Index → Nat)
    (e : Expr) :
    evalI I e σ = ((prodLeaves e).map (fun l => evalI I l σ)).prod := by
  have main := exprMutInd (fun e =>
      evalI I e σ = ((prodLeaves e).map (fun l => evalI I l σ)).prod)
    (fun _ => True) ?_ (fun _ _ _ => trivial)
  · exact main.1 e
  intro e ihe _
  cases e with
  | Product a b =>
      have iha := ihe a (by simp <;> omega)
      have ihb := ihe b (by simp <;> omega)
      show evalI I a σ * evalI I b σ = _
      simp [prodLeaves, iha, ihb]
  | _ => simp [prodLeaves, evalI]

/-- Evaluation of Python `reduce(Product, xs, x)`. -/
theorem evalI_foldl_product (I : Expr → (Index → Nat) → ℚ)
    (σ : Index → Nat) (xs : List Expr) : ∀ x : Expr,
    evalI I (xs.foldl (fun a b => .Product a b) x) σ =
      evalI I x σ * (xs.map (fun l => evalI I l σ)).prod := by
  induction xs with
  | nil => intro x; simp
  | cons y ys ih =>
      intro x
      rw [List.foldl_cons, ih]
      show (evalI I x σ * evalI I y σ) * _ = _
      simp
      ring

/-- Evaluation of Python `reduce(Sum, xs, x)`. -/
theorem evalI_foldl_sum (I : Expr → (Index → Nat) → ℚ)
    (σ : Index → Nat) (xs : List Expr) : ∀ x : Expr,
    evalI I (xs.foldl (fun a b => .Sum a b) x) σ =
      evalI I x σ + (xs.map (fun l => evalI I l σ)).sum := by
  induction xs with
  | nil => intro x; simp
  | cons y ys ih =>
      intro x
      rw [List.foldl_cons, ih]
      show (evalI I x σ + evalI I y σ) + _ = _
      simp
      ring

/-- Unit factors are multiplicatively inert, so dropping them preserves
the product. -/
theorem filter_ones_prod (I : Expr → (Index → Nat) → ℚ) (σ : Index → Nat)
    (fs : List Expr) :
    ((fs.filter (fun e => e != one)).map (fun l => evalI I l σ)).prod =
      (fs.map (fun l => evalI I l σ)).prod := by
  induction fs with
  | nil => rfl
  | cons x xs ih =>
      by_cases hx : x = one
      · subst hx
        have h1 : evalI I one σ = 1 := rfl
        simp [List.filter_cons, ih, h1]
      · simp [List.filter_cons, hx, ih]

/-- The associativity optimiser for products: success on 1–32 factors,
the value is the product of the factors under every assignment, and the
free indices are those of the factors. -/
theorem associate_product_eval (fs : List Expr) (hne : fs ≠ [])
    (h32 : fs.length ≤ 32) :
    ∃ p fl, associate_product fs = .ok (p, fl) ∧
      (∀ (I : Expr → (Index → Nat) → ℚ) (σ : Index → Nat),
        evalI I p σ = (fs.map (fun l => evalI I l σ)).prod) ∧
      (∀ s : Index, s ∈ p.freeIndices ↔ ∃ f ∈ fs, s ∈ f.freeIndices) := by
  obtain ⟨p, fl, hgl, hperm⟩ := greedyLoop_leaves
    (fun a b => .Product a b) prodLeaves (fun a b => rfl)
    fs.length fs 0 le_rfl hne
  refine ⟨p, fl, ?_, ?_, ?_⟩
  · have hgt : ¬ fs.length > 32 := by omega
    simp [associate_product, hgt, hgl]
  · intro I σ
    rw [evalI_prodLeaves I σ p, (hperm.map _).prod_eq, map_flatMap_prod]
    exact congrArg List.prod (List.map_congr_left
      (fun f _ => (evalI_prodLeaves I σ f).symm))
  · intro s
    rw [mem_frees_prodLeaves s p]
    constructor
    · rintro ⟨l, hl, hs⟩
      have hl2 := hperm.mem_iff.mp hl
      rw [List.mem_flatMap] at hl2
      obtain ⟨f, hf, hlf⟩ := hl2
      exact ⟨f, hf, (mem_frees_prodLeaves s f).mpr ⟨l, hlf, hs⟩⟩
    · rintro ⟨f, hf, hs⟩
      obtain ⟨l, hl, hsl⟩ := (mem_frees_prodLeaves s f).mp hs
      exact ⟨l, hperm.mem_iff.mpr (List.mem_flatMap.mpr ⟨f, hf, hl⟩), hsl⟩

/-- The associativity optimiser for sums: success when the distinct
free-index groups fit, and the value is the sum of the summands under
every assignment. -/
theorem associate_sum_eval (ss : List Expr) (hne : ss ≠ [])
    (h32 : (firstOccKeys (ss.map Expr.freeIndices)).length ≤ 32) :
    ∃ p fl, associate_sum ss = .ok (p, fl) ∧
      ∀ (I : Expr → (Index → Nat) → ℚ) (σ : Index → Nat),
        evalI I p σ = (ss.map (fun l => evalI I l σ)).sum := by
  obtain ⟨p, fl, hok, hperm⟩ := associate_sum_groups_ok ss hne h32
  refine ⟨p, fl, hok, ?_⟩
  intro I σ
  rw [evalI_sumLeaves I σ p, (hperm.map _).sum_eq, map_flatMap_sum]
  exact congrArg List.sum (List.map_congr_left
    (fun f _ => (evalI_sumLeaves I σ f).symm))

/-- Free-index membership through Python `reduce(Product, xs, x)`. -/
theorem mem_frees_foldl_product (s : Index) (xs : List Expr) : ∀ x : Expr,
    (s ∈ (xs.foldl (fun a b => .Product a b) x).freeIndices ↔
      s ∈ x.freeIndices ∨ ∃ y ∈ xs, s ∈ y.freeIndices) := by
  induction xs with
  | nil => intro x; simp
  | cons y ys ih =>
      intro x
      rw [List.foldl_cons, ih]
      have hpf : s ∈ (Expr.Product x y).freeIndices ↔
          s ∈ x.freeIndices ∨ s ∈ y.freeIndices := by
        simp [Expr.freeIndices]
      rw [hpf]
      constructor
      · rintro ((h | h) | ⟨z, hz, hs⟩)
        · exact Or.inl h
        · exact Or.inr ⟨y, List.mem_cons_self _ _, h⟩
        · exact Or.inr ⟨z, List.mem_cons_of_mem _ hz, hs⟩
      · rintro (h | ⟨z, hz, hs⟩)
        · exact Or.inl (Or.inl h)
        · rcases List.mem_cons.mp hz with hz | hz
          · exact Or.inl (Or.inr (hz ▸ hs))
          · exact Or.inr ⟨z, hz, hs⟩

/-- The grouping pass of `sum_factorise`: one product per key, with the
group's pointwise value, covering the free indices of the grouped
factors. -/
theorem prodGroupsGo_eval (fs : List Expr) :
    ∀ ks : List (Finset Index),
    (∀ k ∈ ks, ∃ x ∈ fs, x.freeIndices = k) →
    ∃ gs, prodGroupsGo fs ks = .ok gs ∧ gs.length = ks.length ∧
      (∀ (I : Expr → (Index → Nat) → ℚ) (σ : Index → Nat),
        gs.map (fun g => evalI I g σ) = ks.map (fun k =>
          ((fs.filter (fun e => decide (e.freeIndices = k))).map
            (fun l => evalI I l σ)).prod)) ∧
      (∀ f ∈ fs, f.freeIndices ∈ ks →
        ∃ g ∈ gs, ∀ s ∈ f.freeIndices, s ∈ g.freeIndices) := by
  intro ks
  induction ks with
  | nil => exact fun _ => ⟨[], rfl, rfl, fun I σ => rfl, by simp⟩
  | cons k rest ih =>
      intro hcov
      obtain ⟨x, hx, hfx⟩ := hcov k (List.mem_cons_self _ _)
      have hxf : x ∈ fs.filter (fun e => decide (e.freeIndices = k)) := by
        simp [List.mem_filter, hx, hfx]
      obtain ⟨gs, hgs, hlen, heval, hfrees⟩ :=
        ih (fun k2 hk2 => hcov k2 (List.mem_cons_of_mem _ hk2))
      cases hflt : fs.filter (fun e => decide (e.freeIndices = k)) with
      | nil => rw [hflt] at hxf; cases hxf
      | cons y ys =>
          refine ⟨ys.foldl (fun a b => .Product a b) y :: gs, ?_, ?_,
            ?_, ?_⟩
          · simp [prodGroupsGo, hflt, reduce1, hgs]
          · simp [hlen]
          · intro I σ
            simp only [List.map_cons, heval I σ, hflt,
              evalI_foldl_product, List.prod_cons]
          · intro f hf hfk
            rcases List.mem_cons.mp hfk with hfk | hfk
            · refine ⟨ys.foldl (fun a b => .Product a b) y,
                List.mem_cons_self _ _, ?_⟩
              intro s hs
              rw [mem_frees_foldl_product]
              have hfin : f ∈ fs.filter
                  (fun e => decide (e.freeIndices = k)) := by
                simp [List.mem_filter, hf, hfk]
              rw [hflt, List.mem_cons] at hfin
              rcases hfin with hfin | hfin
              · exact Or.inl (hfin ▸ hs)
              · exact Or.inr ⟨f, hfin, hs⟩
            · obtain ⟨g, hg, hsub⟩ := hfrees f hf hfk
              exact ⟨g, List.mem_cons_of_mem _ hg, hsub⟩

/-- One elimination pass of `sum_factorise`'s contraction loop: the
terms' product accumulates the iterated sum over the processed indices
in reverse processing order. -/
theorem sfSteps_eval : ∀ (o : List Index) (terms : List Expr)
    (flops : Nat), o.Nodup →
    (∀ s ∈ o, ∃ t ∈ terms, s ∈ t.freeIndices) →
    terms ≠ [] → terms.length ≤ 32 →
    ∃ terms2 fl2, sfSteps o terms flops = .ok (terms2, fl2) ∧
      terms2 ≠ [] ∧ terms2.length ≤ terms.length ∧
      ∀ {I : Expr → (Index → Nat) → ℚ}, IWF I → ∀ σ : Index → Nat,
        (terms2.map (fun t => evalI I t σ)).prod =
          sumOver o.reverse σ
            (fun τ => (terms.map (fun t => evalI I t τ)).prod) := by
  intro o
  induction o with
  | nil =>
      intro terms flops _ _ hne h32
      exact ⟨terms, flops, rfl, hne, le_rfl, fun {I} _ σ => rfl⟩
  | cons s rest ih =>
      intro terms flops hnd hcov hne h32
      simp only [List.nodup_cons] at hnd
      obtain ⟨hsr, hndr⟩ := hnd
      obtain ⟨t0, ht0, hst0⟩ := hcov s (List.mem_cons_self _ _)
      have ht0c : t0 ∈ terms.filter
          (fun t => decide (s ∈ t.freeIndices)) := by
        simp [List.mem_filter, ht0, hst0]
      have hcne : terms.filter (fun t => decide (s ∈ t.freeIndices)) ≠ [] :=
        fun hcon => by rw [hcon] at ht0c; cases ht0c
      have hpart := List.filter_append_perm
        (fun t => decide (s ∈ t.freeIndices)) terms
      have hlens : (terms.filter (fun t =>
          decide (s ∈ t.freeIndices))).length +
          (terms.filter (fun t =>
            !decide (s ∈ t.freeIndices))).length = terms.length := by
        have := hpart.length_eq
        simpa [List.length_append] using this
      have hc32 : (terms.filter (fun t =>
          decide (s ∈ t.freeIndices))).length ≤ 32 :=
        le_trans (List.length_filter_le _ _) h32
      obtain ⟨p, fl, hap, hapeval, hapfrees⟩ :=
        associate_product_eval _ hcne hc32
      have hcpos : 0 < (terms.filter (fun t =>
          decide (s ∈ t.freeIndices))).length :=
        List.length_pos_of_mem ht0c
      have hcov1 : ∀ s2 ∈ rest,
          ∃ t ∈ terms.filter (fun t => !decide (s ∈ t.freeIndices)) ++
            [Expr.IndexSum p [s]], s2 ∈ t.freeIndices := by
        intro s2 hs2
        have hs2s : s2 ≠ s := fun hc => hsr (hc ▸ hs2)
        obtain ⟨t, ht, hs2t⟩ := hcov s2 (List.mem_cons_of_mem _ hs2)
        by_cases hst : s ∈ t.freeIndices
        · refine ⟨Expr.IndexSum p [s], by simp, ?_⟩
          have hsp : s2 ∈ p.freeIndices :=
            (hapfrees s2).mpr ⟨t, by simp [List.mem_filter, ht, hst], hs2t⟩
          simp only [Expr.freeIndices, Finset.mem_sdiff, List.mem_toFinset]
          exact ⟨hsp, by simp [hs2s]⟩
        · exact ⟨t, by simp [List.mem_filter, ht, hst], hs2t⟩
      have hne1 : terms.filter (fun t => !decide (s ∈ t.freeIndices)) ++
          [Expr.IndexSum p [s]] ≠ [] := by simp
      have hlen1 : (terms.filter (fun t => !decide (s ∈ t.freeIndices)) ++
          [Expr.IndexSum p [s]]).length ≤ terms.length := by
        simp only [List.length_append, List.length_singleton]
        omega
      obtain ⟨terms2, fl2, hrec, hne2, hlen2, hsem⟩ :=
        ih _ (flops + fl + p.freeIndices.prod Index.extent) hndr hcov1
          hne1 (le_trans hlen1 h32)
      refine ⟨terms2, fl2, ?_, hne2, le_trans hlen2 hlen1, ?_⟩
      · simp only [sfSteps, hap, exceptBind_ok]
        exact hrec
      · intro I HI σ
        rw [hsem HI σ]
        have hstep : ∀ τ : Index → Nat,
            ((terms.filter (fun t => !decide (s ∈ t.freeIndices)) ++
              [Expr.IndexSum p [s]]).map (fun t => evalI I t τ)).prod =
            sumOver [s] τ
              (fun τ2 => (terms.map (fun t => evalI I t τ2)).prod) := by
          intro τ
          rw [List.map_append, List.prod_append]
          have hIS : evalI I (Expr.IndexSum p [s]) τ =
              ((List.range s.extent).map
                (fun v => evalI I p (update τ s v))).sum := rfl
          simp only [List.map_cons, List.map_nil, List.prod_cons,
            List.prod_nil, mul_one, hIS]
          have hterms : ∀ τ2 : Index → Nat,
              (terms.map (fun t => evalI I t τ2)).prod =
              ((terms.filter (fun t =>
                decide (s ∈ t.freeIndices))).map
                  (fun t => evalI I t τ2)).prod *
              ((terms.filter (fun t =>
                !decide (s ∈ t.freeIndices))).map
                  (fun t => evalI I t τ2)).prod := by
            intro τ2
            rw [← List.prod_append, ← List.map_append,
              (hpart.map (fun t => evalI I t τ2)).prod_eq]
          have hdef : ∀ v : Nat,
              ((terms.filter (fun t => !decide (s ∈ t.freeIndices))).map
                (fun t => evalI I t (update τ s v))).prod =
              ((terms.filter (fun t => !decide (s ∈ t.freeIndices))).map
                (fun t => evalI I t τ)).prod := by
            intro v
            refine congrArg List.prod (List.map_congr_left ?_)
            intro t ht
            have hts : s ∉ t.freeIndices := by
              have := List.of_mem_filter ht
              simpa using this
            refine evalI_congr HI t _ _ ?_
            intro i hi
            exact update_ne _ _ _ _ (fun hc => hts (hc ▸ hi))
          show _ * ((List.range s.extent).map
              (fun v => evalI I p (update τ s v))).sum =
            ((List.range s.extent).map (fun v =>
              (terms.map (fun t => evalI I t (update τ s v))).prod)).sum
          rw [show (List.range s.extent).map (fun v =>
              (terms.map (fun t => evalI I t (update τ s v))).prod) =
            (List.range s.extent).map (fun v =>
              ((terms.filter (fun t => !decide (s ∈ t.freeIndices))).map
                (fun t => evalI I t τ)).prod *
              evalI I p (update τ s v)) from
            List.map_congr_left (fun v _ => by
              rw [hterms (update τ s v), hdef v, hapeval I (update τ s v)]
              ring), sum_map_mul_left_q]
        rw [sumOver_ext _ _ _ _ hstep, ← sumOver_append]
        rw [show rest.reverse ++ [s] = (s :: rest).reverse from
          (List.reverse_cons s rest).symm]

/-- The permutation fold of `sum_factorise` returns a candidate whose
value any per-ordering property certifies. -/
theorem sfBest_eval (groups : List Expr) (P : Expr → Prop) :
    ∀ (os : List (List Index)) (best : Option (Expr × Nat)),
    (∀ o ∈ os, ∃ e fl, sfCandidate groups o = .ok (e, fl) ∧ P e) →
    (os = [] → ∃ e fl, best = some (e, fl) ∧ P e) →
    (∀ e fl, best = some (e, fl) → P e) →
    ∃ e, sfBest groups os best = .ok e ∧ P e := by
  intro os
  induction os with
  | nil =>
      intro best _ hbase hsome
      obtain ⟨e, fl, hbe, hP⟩ := hbase rfl
      exact ⟨e, by simp [sfBest, hbe], hP⟩
  | cons o os' ih =>
      intro best hcand _ hsome
      obtain ⟨e, fl, hce, hPe⟩ := hcand o (List.mem_cons_self _ _)
      have hcand' := fun o2 ho2 => hcand o2 (List.mem_cons_of_mem _ ho2)
      cases best with
      | none =>
          obtain ⟨e2, he2, hP2⟩ := ih (some (e, fl)) hcand'
            (fun _ => ⟨e, fl, rfl, hPe⟩)
            (fun e3 fl3 h3 => by
              injection h3 with h3
              injection h3 with h3a h3b
              exact h3a ▸ hPe)
          exact ⟨e2, by simp [sfBest, hce]; exact he2, hP2⟩
      | some bp =>
          obtain ⟨be, bf⟩ := bp
          have hPbe : P be := hsome be bf rfl
          by_cases hlt : fl < bf
          · obtain ⟨e2, he2, hP2⟩ := ih (some (e, fl)) hcand'
              (fun _ => ⟨e, fl, rfl, hPe⟩)
              (fun e3 fl3 h3 => by
                injection h3 with h3
                injection h3 with h3a h3b
                exact h3a ▸ hPe)
            refine ⟨e2, ?_, hP2⟩
            simp [sfBest, hce, hlt]
            exact he2
          · obtain ⟨e2, he2, hP2⟩ := ih (some (be, bf)) hcand'
              (fun _ => ⟨be, bf, rfl, hPbe⟩)
              (fun e3 fl3 h3 => by
                injection h3 with h3
                injection h3 with h3a h3b
                exact h3a ▸ hPbe)
            refine ⟨e2, ?_, hP2⟩
            simp [sfBest, hce, hlt]
            exact he2

/-- A single contraction ordering of `sum_factorise` succeeds and its
candidate evaluates to the iterated contraction of the groups. -/
theorem sfCandidate_eval (groups : List Expr) (o : List Index)
    (hnd : o.Nodup) (hcov : ∀ s ∈ o, ∃ t ∈ groups, s ∈ t.freeIndices)
    (hne : groups ≠ []) (h32 : groups.length ≤ 32) :
    ∃ e fl, sfCandidate groups o = .ok (e, fl) ∧
      ∀ {I : Expr → (Index → Nat) → ℚ}, IWF I → ∀ σ : Index → Nat,
        evalI I e σ = sumOver o.reverse σ
          (fun τ => (groups.map (fun t => evalI I t τ)).prod) := by
  obtain ⟨terms2, fl2, hsteps, hne2, hlen2, hsem⟩ :=
    sfSteps_eval o groups 0 hnd hcov hne h32
  obtain ⟨p, fl, hap, hapeval, -⟩ :=
    associate_product_eval terms2 hne2 (le_trans hlen2 h32)
  refine ⟨p, fl2 + fl, ?_, ?_⟩
  · simp only [sfCandidate, hsteps, exceptBind_ok, hap, exceptPure_eq]
  · intro I HI σ
    rw [hapeval I σ, hsem HI σ]

/-- `sum_factorise` on duplicate-free summation indices covered by the
factors: success within capacity, and the result evaluates to the full
contraction of the product of the factors under every coherent
interpretation and assignment. -/
theorem sum_factorise_eval (si : List Index) (fs : List Expr)
    (hnd : si.Nodup) (h5 : si.length ≤ 5) (h32 : fs.length ≤ 32)
    (hcov : ∀ s ∈ si, ∃ f ∈ fs, s ∈ f.freeIndices) :
    ∃ e, sum_factorise si fs = .ok e ∧
      ∀ {I : Expr → (Index → Nat) → ℚ}, IWF I → ∀ σ : Index → Nat,
        evalI I e σ = sumOver si σ
          (fun τ => (fs.map (fun f => evalI I f τ)).prod) := by
  cases fs with
  | nil =>
      cases si with
      | nil =>
          refine ⟨one, by simp [sum_factorise], fun {I} _ σ => ?_⟩
          rfl
      | cons s si' =>
          obtain ⟨f, hf, -⟩ := hcov s (List.mem_cons_self _ _)
          cases hf
  | cons f fs' =>
      have hkeys := firstOccKeys_spec ((f :: fs').map Expr.freeIndices)
      have hkcov : ∀ k ∈ firstOccKeys ((f :: fs').map Expr.freeIndices),
          ∃ x ∈ f :: fs', x.freeIndices = k := by
        intro k hk
        have hm := (hkeys.2 k).1 hk
        rw [List.mem_map] at hm
        obtain ⟨x, hx, hfx⟩ := hm
        exact ⟨x, hx, hfx⟩
      obtain ⟨gs, hgs, hlen, heval, hfrees⟩ :=
        prodGroupsGo_eval (f :: fs') _ hkcov
      have hkl : (firstOccKeys
          ((f :: fs').map Expr.freeIndices)).length ≤ 32 :=
        le_trans (firstOccKeys_length _) (by simpa using h32)
      have hgne : gs ≠ [] := by
        intro hcon
        rw [hcon] at hlen
        simp [firstOccKeys] at hlen
      have hg32 : gs.length ≤ 32 := by rw [hlen]; exact hkl
      have hgprod : ∀ (I : Expr → (Index → Nat) → ℚ) (τ : Index → Nat),
          (gs.map (fun t => evalI I t τ)).prod =
          ((f :: fs').map (fun t => evalI I t τ)).prod := by
        intro I τ
        rw [heval I τ, ← map_flatMap_prod,
          ((filter_keys_partition Expr.freeIndices _ (f :: fs')
            hkeys.1 (fun x hx => (hkeys.2 _).2
              (List.mem_map_of_mem _ hx))).map
            (fun l => evalI I l τ)).prod_eq]
      have hgcov : ∀ s ∈ si, ∃ g ∈ gs, s ∈ g.freeIndices := by
        intro s hs
        obtain ⟨f0, hf0, hsf0⟩ := hcov s hs
        obtain ⟨g, hg, hsub⟩ := hfrees f0 hf0
          ((hkeys.2 _).2 (List.mem_map_of_mem _ hf0))
        exact ⟨g, hg, hsub s hsf0⟩
      have hcand : ∀ o ∈ si.permutations,
          ∃ e fl, sfCandidate gs o = .ok (e, fl) ∧
            (∀ {I : Expr → (Index → Nat) → ℚ}, IWF I →
              ∀ σ : Index → Nat,
              evalI I e σ = sumOver si σ
                (fun τ => ((f :: fs').map
                  (fun t => evalI I t τ)).prod)) := by
        intro o ho
        have hpo : o.Perm si := List.mem_permutations.mp ho
        have hond : o.Nodup := hpo.symm.nodup hnd
        have hocov : ∀ s ∈ o, ∃ t ∈ gs, s ∈ t.freeIndices := by
          intro s hs
          exact hgcov s (hpo.mem_iff.mp hs)
        obtain ⟨e, fl, hce, hsem⟩ := sfCandidate_eval gs o hond hocov
          hgne hg32
        refine ⟨e, fl, hce, ?_⟩
        intro I HI σ
        rw [hsem HI σ]
        have hrevperm : o.reverse.Perm si := (o.reverse_perm).trans hpo
        have hrevnd : o.reverse.Nodup := hrevperm.symm.nodup hnd
        rw [sumOver_perm hrevperm hrevnd σ _]
        exact sumOver_ext _ _ _ _ (fun τ => hgprod I τ)
      have hosne : si ∈ si.permutations :=
        List.mem_permutations.mpr (List.Perm.refl si)
      obtain ⟨e, hbest, hP⟩ := sfBest_eval gs
        (fun e => ∀ {I : Expr → (Index → Nat) → ℚ}, IWF I →
          ∀ σ : Index → Nat, evalI I e σ = sumOver si σ
            (fun τ => ((f :: fs').map (fun t => evalI I t τ)).prod))
        si.permutations none hcand
        (fun hcon => absurd (hcon ▸ hosne) (List.not_mem_nil si))
        (fun _ _ h => by cases h)
      refine ⟨e, ?_, fun {I} HI σ => hP HI σ⟩
      simp only [sum_factorise]
      rw [if_neg (by simp), if_neg (by omega)]
      simp only [List.map_cons]
      simp only [List.map_cons] at hgs hkcov
      simp only [hgs, exceptBind_ok]
      exact hbest

/-- With an empty delta queue the elimination loop is the identity. -/
theorem deltaElimLoop_of_queue_nil (si : List Index) (factors : List Expr)
    (h : deltaQueue si factors = []) :
    deltaElimLoop si factors = .ok (si, factors) := by
  rw [deltaElimLoop.eq_def]
  split
  · rfl
  · next d from_ rest heq =>
      rw [h] at heq
      cases heq

/-- With an empty delta queue, delta elimination only drops unit
factors. -/
theorem delta_elimination_of_queue_nil (si : List Index)
    (factors : List Expr) (h : deltaQueue si factors = []) :
    delta_elimination si factors =
      .ok (si, factors.filter (fun e => e != one)) := by
  simp [delta_elimination, deltaElimLoop_of_queue_nil si factors h]

/-- Fast sum factorisation of one monomial — atomics and rest — is the
contraction of their product over the monomial's summation indices,
whenever the deltas (if any) do not mention those indices, the indices
are duplicate-free, covered and within capacity. -/
theorem fsf_monomial_eval (si : List Index) (atomics : List Expr)
    (rest : Expr) (hnd : si.Nodup) (h5 : si.length ≤ 5)
    (hlen : atomics.length < 32)
    (hq : deltaQueue si.reverse (atomics ++ [rest]) = [])
    (hcov : ∀ s ∈ si, ∃ f ∈ atomics ++ [rest], s ∈ f.freeIndices) :
    ∃ e, fast_sum_factorise si (atomics ++ [rest]) = .ok e ∧
      ∀ {I : Expr → (Index → Nat) → ℚ}, IWF I → ∀ σ : Index → Nat,
        evalI I e σ = sumOver si σ
          (fun τ => (atomics.map (fun a => evalI I a τ)).prod *
            evalI I rest τ) := by
  have hde := delta_elimination_of_queue_nil si.reverse
    (atomics ++ [rest]) hq
  have hndr : si.reverse.Nodup := by
    rw [List.nodup_reverse]
    exact hnd
  have h5r : si.reverse.length ≤ 5 := by
    rw [List.length_reverse]
    exact h5
  have h32 : ((atomics ++ [rest]).filter
      (fun e => e != one)).length ≤ 32 := by
    have := List.length_filter_le (fun e => e != one) (atomics ++ [rest])
    simp at this ⊢
    omega
  have hcovf : ∀ s ∈ si.reverse,
      ∃ f ∈ (atomics ++ [rest]).filter (fun e => e != one),
        s ∈ f.freeIndices := by
    intro s hs
    obtain ⟨f, hf, hsf⟩ := hcov s (List.mem_reverse.mp hs)
    have hfone : f ≠ one := by
      intro hcon
      subst hcon
      have : (one).freeIndices = ∅ := rfl
      rw [this] at hsf
      cases hsf
    exact ⟨f, List.mem_filter.mpr ⟨hf, by simp [hfone]⟩, hsf⟩
  obtain ⟨e, hsf, hsem⟩ := sum_factorise_eval si.reverse _ hndr h5r
    h32 hcovf
  refine ⟨e, ?_, ?_⟩
  · simp only [fast_sum_factorise, hde, exceptBind_ok]
    exact hsf
  · intro I HI σ
    rw [hsem HI σ, sumOver_perm (si.reverse_perm) hndr σ _]
    refine sumOver_ext _ _ _ _ ?_
    intro τ
    rw [filter_ones_prod I τ]
    simp [List.map_append]

/-- Well-formedness of one stored monomial for conversion: its key is
regenerated by its data; its summation indices are duplicate-free, within
the search capacity and all used by some factor; its atomics fit the
product optimiser; and no delta factor mentions its summation indices, so
delta elimination is inert. -/
def entryWF (ms : MonomialSum) (p : MSKey × (List Index × List Expr)) :
    Prop :=
  keyOf p.2.1 p.2.2 = p.1 ∧ p.2.1.Nodup ∧ p.2.1.length ≤ 5 ∧
  p.2.2.length < 32 ∧
  deltaQueue p.2.1.reverse (p.2.2 ++ [msLookup ms.monomials p.1]) = [] ∧
  (∀ s ∈ p.2.1, ∃ f ∈ p.2.2 ++ [msLookup ms.monomials p.1],
    s ∈ f.freeIndices)

/-- Well-formedness of a MonomialSum for the summation claim: nonempty,
at most 32 monomials, duplicate-free keys, aligned dictionaries and
well-formed entries. -/
def MSWF (ms : MonomialSum) : Prop :=
  ms.ordering ≠ [] ∧
  ms.ordering.length ≤ 32 ∧
  (ms.ordering.map Prod.fst).Nodup ∧
  ms.monomials.map Prod.fst = ms.ordering.map Prod.fst ∧
  ∀ p ∈ ms.ordering, entryWF ms p

/-- Well-formedness of one monomial group formed by `to_expression`. -/
def groupWF (g : (Finset Index × List Index) × List (List Expr × Expr)) :
    Prop :=
  g.1.2.Nodup ∧ g.1.2.length ≤ 5 ∧ g.2 ≠ [] ∧
  ∀ m ∈ g.2, m.1.length < 32 ∧
    deltaQueue g.1.2.reverse (m.1 ++ [m.2]) = [] ∧
    (∀ s ∈ g.1.2, ∃ f ∈ m.1 ++ [m.2], s ∈ f.freeIndices)

/-- The contraction a stored monomial denotes. -/
def entryDenote (I : Expr → (Index → Nat) → ℚ) (σ : Index → Nat)
    (ms : MonomialSum) (p : MSKey × (List Index × List Expr)) : ℚ :=
  sumOver p.2.1 σ (fun τ => (p.2.2.map (fun a => evalI I a τ)).prod *
    evalI I (msLookup ms.monomials p.1) τ)

/-- The value a MonomialSum denotes: the sum of its monomials'
contractions. -/
def msDenoteI (I : Expr → (Index → Nat) → ℚ) (σ : Index → Nat)
    (ms : MonomialSum) : ℚ :=
  (ms.ordering.map (fun p => entryDenote I σ ms p)).sum

/-- The total value of a list of monomial groups. -/
def groupsSum (I : Expr → (Index → Nat) → ℚ) (σ : Index → Nat)
    (G : List ((Finset Index × List Index) × List (List Expr × Expr))) :
    ℚ :=
  (G.map (fun g => ((g.2.map (fun m => sumOver g.1.2 σ (fun τ =>
    (m.1.map (fun a => evalI I a τ)).prod * evalI I m.2 τ))).sum))).sum

/-- `dict.setdefault(k, []).append(v)` grows the total group value by the
new member's value. -/
theorem setdefaultAppend_mapsum {κ : Type} [DecidableEq κ] {β : Type}
    (F : κ → β → ℚ) (l : List (κ × List β)) (k : κ) (v : β) :
    ((setdefaultAppend l k v).map
      (fun g => ((g.2.map (F g.1)).sum))).sum =
      (l.map (fun g => ((g.2.map (F g.1)).sum))).sum + F k v := by
  induction l with
  | nil => simp [setdefaultAppend]
  | cons p tl ih =>
      obtain ⟨k2, vs⟩ := p
      by_cases h : k2 = k
      · subst h
        simp [setdefaultAppend]
        ring
      · simp [setdefaultAppend, h, ih]
        ring

/-- Every member of a list of naturals is at most the sum. -/
theorem le_sum_of_mem : ∀ {l : List Nat} {x : Nat}, x ∈ l → x ≤ l.sum := by
  intro l
  induction l with
  | nil => intro x h; cases h
  | cons y ys ih =>
      intro x h
      rcases List.mem_cons.mp h with h | h
      · subst h
        simp
      · have := ih h
        simp only [List.sum_cons]
        omega

/-- A list of positive naturals is at least as long as its sum is
large. -/
theorem length_le_sum_of_pos : ∀ {l : List Nat},
    (∀ x ∈ l, 1 ≤ x) → l.length ≤ l.sum := by
  intro l
  induction l with
  | nil => intro _; simp
  | cons y ys ih =>
      intro h
      have h1 := h y (List.mem_cons_self _ _)
      have h2 := ih (fun x hx => h x (List.mem_cons_of_mem _ hx))
      simp only [List.length_cons, List.sum_cons]
      omega

/-- Membership after `dict.setdefault(k, []).append(v)`: an untouched
group, the fresh singleton group, or the extended group. -/
theorem setdefaultAppend_mem {κ : Type} [DecidableEq κ] {β : Type} :
    ∀ {l : List (κ × List β)} {k : κ} {v : β} {g : κ × List β},
    g ∈ setdefaultAppend l k v →
    g ∈ l ∨ g = (k, [v]) ∨ ∃ vs, (k, vs) ∈ l ∧ g = (k, vs ++ [v]) := by
  intro l
  induction l with
  | nil =>
      intro k v g hg
      simp only [setdefaultAppend, List.mem_singleton] at hg
      exact Or.inr (Or.inl hg)
  | cons p tl ih =>
      intro k v g hg
      obtain ⟨k2, vs⟩ := p
      by_cases h : k2 = k
      · subst h
        have hs : setdefaultAppend ((k2, vs) :: tl) k2 v =
            (k2, vs ++ [v]) :: tl := by
          simp [setdefaultAppend]
        rw [hs, List.mem_cons] at hg
        rcases hg with hg | hg
        · exact Or.inr (Or.inr ⟨vs, List.mem_cons_self _ _, hg⟩)
        · exact Or.inl (List.mem_cons_of_mem _ hg)
      · simp only [setdefaultAppend, if_neg h, List.mem_cons] at hg
        rcases hg with hg | hg
        · exact Or.inl (hg ▸ List.mem_cons_self _ _)
        · rcases ih hg with h2 | h2 | ⟨vs2, hvs2, h2⟩
          · exact Or.inl (List.mem_cons_of_mem _ h2)
          · exact Or.inr (Or.inl h2)
          · exact Or.inr (Or.inr ⟨vs2, List.mem_cons_of_mem _ hvs2, h2⟩)

/-- The monomial-grouping fold of `to_expression`: index-free monomials
are factorised in order, indexed monomials are grouped; counts are
conserved and the accumulated value is the sum of the processed
monomials' contractions. -/
theorem toExprFold1 (ms : MonomialSum) :
    ∀ (l : List (MSKey × (List Index × List Expr)))
      (acc : List Expr ×
        List ((Finset Index × List Index) × List (List Expr × Expr))),
      (∀ p ∈ l, entryWF ms p) →
      (∀ g ∈ acc.2, groupWF g) →
      ∃ es gs,
        (l.foldlM
          (fun (acc : List Expr ×
              List ((Finset Index × List Index) × List (List Expr × Expr)))
            p => do
            let (key, (sum_indices, atomics)) := p
            let rest := msLookup ms.monomials key
            if key.1 = ∅ then do
              let e ← fast_sum_factorise sum_indices (atomics ++ [rest])
              return (acc.1 ++ [e], acc.2)
            else
              return (acc.1,
                setdefaultAppend acc.2 (key.1, sum_indices)
                  (atomics, rest)))
          acc : Except Err _) = .ok (acc.1 ++ es, gs) ∧
        (∀ g ∈ gs, groupWF g) ∧
        es.length + (gs.map (fun g => g.2.length)).sum =
          (acc.2.map (fun g => g.2.length)).sum + l.length ∧
        ∀ (I : Expr → (Index → Nat) → ℚ), IWF I → ∀ σ : Index → Nat,
          (es.map (fun e => evalI I e σ)).sum + groupsSum I σ gs =
            groupsSum I σ acc.2 +
              (l.map (fun p => entryDenote I σ ms p)).sum := by
  intro l
  induction l with
  | nil =>
      intro acc _ haccwf
      exact ⟨[], acc.2, by simp, haccwf, by simp, fun I _ σ => by simp⟩
  | cons p tl ih =>
      obtain ⟨key, si, atomics⟩ := p
      intro acc hwf haccwf
      obtain ⟨hkey, hsnd, h5, halen, hq, hcov⟩ :=
        hwf _ (List.mem_cons_self _ _)
      by_cases hk : key.1 = ∅
      · have hsi : si = [] := by
          have h1 : si.toFinset = key.1 := congrArg Prod.fst hkey
          rw [hk] at h1
          simpa using h1
        obtain ⟨e, hfsf, hev⟩ := fsf_monomial_eval si atomics
          (msLookup ms.monomials key) hsnd h5 halen hq hcov
        obtain ⟨es, gs, hfold, hgwf, hcount, hsem⟩ :=
          ih (acc.1 ++ [e], acc.2)
            (fun q hq2 => hwf q (List.mem_cons_of_mem _ hq2)) haccwf
        refine ⟨e :: es, gs, ?_, hgwf, ?_, ?_⟩
        · rw [List.foldlM_cons]
          simp only [hk, if_true, hfsf, exceptBind_ok, exceptPure_eq]
            at hfold ⊢
          rw [hfold]
          simp
        · have hcount2 : es.length +
              (gs.map (fun g => g.2.length)).sum =
              (acc.2.map (fun g => g.2.length)).sum + tl.length := hcount
          simp only [List.length_cons]
          omega
        · intro I HI σ
          have harr : (es.map (fun e2 => evalI I e2 σ)).sum +
              groupsSum I σ gs = groupsSum I σ acc.2 +
                (tl.map (fun p => entryDenote I σ ms p)).sum :=
            hsem I HI σ
          simp only [List.map_cons, List.sum_cons]
          rw [hev HI σ]
          have hed : entryDenote I σ ms (key, si, atomics) =
              sumOver si σ (fun τ =>
                (atomics.map (fun a => evalI I a τ)).prod *
                  evalI I (msLookup ms.monomials key) τ) := rfl
          rw [hed]
          linarith [harr]
      · obtain ⟨es, gs, hfold, hgwf, hcount, hsem⟩ :=
          ih (acc.1, setdefaultAppend acc.2 (key.1, si)
              (atomics, msLookup ms.monomials key))
            (fun q hq2 => hwf q (List.mem_cons_of_mem _ hq2))
            (by
              intro g hg
              rcases setdefaultAppend_mem hg with hg2 | hg2 |
                ⟨vs, hvs, hg2⟩
              · exact haccwf g hg2
              · rw [hg2]
                refine ⟨hsnd, h5, by simp, ?_⟩
                intro m hm
                rw [List.mem_singleton] at hm
                subst hm
                exact ⟨halen, hq, hcov⟩
              · obtain ⟨hond, ho5, -, homem⟩ := haccwf _ hvs
                rw [hg2]
                refine ⟨hond, ho5, by simp, ?_⟩
                intro m hm
                rcases List.mem_append.mp hm with hm | hm
                · exact homem m hm
                · rw [List.mem_singleton] at hm
                  subst hm
                  exact ⟨halen, hq, hcov⟩)
        refine ⟨es, gs, ?_, hgwf, ?_, ?_⟩
        · rw [List.foldlM_cons]
          simp only [if_neg hk, exceptBind_ok, exceptPure_eq] at hfold ⊢
          rw [hfold]
        · have hcount2 : es.length +
              (gs.map (fun g => g.2.length)).sum =
              ((setdefaultAppend acc.2 (key.1, si)
                (atomics, msLookup ms.monomials key)).map
                  (fun g => g.2.length)).sum + tl.length := hcount
          rw [setdefaultAppend_sum] at hcount2
          simp only [List.length_cons]
          omega
        · intro I HI σ
          have harr : (es.map (fun e2 => evalI I e2 σ)).sum +
              groupsSum I σ gs =
              groupsSum I σ (setdefaultAppend acc.2 (key.1, si)
                (atomics, msLookup ms.monomials key)) +
                (tl.map (fun p => entryDenote I σ ms p)).sum :=
            hsem I HI σ
          have happ := setdefaultAppend_mapsum
            (fun (k : Finset Index × List Index)
              (m : List Expr × Expr) => sumOver k.2 σ (fun τ =>
                (m.1.map (fun a => evalI I a τ)).prod *
                  evalI I m.2 τ))
            acc.2 (key.1, si) (atomics, msLookup ms.monomials key)
          have hgs0 : groupsSum I σ (setdefaultAppend acc.2 (key.1, si)
              (atomics, msLookup ms.monomials key)) =
              groupsSum I σ acc.2 +
                entryDenote I σ ms (key, si, atomics) := happ
          rw [hgs0] at harr
          simp only [List.map_cons, List.sum_cons]
          linarith [harr]

/-- Forming the per-monomial products of a group succeeds and evaluates
pointwise to atomics-product times rest. -/
theorem mapM_products (members : List (List Expr × Expr))
    (hwf : ∀ m ∈ members, m.1.length < 32) :
    ∃ ps, (members.mapM (fun m => do
        let (p, _) ← associate_product (m.1 ++ [m.2])
        return p) : Except Err (List Expr)) = .ok ps ∧
      ps.length = members.length ∧
      ∀ (I : Expr → (Index → Nat) → ℚ) (σ : Index → Nat),
        ps.map (fun p => evalI I p σ) = members.map (fun m =>
          (m.1.map (fun a => evalI I a σ)).prod * evalI I m.2 σ) := by
  induction members with
  | nil => exact ⟨[], rfl, rfl, fun I σ => rfl⟩
  | cons m tl ih =>
      obtain ⟨ps, hmapM, hplen, hpev⟩ :=
        ih (fun m2 hm2 => hwf m2 (List.mem_cons_of_mem _ hm2))
      have hm32 : (m.1 ++ [m.2]).length ≤ 32 := by
        have := hwf m (List.mem_cons_self _ _)
        simp only [List.length_append, List.length_singleton]
        omega
      obtain ⟨p, fl, hap, hapev, -⟩ :=
        associate_product_eval (m.1 ++ [m.2]) (by simp) hm32
      refine ⟨p :: ps, ?_, by simp [hplen], ?_⟩
      · rw [List.mapM_cons]
        simp only [hap, exceptBind_ok, exceptPure_eq] at hmapM ⊢
        rw [hmapM]
        rfl
      · intro I σ
        simp only [List.map_cons, hpev I σ]
        rw [hapev I σ]
        simp [List.map_append]

/-- The group-emission fold of `to_expression`: each monomial group
becomes one expression whose value is the sum of the group's monomial
contractions. -/
theorem toExprFold2 :
    ∀ (gs : List ((Finset Index × List Index) × List (List Expr × Expr))),
      (∀ g ∈ gs, groupWF g) →
      (∀ g ∈ gs, g.2.length ≤ 32) →
      ∀ es0 : List Expr,
      ∃ es2, (gs.foldlM
        (fun (acc : List Expr) g => do
          let ((_, sum_indices), monomials) := g
          match monomials with
          | [(atomics, rest)] => do
              let e ← fast_sum_factorise sum_indices (atomics ++ [rest])
              return (acc ++ [e])
          | _ => do
              let products ← monomials.mapM (fun m => do
                let (p, _) ← associate_product (m.1 ++ [m.2])
                return p)
              let (s, _) ← associate_sum products
              return (acc ++ [Expr.IndexSum s sum_indices]))
        es0 : Except Err (List Expr)) = .ok (es0 ++ es2) ∧
        es2.length = gs.length ∧
        ∀ (I : Expr → (Index → Nat) → ℚ), IWF I → ∀ σ : Index → Nat,
          es2.map (fun e => evalI I e σ) = gs.map (fun g =>
            (g.2.map (fun m => sumOver g.1.2 σ (fun τ =>
              (m.1.map (fun a => evalI I a τ)).prod *
                evalI I m.2 τ))).sum) := by
  intro gs
  induction gs with
  | nil =>
      intro _ _ es0
      exact ⟨[], by simp, rfl, fun I _ σ => rfl⟩
  | cons g tl ih =>
      intro hwf h32 es0
      obtain ⟨⟨kset, si⟩, members⟩ := g
      obtain ⟨hnd, h5, hmne, hmem⟩ := hwf _ (List.mem_cons_self _ _)
      cases members with
      | nil => exact absurd rfl hmne
      | cons m1 mtl =>
          cases mtl with
          | nil =>
              obtain ⟨atomics, rest⟩ := m1
              obtain ⟨halen, hq, hcov⟩ :=
                hmem (atomics, rest) (List.mem_singleton.mpr rfl)
              obtain ⟨e, hfsf, hev⟩ := fsf_monomial_eval si atomics rest
                hnd h5 halen hq hcov
              obtain ⟨es2, hfold, hlen, hevs⟩ :=
                ih (fun g2 hg2 => hwf g2 (List.mem_cons_of_mem _ hg2))
                  (fun g2 hg2 => h32 g2 (List.mem_cons_of_mem _ hg2))
                  (es0 ++ [e])
              refine ⟨e :: es2, ?_, by simp [hlen], ?_⟩
              · rw [List.foldlM_cons]
                simp only [hfsf, exceptBind_ok, exceptPure_eq] at hfold ⊢
                rw [hfold]
                simp
              · intro I HI σ
                simp only [List.map_cons, hevs I HI σ]
                rw [hev HI σ]
                simp
          | cons m2 mtl2 =>
              obtain ⟨ps, hmapM, hplen, hpev⟩ := mapM_products
                (m1 :: m2 :: mtl2) (fun m hm => (hmem m hm).1)
              have hpne : ps ≠ [] := by
                intro hcon
                rw [hcon] at hplen
                simp at hplen
              have hp32 : (firstOccKeys
                  (ps.map Expr.freeIndices)).length ≤ 32 := by
                refine le_trans (firstOccKeys_length _) ?_
                rw [List.length_map, hplen]
                exact h32 _ (List.mem_cons_self _ _)
              obtain ⟨s, fl, hassum, hsev⟩ :=
                associate_sum_eval ps hpne hp32
              obtain ⟨es2, hfold, hlen, hevs⟩ :=
                ih (fun g2 hg2 => hwf g2 (List.mem_cons_of_mem _ hg2))
                  (fun g2 hg2 => h32 g2 (List.mem_cons_of_mem _ hg2))
                  (es0 ++ [Expr.IndexSum s si])
              refine ⟨Expr.IndexSum s si :: es2, ?_, by simp [hlen], ?_⟩
              · rw [List.foldlM_cons]
                simp only [exceptBind_ok, exceptPure_eq] at hmapM hfold ⊢
                rw [hmapM]
                simp only [exceptBind_ok, hassum, exceptPure_eq]
                rw [hfold]
                simp
              · intro I HI σ
                simp only [List.map_cons, hevs I HI σ]
                have hIS : evalI I (Expr.IndexSum s si) σ =
                    sumOver si σ (fun τ => evalI I s τ) := rfl
                rw [hIS,
                  sumOver_ext _ _ _ _ (fun τ => hsev I τ),
                  sumOver_ext _ _ _ _ (fun τ =>
                    congrArg List.sum (hpev I τ)),
                  sumOver_sum_list]
                rfl

/-- Converting a well-formed MonomialSum to an expression succeeds, and
the expression denotes the sum of the monomials' contractions under every
coherent interpretation and assignment. -/
theorem to_expression_eval (ms : MonomialSum) (h : MSWF ms) :
    ∃ E, ms.to_expression = .ok E ∧
      ∀ {I : Expr → (Index → Nat) → ℚ}, IWF I → ∀ σ : Index → Nat,
        evalI I E σ = msDenoteI I σ ms := by
  obtain ⟨hne, h32, hnd, hal, hwf⟩ := h
  obtain ⟨es1, gs, hfold1, hgwf, hcount, hsem1⟩ :=
    toExprFold1 ms ms.ordering ([], []) hwf (by simp)
  have hcount2 : es1.length + (gs.map (fun g => g.2.length)).sum =
      ms.ordering.length := by simpa using hcount
  have hg32 : ∀ g ∈ gs, g.2.length ≤ 32 := by
    intro g hg
    have h1 : g.2.length ≤ (gs.map (fun g => g.2.length)).sum :=
      le_sum_of_mem (List.mem_map_of_mem _ hg)
    omega
  obtain ⟨es2, hfold2, hlen2, hsem2⟩ := toExprFold2 gs hgwf hg32 es1
  have hglen : gs.length ≤ (gs.map (fun g => g.2.length)).sum := by
    have := length_le_sum_of_pos (l := gs.map (fun g => g.2.length))
      (by
        intro x hx
        rw [List.mem_map] at hx
        obtain ⟨g, hg, rfl⟩ := hx
        have := (hgwf g hg).2.2.1
        cases hgl : g.2 with
        | nil => exact absurd hgl this
        | cons a b => simp [hgl])
    simpa using this
  have hone : 1 ≤ ms.ordering.length := by
    cases hord : ms.ordering with
    | nil => exact absurd hord hne
    | cons a b => simp [hord]
  have hne12 : es1 ++ es2 ≠ [] := by
    intro hcon
    rw [List.append_eq_nil] at hcon
    obtain ⟨h1, h2⟩ := hcon
    have hz1 : es1.length = 0 := by rw [h1]; rfl
    have hz2 : es2.length = 0 := by rw [h2]; rfl
    rw [hlen2] at hz2
    have : (gs.map (fun g => g.2.length)).sum = 0 := by
      have : gs = [] := List.length_eq_zero.mp hz2
      rw [this]
      rfl
    omega
  have hcnt : (firstOccKeys
      ((es1 ++ es2).map Expr.freeIndices)).length ≤ 32 := by
    refine le_trans (firstOccKeys_length _) ?_
    simp only [List.length_map, List.length_append]
    omega
  obtain ⟨E, fl, hassum, hEev⟩ := associate_sum_eval (es1 ++ es2)
    hne12 hcnt
  have hfold1n : (ms.ordering.foldlM
      (fun (acc : List Expr ×
          List ((Finset Index × List Index) × List (List Expr × Expr)))
        p => do
        let (key, (sum_indices, atomics)) := p
        let rest := msLookup ms.monomials key
        if key.1 = ∅ then do
          let e ← fast_sum_factorise sum_indices (atomics ++ [rest])
          return (acc.1 ++ [e], acc.2)
        else
          return (acc.1,
            setdefaultAppend acc.2 (key.1, sum_indices) (atomics, rest)))
      ([], []) : Except Err _) = .ok (es1, gs) := by
    simpa using hfold1
  refine ⟨E, ?_, ?_⟩
  · unfold MonomialSum.to_expression
    rw [hfold1n]
    simp only [exceptBind_ok]
    rw [hfold2]
    simp only [exceptBind_ok, hassum, exceptPure_eq]
  · intro I HI σ
    rw [hEev I σ, List.map_append, List.sum_append]
    have h1 : (es1.map (fun e => evalI I e σ)).sum + groupsSum I σ gs =
        msDenoteI I σ ms := by
      have := hsem1 I HI σ
      have hz : groupsSum I σ ([] :
          List ((Finset Index × List Index) ×
            List (List Expr × Expr))) = 0 := rfl
      rw [hz] at this
      rw [this]
      show 0 + _ = _
      rw [zero_add]
      rfl
    have h2 : (es2.map (fun e => evalI I e σ)).sum = groupsSum I σ gs := by
      rw [hsem2 I HI σ]
      rfl
    linarith

/-- The delta queue splits over concatenated factor lists. -/
theorem deltaQueue_append (si : List Index) (l1 l2 : List Expr) :
    deltaQueue si (l1 ++ l2) = deltaQueue si l1 ++ deltaQueue si l2 := by
  simp [deltaQueue, List.flatMap_append]

/-- A `Sum` factor contributes nothing to the delta queue. -/
theorem deltaQueue_sum_singleton (si : List Index) (a b : Expr) :
    deltaQueue si [.Sum a b] = [] := rfl

instance (ms : MonomialSum) (p : MSKey × (List Index × List Expr)) :
    Decidable (entryWF ms p) := by
  unfold entryWF
  infer_instance

instance (ms : MonomialSum) : Decidable (MSWF ms) := by
  unfold MSWF
  infer_instance

/-- Under key regeneration, a stored monomial's contraction can be read
off its key alone: contract over the key's index set (in `toList` order)
and multiply the key's atomics multiset. -/
theorem entry_key_sum (I : Expr → (Index → Nat) → ℚ) (σ : Index → Nat)
    (p : MSKey × (List Index × List Expr)) (r : Expr)
    (hk : keyOf p.2.1 p.2.2 = p.1) (hnd : p.2.1.Nodup) :
    sumOver p.2.1 σ (fun τ => (p.2.2.map (fun a => evalI I a τ)).prod *
        evalI I r τ) =
      sumOver p.1.1.toList σ (fun τ =>
        (Multiset.map (fun a => evalI I a τ) p.1.2).prod * evalI I r τ) := by
  obtain ⟨k, si, atomics⟩ := p
  simp only at hk hnd ⊢
  subst hk
  have hperm : si.Perm (si.toFinset.toList) := by
    rw [List.perm_ext_iff_of_nodup hnd (Finset.nodup_toList _)]
    intro a
    simp [Finset.mem_toList]
  rw [sumOver_perm hperm hnd]
  refine sumOver_ext _ _ _ _ ?_
  intro τ
  simp [keyOf, Multiset.map_coe, Multiset.prod_coe]

/-- Merging two well-formed MonomialSums adds their values: the merged
`rest` accumulators contribute each original contraction exactly once,
whether the keys are disjoint or shared. -/
theorem msDenoteI_sum_pair (A B : MonomialSum) (hA : MSWF A) (hB : MSWF B)
    (I : Expr → (Index → Nat) → ℚ) (σ : Index → Nat) :
    msDenoteI I σ (MonomialSum.sum [A, B]) =
      msDenoteI I σ A + msDenoteI I σ B := by
  obtain ⟨-, -, hAnd, hAal, hAwf⟩ := hA
  obtain ⟨-, -, hBnd, hBal, hBwf⟩ := hB
  have hAmnd : (A.monomials.map Prod.fst).Nodup := by rw [hAal]; exact hAnd
  have hBmnd : (B.monomials.map Prod.fst).Nodup := by rw [hBal]; exact hBnd
  have hordA : mergeOrd [] A.ordering = A.ordering := by
    have h := mergeOrd_eq A.ordering [] hAnd
    simpa using h
  have hord : (MonomialSum.sum [A, B]).ordering =
      A.ordering ++ B.ordering.filter
        (fun p => decide (p.1 ∉ A.ordering.map Prod.fst)) := by
    have h : (MonomialSum.sum [A, B]).ordering =
        mergeOrd (mergeOrd [] A.ordering) B.ordering := by
      rw [sum_pair_eq]
    rw [h, hordA, mergeOrd_eq B.ordering A.ordering hBnd]
  have hzl : ∀ k, msLookup ([] : List (MSKey × Expr)) k = .Zero [] :=
    fun _ => rfl
  have hmonA : ∀ k, msLookup (mergeMon [] A.monomials) k =
      if k ∈ A.monomials.map Prod.fst
      then .Sum (.Zero []) (msLookup A.monomials k) else .Zero [] := by
    intro k
    have h := mergeMon_lookup A.monomials [] hAmnd k
    rw [hzl k] at h
    exact h
  have hmonS : ∀ k, msLookup (MonomialSum.sum [A, B]).monomials k =
      if k ∈ B.monomials.map Prod.fst
      then .Sum (msLookup (mergeMon [] A.monomials) k)
        (msLookup B.monomials k)
      else msLookup (mergeMon [] A.monomials) k := by
    intro k
    have h : (MonomialSum.sum [A, B]).monomials =
        mergeMon (mergeMon [] A.monomials) B.monomials := by
      rw [sum_pair_eq]
    rw [h]
    exact mergeMon_lookup B.monomials _ hBmnd k
  have hS : msDenoteI I σ (MonomialSum.sum [A, B]) =
      ((A.ordering.map
        (fun p => entryDenote I σ (MonomialSum.sum [A, B]) p)).sum) +
      (((B.ordering.filter
        (fun p => decide (p.1 ∉ A.ordering.map Prod.fst))).map
          (fun p => entryDenote I σ (MonomialSum.sum [A, B]) p)).sum) := by
    unfold msDenoteI
    rw [hord, List.map_append, List.sum_append]
  have hterm2 : ((B.ordering.filter
      (fun p => decide (p.1 ∉ A.ordering.map Prod.fst))).map
        (fun p => entryDenote I σ (MonomialSum.sum [A, B]) p)).sum =
      ((B.ordering.filter
        (fun p => decide (p.1 ∉ A.ordering.map Prod.fst))).map
          (fun p => entryDenote I σ B p)).sum := by
    refine congrArg List.sum (List.map_congr_left ?_)
    intro p hp
    rw [List.mem_filter] at hp
    obtain ⟨hpB, hpnotA⟩ := hp
    rw [decide_eq_true_eq] at hpnotA
    have hpnotAm : p.1 ∉ A.monomials.map Prod.fst := by
      rw [hAal]; exact hpnotA
    have hpBk : p.1 ∈ B.monomials.map Prod.fst := by
      rw [hBal]; exact List.mem_map_of_mem Prod.fst hpB
    have hlook : msLookup (MonomialSum.sum [A, B]).monomials p.1 =
        .Sum (.Zero []) (msLookup B.monomials p.1) := by
      rw [hmonS p.1, if_pos hpBk, hmonA p.1, if_neg hpnotAm]
    unfold entryDenote
    rw [hlook]
    exact sumOver_ext _ _ _ _ (fun τ => by simp [evalI])
  have hterm1 : (A.ordering.map
      (fun p => entryDenote I σ (MonomialSum.sum [A, B]) p)).sum =
      msDenoteI I σ A +
      ((A.ordering.filter
        (fun p => decide (p.1 ∈ B.monomials.map Prod.fst))).map
          (fun p => sumOver p.2.1 σ (fun τ =>
            (p.2.2.map (fun a => evalI I a τ)).prod *
              evalI I (msLookup B.monomials p.1) τ))).sum := by
    have hpt : ∀ p ∈ A.ordering,
        entryDenote I σ (MonomialSum.sum [A, B]) p =
        entryDenote I σ A p +
          (if p.1 ∈ B.monomials.map Prod.fst
           then sumOver p.2.1 σ (fun τ =>
             (p.2.2.map (fun a => evalI I a τ)).prod *
               evalI I (msLookup B.monomials p.1) τ)
           else 0) := by
      intro p hp
      have hpAk : p.1 ∈ A.monomials.map Prod.fst := by
        rw [hAal]; exact List.mem_map_of_mem Prod.fst hp
      by_cases hpB : p.1 ∈ B.monomials.map Prod.fst
      · rw [if_pos hpB]
        have hlook : msLookup (MonomialSum.sum [A, B]).monomials p.1 =
            .Sum (.Sum (.Zero []) (msLookup A.monomials p.1))
              (msLookup B.monomials p.1) := by
          rw [hmonS p.1, if_pos hpB, hmonA p.1, if_pos hpAk]
        unfold entryDenote
        rw [hlook]
        calc sumOver p.2.1 σ (fun τ =>
              (p.2.2.map (fun a => evalI I a τ)).prod *
                evalI I (.Sum (.Sum (.Zero [])
                  (msLookup A.monomials p.1))
                  (msLookup B.monomials p.1)) τ) =
            sumOver p.2.1 σ (fun τ =>
              ((p.2.2.map (fun a => evalI I a τ)).prod *
                evalI I (msLookup A.monomials p.1) τ) +
              ((p.2.2.map (fun a => evalI I a τ)).prod *
                evalI I (msLookup B.monomials p.1) τ)) :=
              sumOver_ext _ _ _ _ (fun τ => by simp [evalI]; ring)
          _ = _ := sumOver_add _ _ _ _
      · rw [if_neg hpB, add_zero]
        have hlook : msLookup (MonomialSum.sum [A, B]).monomials p.1 =
            .Sum (.Zero []) (msLookup A.monomials p.1) := by
          rw [hmonS p.1, if_neg hpB, hmonA p.1, if_pos hpAk]
        unfold entryDenote
        rw [hlook]
        exact sumOver_ext _ _ _ _ (fun τ => by simp [evalI])
    calc (A.ordering.map
        (fun p => entryDenote I σ (MonomialSum.sum [A, B]) p)).sum =
        (A.ordering.map (fun p => entryDenote I σ A p +
          (if p.1 ∈ B.monomials.map Prod.fst
           then sumOver p.2.1 σ (fun τ =>
             (p.2.2.map (fun a => evalI I a τ)).prod *
               evalI I (msLookup B.monomials p.1) τ)
           else 0))).sum :=
          congrArg List.sum (List.map_congr_left hpt)
      _ = (A.ordering.map (fun p => entryDenote I σ A p)).sum +
          (A.ordering.map (fun p =>
            (if p.1 ∈ B.monomials.map Prod.fst
             then sumOver p.2.1 σ (fun τ =>
               (p.2.2.map (fun a => evalI I a τ)).prod *
                 evalI I (msLookup B.monomials p.1) τ)
             else 0))).sum := sum_map_add _ _ _
      _ = msDenoteI I σ A +
          ((A.ordering.filter
            (fun p => decide (p.1 ∈ B.monomials.map Prod.fst))).map
              (fun p => sumOver p.2.1 σ (fun τ =>
                (p.2.2.map (fun a => evalI I a τ)).prod *
                  evalI I (msLookup B.monomials p.1) τ))).sum := by
          rw [sum_map_ite_filter]
          rfl
  have hcross :
      ((A.ordering.filter
        (fun p => decide (p.1 ∈ B.monomials.map Prod.fst))).map
          (fun p => sumOver p.2.1 σ (fun τ =>
            (p.2.2.map (fun a => evalI I a τ)).prod *
              evalI I (msLookup B.monomials p.1) τ))).sum =
      ((B.ordering.filter
        (fun p => decide (p.1 ∈ A.ordering.map Prod.fst))).map
          (fun p => entryDenote I σ B p)).sum := by
    have hAside : (A.ordering.filter
        (fun p => decide (p.1 ∈ B.monomials.map Prod.fst))).map
          (fun p => sumOver p.2.1 σ (fun τ =>
            (p.2.2.map (fun a => evalI I a τ)).prod *
              evalI I (msLookup B.monomials p.1) τ)) =
        ((A.ordering.filter
          (fun p => decide (p.1 ∈ B.monomials.map Prod.fst))).map
            Prod.fst).map (fun k => sumOver k.1.toList σ (fun τ =>
              (Multiset.map (fun a => evalI I a τ) k.2).prod *
                evalI I (msLookup B.monomials k) τ)) := by
      rw [List.map_map]
      refine List.map_congr_left ?_
      intro p hp
      rw [List.mem_filter] at hp
      have hwfp := hAwf p hp.1
      exact entry_key_sum I σ p (msLookup B.monomials p.1) hwfp.1 hwfp.2.1
    have hBside : (B.ordering.filter
        (fun p => decide (p.1 ∈ A.ordering.map Prod.fst))).map
          (fun p => entryDenote I σ B p) =
        ((B.ordering.filter
          (fun p => decide (p.1 ∈ A.ordering.map Prod.fst))).map
            Prod.fst).map (fun k => sumOver k.1.toList σ (fun τ =>
              (Multiset.map (fun a => evalI I a τ) k.2).prod *
                evalI I (msLookup B.monomials k) τ)) := by
      rw [List.map_map]
      refine List.map_congr_left ?_
      intro p hp
      rw [List.mem_filter] at hp
      have hwfp := hBwf p hp.1
      exact entry_key_sum I σ p (msLookup B.monomials p.1) hwfp.1 hwfp.2.1
    have hnd1 : ((A.ordering.filter
        (fun p => decide (p.1 ∈ B.monomials.map Prod.fst))).map
          Prod.fst).Nodup :=
      List.Nodup.sublist (List.Sublist.map Prod.fst (List.filter_sublist _))
        hAnd
    have hnd2 : ((B.ordering.filter
        (fun p => decide (p.1 ∈ A.ordering.map Prod.fst))).map
          Prod.fst).Nodup :=
      List.Nodup.sublist (List.Sublist.map Prod.fst (List.filter_sublist _))
        hBnd
    have hkperm : ((A.ordering.filter
        (fun p => decide (p.1 ∈ B.monomials.map Prod.fst))).map
          Prod.fst).Perm
        ((B.ordering.filter
          (fun p => decide (p.1 ∈ A.ordering.map Prod.fst))).map
            Prod.fst) := by
      rw [List.perm_ext_iff_of_nodup hnd1 hnd2]
      intro k
      simp only [List.mem_map, List.mem_filter, decide_eq_true_eq]
      constructor
      · rintro ⟨p, ⟨hpA, hpB⟩, rfl⟩
        have hpB' : p.1 ∈ B.ordering.map Prod.fst := by
          rw [← hBal]
          exact List.mem_map.mpr hpB
        obtain ⟨q, hq, hq1⟩ := List.mem_map.mp hpB'
        refine ⟨q, ⟨hq, ?_⟩, hq1⟩
        rw [hq1]
        exact ⟨p, hpA, rfl⟩
      · rintro ⟨q, ⟨hqB, hqA⟩, rfl⟩
        obtain ⟨p, hp, hp1⟩ := hqA
        refine ⟨p, ⟨hp, ?_⟩, hp1⟩
        rw [hp1]
        have hq1 : q.1 ∈ B.monomials.map Prod.fst := by
          rw [hBal]
          exact List.mem_map_of_mem Prod.fst hqB
        exact List.mem_map.mp hq1
    rw [hAside, hBside]
    exact List.Perm.sum_eq (List.Perm.map _ hkperm)
  have hBsplit : msDenoteI I σ B =
      ((B.ordering.filter
        (fun p => decide (p.1 ∈ A.ordering.map Prod.fst))).map
          (fun p => entryDenote I σ B p)).sum +
      ((B.ordering.filter
        (fun p => decide (p.1 ∉ A.ordering.map Prod.fst))).map
          (fun p => entryDenote I σ B p)).sum := by
    have h : (B.ordering.map (fun p => entryDenote I σ B p)).sum =
        ((B.ordering.filter (fun p =>
          decide (p.1 ∈ A.ordering.map Prod.fst))).map
            (fun p => entryDenote I σ B p)).sum +
        ((B.ordering.filter (fun p =>
          !decide (p.1 ∈ A.ordering.map Prod.fst))).map
            (fun p => entryDenote I σ B p)).sum :=
      sum_map_filter_split _ _ _
    have hfc : (B.ordering.filter (fun p =>
        !decide (p.1 ∈ A.ordering.map Prod.fst))) =
        (B.ordering.filter
          (fun p => decide (p.1 ∉ A.ordering.map Prod.fst))) := by
      refine List.filter_congr ?_
      intro p _
      simp [decide_not]
    rw [hfc] at h
    exact h
  rw [hS, hterm1, hterm2, hcross, hBsplit]
  ring

/-- Pairwise `MonomialSum.sum` preserves well-formedness as long as the
merged monomial count stays within the greedy-association capacity: the
merged rests are `Sum` nodes, which are delta-inert and keep every
original free index. -/
theorem MSWF_sum_pair (A B : MonomialSum) (hA : MSWF A) (hB : MSWF B)
    (hlen : A.ordering.length + B.ordering.length ≤ 32) :
    MSWF (MonomialSum.sum [A, B]) := by
  obtain ⟨hAne, -, hAnd, hAal, hAwf⟩ := hA
  obtain ⟨-, -, hBnd, hBal, hBwf⟩ := hB
  have hAmnd : (A.monomials.map Prod.fst).Nodup := by rw [hAal]; exact hAnd
  have hBmnd : (B.monomials.map Prod.fst).Nodup := by rw [hBal]; exact hBnd
  have hordA : mergeOrd [] A.ordering = A.ordering := by
    have h := mergeOrd_eq A.ordering [] hAnd
    simpa using h
  have hord : (MonomialSum.sum [A, B]).ordering =
      A.ordering ++ B.ordering.filter
        (fun p => decide (p.1 ∉ A.ordering.map Prod.fst)) := by
    have h : (MonomialSum.sum [A, B]).ordering =
        mergeOrd (mergeOrd [] A.ordering) B.ordering := by
      rw [sum_pair_eq]
    rw [h, hordA, mergeOrd_eq B.ordering A.ordering hBnd]
  have hzl : ∀ k, msLookup ([] : List (MSKey × Expr)) k = .Zero [] :=
    fun _ => rfl
  have hmonA : ∀ k, msLookup (mergeMon [] A.monomials) k =
      if k ∈ A.monomials.map Prod.fst
      then .Sum (.Zero []) (msLookup A.monomials k) else .Zero [] := by
    intro k
    have h := mergeMon_lookup A.monomials [] hAmnd k
    rw [hzl k] at h
    exact h
  have hmonS : ∀ k, msLookup (MonomialSum.sum [A, B]).monomials k =
      if k ∈ B.monomials.map Prod.fst
      then .Sum (msLookup (mergeMon [] A.monomials) k)
        (msLookup B.monomials k)
      else msLookup (mergeMon [] A.monomials) k := by
    intro k
    have h : (MonomialSum.sum [A, B]).monomials =
        mergeMon (mergeMon [] A.monomials) B.monomials := by
      rw [sum_pair_eq]
    rw [h]
    exact mergeMon_lookup B.monomials _ hBmnd k
  refine ⟨?_, ?_, ?_, ?_, ?_⟩
  · rw [hord]
    intro hcon
    rw [List.append_eq_nil] at hcon
    exact hAne hcon.1
  · rw [hord, List.length_append]
    have := List.length_filter_le
      (fun p => decide (p.1 ∉ A.ordering.map Prod.fst)) B.ordering
    omega
  · rw [hord, List.map_append, filter_keys_map, List.nodup_append]
    refine ⟨hAnd, List.Nodup.filter _ hBnd, ?_⟩
    intro k hk1 hk2
    rw [List.mem_filter, decide_eq_true_eq] at hk2
    exact hk2.2 hk1
  · have hkeysA : (mergeMon [] A.monomials).map Prod.fst =
        A.monomials.map Prod.fst := by
      have h := mergeMon_keys A.monomials [] hAmnd
      simpa using h
    have hkeysS : (MonomialSum.sum [A, B]).monomials.map Prod.fst =
        A.monomials.map Prod.fst ++
          (B.monomials.map Prod.fst).filter
            (fun k => decide (k ∉ A.monomials.map Prod.fst)) := by
      have h : (MonomialSum.sum [A, B]).monomials =
          mergeMon (mergeMon [] A.monomials) B.monomials := by
        rw [sum_pair_eq]
      rw [h, mergeMon_keys B.monomials _ hBmnd, hkeysA]
    rw [hkeysS, hord, List.map_append, filter_keys_map, hAal, hBal]
  · intro p hp
    rw [hord, List.mem_append] at hp
    rcases hp with hpA | hpB
    · obtain ⟨hkey, hndp, h5, h32, hq, hcov⟩ := hAwf p hpA
      have hpAk : p.1 ∈ A.monomials.map Prod.fst := by
        rw [hAal]; exact List.mem_map_of_mem Prod.fst hpA
      have hqsplit := hq
      rw [deltaQueue_append, List.append_eq_nil] at hqsplit
      by_cases hpBk : p.1 ∈ B.monomials.map Prod.fst
      · have hlook : msLookup (MonomialSum.sum [A, B]).monomials p.1 =
            .Sum (.Sum (.Zero []) (msLookup A.monomials p.1))
              (msLookup B.monomials p.1) := by
          rw [hmonS p.1, if_pos hpBk, hmonA p.1, if_pos hpAk]
        refine ⟨hkey, hndp, h5, h32, ?_, ?_⟩
        · rw [hlook, deltaQueue_append, hqsplit.1, deltaQueue_sum_singleton]
          rfl
        · intro s hs
          obtain ⟨f, hf, hsf⟩ := hcov s hs
          rw [List.mem_append] at hf
          rcases hf with hf | hf
          · exact ⟨f, List.mem_append_left _ hf, hsf⟩
          · rw [List.mem_singleton] at hf
            subst hf
            refine ⟨msLookup (MonomialSum.sum [A, B]).monomials p.1,
              List.mem_append_right _ (List.mem_singleton.mpr rfl), ?_⟩
            rw [hlook]
            simp only [Expr.freeIndices, Finset.mem_union]
            exact Or.inl (Or.inr hsf)
      · have hlook : msLookup (MonomialSum.sum [A, B]).monomials p.1 =
            .Sum (.Zero []) (msLookup A.monomials p.1) := by
          rw [hmonS p.1, if_neg hpBk, hmonA p.1, if_pos hpAk]
        refine ⟨hkey, hndp, h5, h32, ?_, ?_⟩
        · rw [hlook, deltaQueue_append, hqsplit.1, deltaQueue_sum_singleton]
          rfl
        · intro s hs
          obtain ⟨f, hf, hsf⟩ := hcov s hs
          rw [List.mem_append] at hf
          rcases hf with hf | hf
          · exact ⟨f, List.mem_append_left _ hf, hsf⟩
          · rw [List.mem_singleton] at hf
            subst hf
            refine ⟨msLookup (MonomialSum.sum [A, B]).monomials p.1,
              List.mem_append_right _ (List.mem_singleton.mpr rfl), ?_⟩
            rw [hlook]
            simp only [Expr.freeIndices, Finset.mem_union]
            exact Or.inr hsf
    · rw [List.mem_filter, decide_eq_true_eq] at hpB
      obtain ⟨hpBo, hpnotA⟩ := hpB
      obtain ⟨hkey, hndp, h5, h32, hq, hcov⟩ := hBwf p hpBo
      have hpnotAm : p.1 ∉ A.monomials.map Prod.fst := by
        rw [hAal]; exact hpnotA
      have hpBk : p.1 ∈ B.monomials.map Prod.fst := by
        rw [hBal]; exact List.mem_map_of_mem Prod.fst hpBo
      have hlook : msLookup (MonomialSum.sum [A, B]).monomials p.1 =
          .Sum (.Zero []) (msLookup B.monomials p.1) := by
        rw [hmonS p.1, if_pos hpBk, hmonA p.1, if_neg hpnotAm]
      have hqsplit := hq
      rw [deltaQueue_append, List.append_eq_nil] at hqsplit
      refine ⟨hkey, hndp, h5, h32, ?_, ?_⟩
      · rw [hlook, deltaQueue_append, hqsplit.1, deltaQueue_sum_singleton]
        rfl
      · intro s hs
        obtain ⟨f, hf, hsf⟩ := hcov s hs
        rw [List.mem_append] at hf
        rcases hf with hf | hf
        · exact ⟨f, List.mem_append_left _ hf, hsf⟩
        · rw [List.mem_singleton] at hf
          subst hf
          refine ⟨msLookup (MonomialSum.sum [A, B]).monomials p.1,
            List.mem_append_right _ (List.mem_singleton.mpr rfl), ?_⟩
          rw [hlook]
          simp only [Expr.freeIndices, Finset.mem_union]
          exact Or.inr hsf

/-- A contraction index of extent 2 for the summation witness. -/
def wIdx : Index := ⟨0, 2⟩

/-- Witness atomic factor carrying the contraction index. -/
def wAtomic : Expr := .Indexed (.Variable 5 [2]) [.free wIdx]

/-- First witness MonomialSum: one monomial contracting `wIdx`. -/
def wA : MonomialSum :=
  ⟨[(keyOf [wIdx] [wAtomic], .Literal 3)],
   [(keyOf [wIdx] [wAtomic], ([wIdx], [wAtomic]))], none⟩

/-- Second witness MonomialSum: the same contraction key, another rest. -/
def wB : MonomialSum :=
  ⟨[(keyOf [wIdx] [wAtomic], .Literal 5)],
   [(keyOf [wIdx] [wAtomic], ([wIdx], [wAtomic]))], none⟩

/-- C4 (amended): for well-formed MonomialSums `A` and `B` — nonempty,
with duplicate-free aligned keys regenerable from the stored monomial
data, at most five contraction indices per monomial, fewer than 32
atomics per monomial, delta-inert factors, every contraction index
covered by its monomial's factors — whose combined monomial count is at
most 32, `to_expression` of `MonomialSum.sum [A, B]` succeeds and
evaluates identically, under every coherent interpretation of the opaque
nodes and every assignment of free indices, to the sum of the values of
`to_expression A` and `to_expression B`.  Without the well-formedness
restriction the claim fails: converting the merge of two empty
MonomialSums raises a ValueError (`to_expression_empty_error`). -/
theorem to_expression_sum (A B : MonomialSum) (hA : MSWF A) (hB : MSWF B)
    (hlen : A.ordering.length + B.ordering.length ≤ 32) :
    ∃ EA EB ES,
      A.to_expression = .ok EA ∧ B.to_expression = .ok EB ∧
      (MonomialSum.sum [A, B]).to_expression = .ok ES ∧
      ∀ {I : Expr → (Index → Nat) → ℚ}, IWF I → ∀ σ : Index → Nat,
        evalI I ES σ = evalI I EA σ + evalI I EB σ := by
  obtain ⟨EA, hEA, hevA⟩ := to_expression_eval A hA
  obtain ⟨EB, hEB, hevB⟩ := to_expression_eval B hB
  obtain ⟨ES, hES, hevS⟩ :=
    to_expression_eval (MonomialSum.sum [A, B]) (MSWF_sum_pair A B hA hB hlen)
  refine ⟨EA, EB, ES, hEA, hEB, hES, ?_⟩
  intro I HI σ
  rw [hevS HI σ, msDenoteI_sum_pair A B hA hB I σ, hevA HI σ, hevB HI σ]

/-- The summation theorem applies to concrete single-monomial sums that
share a nonempty contraction key: the merge contracts a genuine summation
index and still denotes the sum of the two conversions. -/
theorem to_expression_sum_witness :
    MSWF wA ∧ MSWF wB ∧
    wA.ordering.length + wB.ordering.length ≤ 32 ∧
    ∃ EA EB ES,
      wA.to_expression = .ok EA ∧ wB.to_expression = .ok EB ∧
      (MonomialSum.sum [wA, wB]).to_expression = .ok ES ∧
      ∀ {I : Expr → (Index → Nat) → ℚ}, IWF I → ∀ σ : Index → Nat,
        evalI I ES σ = evalI I EA σ + evalI I EB σ :=
  ⟨by decide, by decide, by decide,
    to_expression_sum wA wB (by decide) (by decide) (by decide)⟩

end Gem
